import Mathlib

/-! # zcm-gen, C backend (`gen/emit/EmitC.cpp`): the code it generates

`EmitC.cpp` prints, for every struct of a schema, a C translation unit with the
functions `__S_hash_recursive`, `__S_get_hash`, `__S_encode_array`, `S_encode`,
`__S_encoded_array_size`, `S_encoded_size`, `__S_decode_array`, `S_decode`, ...
This development embeds the *generated* functions: each Lean definition below is
the meaning of the C text that one `emit...` member function of `EmitSource` prints,
statement by statement, as a function of the schema (`ZCMGen`, `ZCMStruct`,
`ZCMMember`, `ZCMDimension`).

Machine integers are natural numbers / integers with explicit reduction:
`uint32_t` values are `Nat` modulo `2^32`, `uint64_t` values `Nat` modulo `2^64`,
`int` and `int64_t` values are `Int`.
-/

namespace ZCM

/-! ## The type model used by the emitter -/

/-- Modelled from the spec: the type model is declared in `ZCMGen.hpp`, which is not among
the sources. "Dimension — one axis of an array member: a `mode` (`CONST` | `VAR`) and a
`size` token." This is the mode (`zd.mode`). -/
inductive ZCMDimensionMode where
  | ZCM_CONST
  | ZCM_VAR
deriving DecidableEq, Repr

/-- Modelled from the spec: one array axis (`zm.dimensions[i]`, of `ZCMGen.hpp`): "a
`mode` (`CONST` | `VAR`) and a `size` token. `CONST` size is a literal integer ... `VAR`
size is the name of a sibling integer member that holds the runtime extent". -/
structure ZCMDimension where
  mode : ZCMDimensionMode
  size : String
deriving DecidableEq, Repr

/-- Modelled from the spec: `StringUtil::dotsToUnderscores` of `util/StringUtil.hpp`,
which is not among the sources: the "underscore-joined" form, every `.` becomes `_`. -/
def dotsToUnderscores (s : String) : String :=
  String.mk (s.data.map (fun c => if c = '.' then '_' else c))

/-- The function `dotsToSlashes` of `EmitC.cpp`, `StringUtil::replace(s, '.', '/')`: the
"slash-joined" form, every `.` becomes `/`. -/
def dotsToSlashes (s : String) : String :=
  String.mk (s.data.map (fun c => if c = '.' then '/' else c))

/-- Modelled from the spec: `ZCMTypename` is declared in `ZCMGen.hpp`, which is not among
the sources. "TypeName — a fully-qualified name: package path (dot-separated, possibly
empty) + short name. Provides derived forms (underscore-joined, slash-joined)". The
emitter reads `fullname`, `package`, `shortname` and `nameUnderscore()`. -/
structure ZCMTypename where
  fullname : String
  package : String
  shortname : String
deriving DecidableEq, Repr

/-- The underscore-joined form `nameUnderscore()`: the C identifier of the type. -/
def ZCMTypename.nameUnderscore (t : ZCMTypename) : String :=
  dotsToUnderscores t.fullname

/-- Modelled from the spec: a member of a struct (`zm`, of `ZCMGen.hpp`). "Member — a
name, a `TypeName` (primitive or user-defined), a dimension list, an optional doc
comment." -/
structure ZCMMember where
  type : ZCMTypename
  membername : String
  dimensions : List ZCMDimension
  comment : String
deriving DecidableEq, Repr

/-- Modelled from the spec: a constant of a struct (`zc`, of `ZCMGen.hpp`). "Constant —
name, primitive scalar type ..., literal value string, doc comment." -/
structure ZCMConstant where
  type : String
  membername : String
  valstr : String
  comment : String
deriving DecidableEq, Repr

/-- Modelled from the spec: a struct of the schema (`zs`, of `ZCMGen.hpp`). "StructType —
fully-qualified name, ordered list of Members (order is the wire order and is
significant), list of Constants, a source location"; `hash` is the stored "fixed 64-bit
base constant" that the emitter prints as `0x%016PRIx64LL`. -/
structure ZCMStruct where
  structname : ZCMTypename
  members : List ZCMMember
  constants : List ZCMConstant
  hash : Nat
  comment : String
  zcmfile : String
deriving DecidableEq, Repr

/-- Modelled from the spec: the schema handed to the emitter (`zcm.structs`, of
`ZCMGen.hpp`): "the overall schema holds and exclusively owns the list of all
StructTypes for the compilation unit". -/
structure ZCMGen where
  structs : List ZCMStruct
deriving DecidableEq, Repr

/-- Modelled from the spec: `zm.isConstantSizeArray()` of `ZCMGen.hpp`. "a member is
constant-shaped iff every dimension has `CONST` mode" (so a scalar is). -/
def ZCMMember.isConstantSizeArray (zm : ZCMMember) : Bool :=
  zm.dimensions.all (fun zd => zd.mode = ZCMDimensionMode.ZCM_CONST)

/-- Resolution of a C symbol `__T_...` to the struct whose generated file defines it:
the struct of the schema whose `nameUnderscore()` is `T`. A name that resolves to no
struct is a symbol of `zcm_coretypes.h` (the primitive types). -/
def ZCMGen.findStruct (zcm : ZCMGen) (tn : String) : Option ZCMStruct :=
  zcm.structs.find? (fun zs => zs.structname.nameUnderscore = tn)

/-! ## Machine integers -/

/-- Conversion to `uint32_t`. -/
def toU32 (x : Int) : Nat := (x % 2 ^ 32).toNat

/-- Conversion of a `uint32_t` to `int` (two's complement). -/
def toInt32 (n : Nat) : Int :=
  if n % 2 ^ 32 < 2 ^ 31 then ((n % 2 ^ 32 : Nat) : Int) else ((n % 2 ^ 32 : Nat) : Int) - 2 ^ 32

/-- Conversion to `uint64_t`. -/
def toU64 (x : Int) : Nat := (x % 2 ^ 64).toNat

/-- Conversion of a `uint64_t` to `int64_t` (two's complement). -/
def toInt64 (n : Nat) : Int :=
  if n % 2 ^ 64 < 2 ^ 63 then ((n % 2 ^ 64 : Nat) : Int) else ((n % 2 ^ 64 : Nat) : Int) - 2 ^ 64

/-! ## `emitCStructGetHash`: the generated fingerprint functions -/

/-- The last statement of the generated `__S_hash_recursive`,
`return (hash<<1) + ((hash>>63)&1);` on a `uint64_t`. -/
def hashMix (hash : Nat) : Nat :=
  ((hash <<< 1) % 2 ^ 64 + ((hash >>> 63) &&& 1)) % 2 ^ 64

/-- The rotation the specification names, `(hash << 1) | (hash >> 63)` on a `uint64_t`. -/
def rotl1 (hash : Nat) : Nat :=
  ((hash <<< 1) % 2 ^ 64) ||| (hash >>> 63)

/-- Modelled from the spec: the `__<primitive>_hash_recursive(p)` symbols come from
`zcm_coretypes.h`, which is not among the sources. The specification sums the
fingerprints of "every member whose type is itself a struct" only, so a member of
primitive type adds nothing: the symbol stands for the constant 0. -/
def primHashRecursive (_tn : String) (_p : List String) : Nat := 0

/-- What one call of a generated `__T_hash_recursive` did: the value it returned and the
calls its own body made, in order, each with the callee and the chain it was passed. -/
structure HashRun where
  value : Nat
  calls : List (String × List String)
deriving DecidableEq, Repr

/-- One evaluation of the emitted sum
`(uint64_t)0x<zs.hash>LL + __T1_hash_recursive(&cp) + __T2_hash_recursive(&cp) ...`:
left to right, wrapping at 64 bits. `call` runs a callee on a chain, `cp` is the chain
`&cp`, `acc` the running sum and `log` the calls made so far. -/
def hashSum (call : String → List String → Option Nat) (cp : List String) :
    List ZCMMember → Nat → List (String × List String) → Option HashRun
  | [], acc, log => some ⟨acc, log⟩
  | zm :: rest, acc, log =>
    match call zm.type.nameUnderscore cp with
    | none => none
    | some h => hashSum call cp rest ((acc + h) % 2 ^ 64) (log ++ [(zm.type.nameUnderscore, cp)])

/-- The generated `uint64_t __T_hash_recursive(const __zcm_hash_ptr* p)` of
`emitCStructGetHash`, where `tn` is the C name `T` and `p` the chain of struct identities
(`fp->v`, innermost first; `[]` is `NULL`). The identity of a struct is the address of
its `__T_get_hash`, i.e. its C name. The fuel bounds the number of nested calls that get
past the cycle guard; `none` means the fuel ran out. -/
def hash_recursive_run (zcm : ZCMGen) : Nat → String → List String → Option HashRun
  | fuel, tn, p =>
    match zcm.findStruct tn with
    | none => some ⟨primHashRecursive tn p, []⟩
    | some zs =>
      -- for (fp = p; fp != NULL; fp = fp->parent) if (fp->v == __T_get_hash) return 0;
      if tn ∈ p then some ⟨0, []⟩
      else
        match fuel with
        | 0 => none
        | fuel + 1 =>
          -- cp.parent = p; cp.v = (void*)__T_get_hash;   (the chain `tn :: p`)
          -- uint64_t hash = (uint64_t)0x...LL + __T1_hash_recursive(&cp) + ... ;
          match hashSum (fun t c => (hash_recursive_run zcm fuel t c).map HashRun.value) (tn :: p)
              zs.members (zs.hash % 2 ^ 64) [] with
          | none => none
          -- return (hash<<1) + ((hash>>63)&1);
          | some run => some ⟨hashMix run.value, run.calls⟩

/-- The value returned by the generated `__T_hash_recursive(p)`. -/
def hash_recursive (zcm : ZCMGen) (fuel : Nat) (tn : String) (p : List String) : Option Nat :=
  (hash_recursive_run zcm fuel tn p).map HashRun.value

/-- The two statics of one generated file: `__S_hash_computed` and `__S_hash`. -/
structure HashSlot where
  computed : Bool
  hash : Nat
deriving DecidableEq, Repr

/-- The fingerprint statics of all generated files, by C name. -/
abbrev HashState := String → HashSlot

/-- The statics before any call: `static int __S_hash_computed = 0;` and a
zero-initialised `static uint64_t __S_hash;`. -/
def HashState.init : HashState := fun _ => ⟨false, 0⟩

/-- The generated `int64_t __S_get_hash(void)` of `emitCStructGetHash`: the C result and
the statics after the call. `__S_hash_recursive(NULL)` is run with fuel
`zcm.structs.length`. -/
def get_hash (zcm : ZCMGen) (tn : String) (st : HashState) : Option (Int × HashState) :=
  if (st tn).computed then
    some (toInt64 (st tn).hash, st)
  else
    match hash_recursive zcm zcm.structs.length tn [] with
    | none => none
    | some h =>
      -- __S_hash = (int64_t)__S_hash_recursive(NULL); __S_hash_computed = 1;
      let st1 : HashState := fun n => if n = tn then ⟨true, toU64 (toInt64 h)⟩ else st n
      some (toInt64 (st1 tn).hash, st1)

/-- A sequence of `__T_get_hash()` calls, by C name, run from the statics `st`: the
results in call order and the statics at the end. -/
def get_hash_calls (zcm : ZCMGen) : List String → HashState → Option (List Int × HashState)
  | [], st => some ([], st)
  | tn :: rest, st =>
    match get_hash zcm tn st with
    | none => none
    | some (r, st1) =>
      match get_hash_calls zcm rest st1 with
      | none => none
      | some (rs, st2) => some (r :: rs, st2)

/-- The number of struct names of the schema that are not on the chain `p`: what bounds
the nesting of `__T_hash_recursive` calls. -/
def freeCount (zcm : ZCMGen) (p : List String) : Nat :=
  ((zcm.structs.map (fun zs => zs.structname.nameUnderscore)).toFinset \ p.toFinset).card

/-- The wrapping 64-bit sum of a base constant and a list of addends, left to right. -/
def wrapSum : List Nat → Nat → Nat
  | [], acc => acc
  | h :: rest, acc => wrapSum rest ((acc + h) % 2 ^ 64)

/-- The fingerprint the claim under review describes: the rotation applied once, to the
sum `R(S) = base(S) + R(T1) + R(T2) + ...` over the struct-typed members, whose addends
are the un-rotated sums of the member types. `claimedSum` is `R`. -/
def claimedSum (zcm : ZCMGen) : Nat → String → Nat
  | 0, _ => 0
  | fuel + 1, tn =>
    match zcm.findStruct tn with
    | none => 0
    | some zs => wrapSum (zs.members.map (fun zm => claimedSum zcm fuel zm.type.nameUnderscore))
        (zs.hash % 2 ^ 64)

/-- The schema has no cycle: `rank` decreases from every struct to the type of each of
its struct-typed members. -/
def Acyclic (zcm : ZCMGen) (rank : String → Nat) : Prop :=
  ∀ zs, zs ∈ zcm.structs → ∀ zm, zm ∈ zs.members →
    (zcm.findStruct zm.type.nameUnderscore).isSome →
    rank zm.type.nameUnderscore < rank zs.structname.nameUnderscore

/-- The statics hold what the generated code can have put there: every slot marked
computed holds the value of `__T_hash_recursive(NULL)`. -/
def HashState.Sound (zcm : ZCMGen) (st : HashState) : Prop :=
  ∀ tn, (st tn).computed = true →
    hash_recursive zcm zcm.structs.length tn [] = some (st tn).hash

/-! ### A small schema for the fingerprint examples -/

/-- A type name without package. -/
def tname (s : String) : ZCMTypename := ⟨s, "", s⟩

/-- A scalar member. -/
def scalar (ty name : String) : ZCMMember := ⟨tname ty, name, [], ""⟩

/-- Struct `inner_t { int32_t v; }` with base constant 1. -/
def innerT : ZCMStruct := ⟨tname "inner_t", [scalar "int32_t" "v"], [], 1, "", "t.zcm"⟩

/-- Struct `outer_t { inner_t i; }` with base constant 0. -/
def outerT : ZCMStruct := ⟨tname "outer_t", [scalar "inner_t" "i"], [], 0, "", "t.zcm"⟩

/-- Struct `node_t { int32_t n; node_t kids[n]; }`, self-referential, base constant 5. -/
def nodeT : ZCMStruct :=
  ⟨tname "node_t",
   [scalar "int32_t" "n", ⟨tname "node_t", "kids", [⟨ZCMDimensionMode.ZCM_VAR, "n"⟩], ""⟩],
   [], 5, "", "t.zcm"⟩

/-- The acyclic schema of the fingerprint examples. -/
def pairSchema : ZCMGen := ⟨[innerT, outerT]⟩

/-- The schema of the fingerprint examples with a self-referential struct. -/
def hashSchema : ZCMGen := ⟨[innerT, outerT, nodeT]⟩

/-! ## Values in memory and the primitive codecs -/

/-- The memory behind `void* buf`: one byte per address. -/
abbrev Buf := Nat → Nat

/-- What a pointer of the generated code points to. `prims xs` is a flat run of primitive
elements (`&(p[element].m)` is a run of one), `arr xs` a run of records or one level of
an array of arrays, `record fs` one struct value with the storage of each member in
declaration order. -/
inductive Val (L : Type) where
  | prims (xs : List L)
  | arr (xs : List (Val L))
  | record (fs : List (Val L))

/-- The part of the C environment the generated code calls but `EmitC.cpp` does not
print: the functions of `zcm_coretypes.h` for the primitive types (the family selected by
`little-endian-encoding` when that option is set), and how C reads a size token and an
integer member. `L` is the type of primitive values.
* `encodeArray T buf offset maxlen p elements` is `__T_encode_array`: C result and memory;
* `decodeArray T buf offset maxlen elements` is `__T_decode_array`: C result and the
  elements it stored through `p`;
* `encodedArraySize T p elements` is the number of bytes `__T_encoded_array_size` computes
  (the function returns it as a `uint32_t`, that is modulo `2^32`);
* `valid T x`: `x` is a value of the C type of `T`;
* `asInt x` is an integer member read as a number, `ofInt` stores an `int64_t`;
* `constSize s` is the value of the size token `s` of a `ZCM_CONST` axis. -/
structure CoreTypes (L : Type) where
  encodeArray : String → Buf → Nat → Nat → List L → Nat → Int × Buf
  decodeArray : String → Buf → Nat → Nat → Nat → Int × List L
  encodedArraySize : String → List L → Nat → Nat
  valid : String → L → Bool
  asInt : L → Int
  ofInt : Int → L
  constSize : String → Int

/-- One call of a `zcm_coretypes.h` encoder made while encoding: callee, the arguments
`offset`, `maxlen`, `p`, `elements` it was given, and its result. -/
structure LeafCall (L : Type) where
  type : String
  offset : Nat
  maxlen : Nat
  p : List L
  elements : Nat
  ret : Int

/-- Control after a statement: fall through to the next one, or a `return r;` was run. -/
inductive Flow (σ : Type) where
  | next (s : σ)
  | ret (r : Int) (s : σ)

/-- The C loop `for (i = i0; i < i0 + k; ++i) body`, with early `return`. `none` is
undefined behaviour (or no fuel) inside the body. -/
def forLoop {σ : Type} (body : Nat → σ → Option (Flow σ)) : Nat → Nat → σ → Option (Flow σ)
  | _, 0, s => some (Flow.next s)
  | i, k + 1, s =>
    match body i s with
    | none => none
    | some (Flow.ret r s1) => some (Flow.ret r s1)
    | some (Flow.next s1) => forLoop body (i + 1) k s1

/-- The statements emitted for the members of a struct, one block per member, in
declaration order (`for (auto& zm : zs.members)`). -/
def forMembers {σ : Type} (block : ZCMMember → σ → Option (Flow σ)) :
    List ZCMMember → σ → Option (Flow σ)
  | [], s => some (Flow.next s)
  | zm :: rest, s =>
    match block zm s with
    | none => none
    | some (Flow.ret r s1) => some (Flow.ret r s1)
    | some (Flow.next s1) => forMembers block rest s1

/-- Position of the member called `name` in the struct layout (`p[element].name`). -/
def fieldIndex : List ZCMMember → String → Option Nat
  | [], _ => none
  | zm :: rest, name =>
    if zm.membername = name then some 0
    else match fieldIndex rest name with
      | none => none
      | some i => some (i + 1)

/-- The storage of member `name` of the record `r` of struct `zs`: `p[element].name`. -/
def getField {L : Type} (zs : ZCMStruct) (r : List (Val L)) (name : String) : Option (Val L) :=
  match fieldIndex zs.members name with
  | none => none
  | some i => r.get? i

/-- The integer member `name` of the record `r`, read as a number. -/
def readInt {L : Type} (env : CoreTypes L) (zs : ZCMStruct) (r : List (Val L)) (name : String) :
    Option Int :=
  match getField zs r name with
  | some (Val.prims [x]) => some (env.asInt x)
  | _ => none

/-- The value of the C expression `makeArraySize(zm, n, dim)` prints, with `r` the record
`n[element]`: `1` for a scalar, the size token of a `ZCM_CONST` axis, the sibling member
`n[element].<size>` of a `ZCM_VAR` axis. -/
def makeArraySize {L : Type} (env : CoreTypes L) (zs : ZCMStruct) (zm : ZCMMember)
    (r : List (Val L)) (dim : Nat) : Option Int :=
  if zm.dimensions.length = 0 then some 1
  else
    match zm.dimensions.get? dim with
    | none => none
    | some zd =>
      match zd.mode with
      | ZCMDimensionMode.ZCM_CONST => some (env.constSize zd.size)
      | ZCMDimensionMode.ZCM_VAR => readInt env zs r zd.size

/-- The one-character string `string(1, d+'a')` of `makeAccessor`, and `char var = 'a' + i`
of `emitCArrayLoopsStart` printed with `%c`: the sum is cut to a `char`. -/
def loopVar (d : Nat) : String := String.singleton (Char.ofNat ((d + 'a'.toNat) % 256))

/-- The loop of depth `d` is printed as `{ int <var>; for (<var> = 0; ...` and everything
inside it, down to the leaf statement, reads the parameter `p` (in `p[element].<member>`)
and indexes with the variable. This is the C the emitter means when the variable is an
identifier, a lowercase letter, and does not hide `p`: not at depth 15, where the block
declares `int p;`, and not from depth 26 on, where `'a' + i` is no letter. (`p` is the
only one-letter name in scope in the encoders, decoders, size functions and cleanups; the
clone has `q` and `n` as well.) -/
def loopVarUsable (d : Nat) : Bool :=
  (Char.ofNat ((d + 'a'.toNat) % 256)).isLower && loopVar d != "p"

/-- The `k` nested loops of the depths `d`, ..., `d + k - 1` all declare a usable
variable: the block compiles. -/
def loopsCompile : Nat → Nat → Bool
  | 0, _ => true
  | k + 1, d => loopVarUsable d && loopsCompile k (d + 1)

/-- The loops printed by `emitCArrayLoopsStart(zm, "p", FLAG_NONE)` ...
`emitCArrayLoopsEnd(zm, "p", FLAG_NONE)` around a leaf statement: one
`for (a = 0; a < makeArraySize(zm, "p", d); ++a)` per axis `d` below the last, and the
leaf run on `makeAccessor(zm, "p", dimensions.size()-1)`. `k` is the number of loops
still to open, `d` the axis of the next one, `sv` the storage the accessor of depth `d`
denotes. The accessor indexes by the names of the loop variables: a block in which one of
the variables is not usable (`loopsCompile`: a member of 17 axes or more, whose loop of
depth 15 declares `int p;`) does not compile and has no behaviour (`none`). -/
def arrayLoops {L σ : Type} (size : Nat → Option Int) (leaf : Val L → σ → Option (Flow σ)) :
    Nat → Nat → Val L → σ → Option (Flow σ)
  | 0, _, sv, s => leaf sv s
  | k + 1, d, sv, s =>
    if loopsCompile (k + 1) d then
      match size d with
      | none => none
      | some e =>
        forLoop (fun a s1 =>
          match sv with
          | Val.arr xs =>
            match xs.get? a with
            | none => none
            | some x => arrayLoops size leaf k (d + 1) x s1
          | _ => none) 0 e.toNat s
    else none

/-! ## `emitCEncodeArray`, `emitCEncode`: the generated encoder -/

/-- The locals of a generated encoder while it runs: `pos`, the memory behind `buf`, and
the calls of `zcm_coretypes.h` encoders made so far. -/
structure EncSt (L : Type) where
  pos : Nat
  buf : Buf
  calls : List (LeafCall L)

/-- What a call of an encoder did: its `int` result, the memory after it, and the calls
of `zcm_coretypes.h` encoders it made, in order. -/
structure EncOut (L : Type) where
  ret : Int
  buf : Buf
  calls : List (LeafCall L)

/-- The statement pair every encoder is built from,
`thislen = callee(buf, offset + pos, maxlen - pos, ...);`
`if (thislen < 0) return thislen; else pos += thislen;`
with `offset`, `maxlen`, `pos` of type `uint32_t`. -/
def encodeStep {L : Type} (callee : Buf → Nat → Nat → Option (EncOut L)) (offset maxlen : Nat)
    (s : EncSt L) : Option (Flow (EncSt L)) :=
  match callee s.buf ((offset + s.pos) % 2 ^ 32) ((maxlen + 2 ^ 32 - s.pos) % 2 ^ 32) with
  | none => none
  | some out =>
    if out.ret < 0 then some (Flow.ret out.ret ⟨s.pos, out.buf, s.calls ++ out.calls⟩)
    else some (Flow.next ⟨(s.pos + toU32 out.ret) % 2 ^ 32, out.buf, s.calls ++ out.calls⟩)

/-- The leaf statement `emitCEncodeArray` prints for the member `zm`,
`thislen = __T_encode_%sarray(buf, offset + pos, maxlen - pos, accessor, size);`
`if (thislen < 0) return thislen; else pos += thislen;`, where `%s` is `little_endian_`
when `little` (`zcm.gopt->getBool("little-endian-encoding")`) is set and empty otherwise,
whatever the type `T` of the member. `x` is the run the accessor of the last axis denotes,
`size` is `makeArraySize(zm, "p", dimensions.size()-1)` passed as `uint32_t`, `r` the
record `p[element]`, and `callee le T` is the linked symbol `__T_encode_array`
(`le = false`) or `__T_encode_little_endian_array` (`le = true`). -/
def encodeLeaf {L : Type} (env : CoreTypes L) (little : Bool)
    (callee : Bool → String → Buf → Nat → Nat → Val L → Nat → Option (EncOut L))
    (zs : ZCMStruct) (offset maxlen : Nat) (r : List (Val L)) (zm : ZCMMember)
    (x : Val L) (s : EncSt L) : Option (Flow (EncSt L)) :=
  match makeArraySize env zs zm r (zm.dimensions.length - 1) with
  | none => none
  | some e =>
    encodeStep (fun b o l => callee little zm.type.nameUnderscore b o l x (toU32 e))
      offset maxlen s

/-- The block `emitCEncodeArray` prints for the member `zm`: the array loops around the
leaf statement, on the storage `p[element].<membername>`. -/
def encodeMember {L : Type} (env : CoreTypes L) (little : Bool)
    (callee : Bool → String → Buf → Nat → Nat → Val L → Nat → Option (EncOut L))
    (zs : ZCMStruct) (offset maxlen : Nat) (r : List (Val L)) (zm : ZCMMember)
    (s : EncSt L) : Option (Flow (EncSt L)) :=
  match getField zs r zm.membername with
  | none => none
  | some sv =>
    arrayLoops (makeArraySize env zs zm r) (encodeLeaf env little callee zs offset maxlen r zm)
      (zm.dimensions.length - 1) 0 sv s

/-- The body of the `for (element = 0; element < elements; ++element)` loop printed by
`emitCEncodeArray`: the member blocks in declaration order on the record `p[element]`. -/
def encodeElement {L : Type} (env : CoreTypes L) (little : Bool)
    (callee : Bool → String → Buf → Nat → Nat → Val L → Nat → Option (EncOut L))
    (zs : ZCMStruct) (offset maxlen : Nat) (p : Val L) (element : Nat)
    (s : EncSt L) : Option (Flow (EncSt L)) :=
  match p with
  | Val.arr rs =>
    match rs.get? element with
    | some (Val.record r) =>
      forMembers (encodeMember env little callee zs offset maxlen r) zs.members s
    | _ => none
  | _ => none

/-- How a generated encoder ends: with the value of the `return thislen;` that was run,
or else with `return pos;` (a `uint32_t` returned as `int`). -/
def encReturn {L : Type} : Option (Flow (EncSt L)) → Option (EncOut L)
  | none => none
  | some (Flow.ret r s) => some ⟨r, s.buf, s.calls⟩
  | some (Flow.next s) => some ⟨toInt32 s.pos, s.buf, s.calls⟩

/-- The function `__S_encode_array(buf, offset, maxlen, p, elements)` that
`emitCEncodeArray` prints for the struct `zs`: `pos = 0`, the element loop,
`return pos;`. -/
def encodeStructArray {L : Type} (env : CoreTypes L) (little : Bool)
    (callee : Bool → String → Buf → Nat → Nat → Val L → Nat → Option (EncOut L))
    (zs : ZCMStruct) (buf : Buf) (offset maxlen : Nat) (p : Val L) (elements : Nat) :
    Option (EncOut L) :=
  encReturn (forLoop (encodeElement env little callee zs offset maxlen p) 0 elements
    ⟨0, buf, []⟩)

/-- A call of `__T_encode_array` of `zcm_coretypes.h` on a run of primitives. -/
def encodePrim {L : Type} (env : CoreTypes L) (tn : String) (buf : Buf) (offset maxlen : Nat)
    (xs : List L) (elements : Nat) : EncOut L :=
  ⟨(env.encodeArray tn buf offset maxlen xs elements).1,
   (env.encodeArray tn buf offset maxlen xs elements).2,
   [⟨tn, offset, maxlen, xs, elements, (env.encodeArray tn buf offset maxlen xs elements).1⟩]⟩

/-- The symbol `__T_encode_array` of a primitive type, called on the storage `p`, which
has to be a run of primitives. -/
def encodePrimArray {L : Type} (env : CoreTypes L) (tn : String) (buf : Buf)
    (offset maxlen : Nat) (p : Val L) (elements : Nat) : Option (EncOut L) :=
  match p with
  | Val.prims xs => some (encodePrim env tn buf offset maxlen xs elements)
  | _ => none

/-- The C symbol `__T_encode_array` (`le = false`) or `__T_encode_little_endian_array`
(`le = true`) with `T = tn`, linked, in the program generated with the option `little`.
For a primitive type it is the function of `zcm_coretypes.h` (`env` is the family the
generated calls name). For the struct named `tn` the generated file defines
`__T_encode_array` only (`emitCEncodeArray` prints `int __%s_encode_array(`, whatever the
option): the symbol with the infix is defined nowhere, a program that names it does not
link and has no behaviour (`none`). The fuel bounds the nesting of generated functions;
`none` is also no fuel or undefined behaviour (an access outside the storage `p`
offers). -/
def encode_array {L : Type} (env : CoreTypes L) (zcm : ZCMGen) (little : Bool) :
    Nat → Bool → String → Buf → Nat → Nat → Val L → Nat → Option (EncOut L)
  | 0, _, tn, buf, offset, maxlen, p, elements =>
    match zcm.findStruct tn with
    | none => encodePrimArray env tn buf offset maxlen p elements
    | some _ => none
  | fuel + 1, le, tn, buf, offset, maxlen, p, elements =>
    match zcm.findStruct tn with
    | none => encodePrimArray env tn buf offset maxlen p elements
    | some zs =>
      if le then none
      else
        encodeStructArray env little (encode_array env zcm little fuel) zs buf offset maxlen p
          elements

/-- The function `S_encode(buf, offset, maxlen, p)` that `emitCEncode` prints for the
struct named `tn` under the option `little`, run on the record `p` with the fingerprint
statics `st`: the result and the statics after the call. The fingerprint goes to the
`int64_t` encoder of the family of the option; the members go to `__S_encode_array`,
which `emitCEncode` names without infix. -/
def encode {L : Type} (env : CoreTypes L) (zcm : ZCMGen) (little : Bool) (fuel : Nat)
    (tn : String)
    (st : HashState) (buf : Buf) (offset maxlen : Nat) (p : Val L) :
    Option (EncOut L × HashState) :=
  -- int64_t hash = __S_get_hash();
  match get_hash zcm tn st with
  | none => none
  | some (hash, st1) =>
    -- thislen = __int64_t_encode_%sarray(buf, offset + pos, maxlen - pos, &hash, 1);
    match encodeStep (fun b o l => some (encodePrim env "int64_t" b o l [env.ofInt hash] 1))
        offset maxlen ⟨0, buf, []⟩ with
    | none => none
    | some (Flow.ret r s) => some (⟨r, s.buf, s.calls⟩, st1)
    | some (Flow.next s) =>
      -- thislen = __S_encode_array(buf, offset + pos, maxlen - pos, p, 1);
      -- if (thislen < 0) return thislen; else pos += thislen;   return pos;
      match encReturn (encodeStep
          (fun b o l => encode_array env zcm little fuel false tn b o l (Val.arr [p]) 1)
          offset maxlen s) with
      | none => none
      | some out => some (out, st1)

/-! ## `emitCEncodedArraySize`, `emitCEncodedSize`: the generated size functions -/

/-- The leaf statement `emitCEncodedArraySize` prints for the member `zm`,
`size += __T_encoded_array_size(accessor, size_of_last_axis);` on a `uint32_t size`. -/
def sizeLeaf {L : Type} (env : CoreTypes L) (callee : String → Val L → Nat → Option Nat)
    (zs : ZCMStruct) (r : List (Val L)) (zm : ZCMMember) (x : Val L) (size : Nat) :
    Option (Flow Nat) :=
  match makeArraySize env zs zm r (zm.dimensions.length - 1) with
  | none => none
  | some e =>
    match callee zm.type.nameUnderscore x (toU32 e) with
    | none => none
    | some k => some (Flow.next ((size + k) % 2 ^ 32))

/-- The block `emitCEncodedArraySize` prints for the member `zm`: the array loops around
the leaf statement. -/
def sizeMember {L : Type} (env : CoreTypes L) (callee : String → Val L → Nat → Option Nat)
    (zs : ZCMStruct) (r : List (Val L)) (zm : ZCMMember) (size : Nat) : Option (Flow Nat) :=
  match getField zs r zm.membername with
  | none => none
  | some sv =>
    arrayLoops (makeArraySize env zs zm r) (sizeLeaf env callee zs r zm)
      (zm.dimensions.length - 1) 0 sv size

/-- The body of the element loop printed by `emitCEncodedArraySize`. -/
def sizeElement {L : Type} (env : CoreTypes L) (callee : String → Val L → Nat → Option Nat)
    (zs : ZCMStruct) (p : Val L) (element : Nat) (size : Nat) : Option (Flow Nat) :=
  match p with
  | Val.arr rs =>
    match rs.get? element with
    | some (Val.record r) => forMembers (sizeMember env callee zs r) zs.members size
    | _ => none
  | _ => none

/-- The function `__S_encoded_array_size(p, elements)` that `emitCEncodedArraySize` prints
for the struct `zs`: `size = 0`, the element loop, `return size;`. -/
def sizeStructArray {L : Type} (env : CoreTypes L) (callee : String → Val L → Nat → Option Nat)
    (zs : ZCMStruct) (p : Val L) (elements : Nat) : Option Nat :=
  match forLoop (sizeElement env callee zs p) 0 elements 0 with
  | some (Flow.next size) => some size
  | _ => none

/-- The symbol `__T_encoded_array_size` of a primitive type, called on the storage `p`. -/
def sizePrimArray {L : Type} (env : CoreTypes L) (tn : String) (p : Val L) (elements : Nat) :
    Option Nat :=
  match p with
  | Val.prims xs => some (env.encodedArraySize tn xs elements % 2 ^ 32)
  | _ => none

/-- The C symbol `__T_encoded_array_size(p, elements)` with `T = tn`, linked: the function
of the struct named `tn`, or the one of `zcm_coretypes.h`. The fuel is as in
`encode_array`. -/
def encoded_array_size {L : Type} (env : CoreTypes L) (zcm : ZCMGen) :
    Nat → String → Val L → Nat → Option Nat
  | 0, tn, p, elements =>
    match zcm.findStruct tn with
    | none => sizePrimArray env tn p elements
    | some _ => none
  | fuel + 1, tn, p, elements =>
    match zcm.findStruct tn with
    | none => sizePrimArray env tn p elements
    | some zs => sizeStructArray env (encoded_array_size env zcm fuel) zs p elements

/-- The function `S_encoded_size(p)` that `emitCEncodedSize` prints:
`return 8 + __S_encoded_array_size(p, 1);` in `uint32_t`. -/
def encoded_size {L : Type} (env : CoreTypes L) (zcm : ZCMGen) (fuel : Nat) (tn : String)
    (p : Val L) : Option Nat :=
  match encoded_array_size env zcm fuel tn (Val.arr [p]) 1 with
  | none => none
  | some k => some ((8 + k) % 2 ^ 32)

/-! ## Values of a struct type, and their field data in declaration order -/

/-- A run of primitives handed to one `zcm_coretypes.h` function. -/
structure LeafRun (L : Type) where
  type : String
  p : List L
  elements : Nat
deriving DecidableEq

/-- All results of `f` on the elements of a list, in order, concatenated. -/
def bindAll {α β : Type} (f : α → Option (List β)) : List α → Option (List β)
  | [] => some []
  | x :: rest =>
    match f x with
    | none => none
    | some ys =>
      match bindAll f rest with
      | none => none
      | some zs => some (ys ++ zs)

/-- The leaf runs below an array of arrays with `k` levels above the leaf run. -/
def flatLoops {L : Type} (leaf : Val L → Option (List (LeafRun L))) :
    Nat → Val L → Option (List (LeafRun L))
  | 0, sv => leaf sv
  | k + 1, Val.arr xs => bindAll (flatLoops leaf k) xs
  | _ + 1, _ => none

/-- A run of primitives of type `tn` is one leaf run. -/
def flattenPrims {L : Type} (tn : String) (sv : Val L) : Option (List (LeafRun L)) :=
  match sv with
  | Val.prims xs => some [⟨tn, xs, xs.length⟩]
  | _ => none

/-- The leaf runs of one member of the record `fs` of the struct `zs`. -/
def flattenMember {L : Type} (below : String → Val L → Option (List (LeafRun L)))
    (zs : ZCMStruct) (fs : List (Val L)) (zm : ZCMMember) : Option (List (LeafRun L)) :=
  match getField zs fs zm.membername with
  | none => none
  | some x => flatLoops (below zm.type.nameUnderscore) (zm.dimensions.length - 1) x

/-- The leaf runs of one record of the struct `zs`: those of its members in declaration
order. -/
def flattenRecord {L : Type} (below : String → Val L → Option (List (LeafRun L)))
    (zs : ZCMStruct) (r : Val L) : Option (List (LeafRun L)) :=
  match r with
  | Val.record fs => bindAll (flattenMember below zs fs) zs.members
  | _ => none

/-- The leaf runs of a run of records of the struct `zs`, record after record. -/
def flattenRecords {L : Type} (below : String → Val L → Option (List (LeafRun L)))
    (zs : ZCMStruct) (sv : Val L) : Option (List (LeafRun L)) :=
  match sv with
  | Val.arr rs => bindAll (flattenRecord below zs) rs
  | _ => none

/-- The field data of a run of elements of type `tn`, flattened: the runs of primitives it
consists of, walking the records of the run in order, in each record the members in
declaration order, in each member the elements in index order. This reads the value only
(never a size member). -/
def flatten {L : Type} (zcm : ZCMGen) : Nat → String → Val L → Option (List (LeafRun L))
  | 0, tn, sv =>
    match zcm.findStruct tn with
    | none => flattenPrims tn sv
    | some _ => none
  | fuel + 1, tn, sv =>
    match zcm.findStruct tn with
    | none => flattenPrims tn sv
    | some zs => flattenRecords (flatten zcm fuel) zs sv

/-- The number of bytes of a list of leaf runs: the sum of what `zcm_coretypes.h` reports
for each. -/
def planSize {L : Type} (env : CoreTypes L) : List (LeafRun L) → Nat
  | [] => 0
  | c :: rest => env.encodedArraySize c.type c.p c.elements + planSize env rest

/-- The array of arrays `sv` of a member has, on every axis, exactly as many elements as
`makeArraySize` says (a number an `int` counter reaches), and its leaf runs satisfy
`leaf`. `k` and `d` are as in `arrayLoops`. -/
def wfLoops {L : Type} (size : Nat → Option Int) (leaf : Val L → Nat → Bool) :
    Nat → Nat → Val L → Bool
  | 0, d, sv =>
    match size d with
    | none => false
    | some e => decide (0 ≤ e) && decide (e < 2 ^ 31) && leaf sv e.toNat
  | k + 1, d, Val.arr xs =>
    match size d with
    | none => false
    | some e =>
      decide (0 ≤ e) && decide (e < 2 ^ 31) && decide (xs.length = e.toNat)
        && xs.all (wfLoops size leaf k (d + 1))
  | _ + 1, _, _ => false

/-- `sv` is a run of exactly `n` primitives that are values of the C type of `tn`. -/
def wfPrims {L : Type} (env : CoreTypes L) (tn : String) (sv : Val L) (n : Nat) : Bool :=
  match sv with
  | Val.prims xs => decide (xs.length = n) && xs.all (env.valid tn)
  | _ => false

/-- The member `zm` of the record `fs` of the struct `zs` has storage of the shape its
sizes, read from `fs`, say. -/
def wfMember {L : Type} (env : CoreTypes L) (below : String → Val L → Nat → Bool)
    (zs : ZCMStruct) (fs : List (Val L)) (zm : ZCMMember) : Bool :=
  match getField zs fs zm.membername with
  | none => false
  | some x =>
    wfLoops (makeArraySize env zs zm fs) (below zm.type.nameUnderscore)
      (zm.dimensions.length - 1) 0 x

/-- `r` is a record of the struct `zs`: one storage per member, each well-formed. -/
def wfRecord {L : Type} (env : CoreTypes L) (below : String → Val L → Nat → Bool)
    (zs : ZCMStruct) (r : Val L) : Bool :=
  match r with
  | Val.record fs => decide (fs.length = zs.members.length) && zs.members.all (wfMember env below zs fs)
  | _ => false

/-- `sv` is a run of exactly `n` records of the struct `zs`. -/
def wfRecords {L : Type} (env : CoreTypes L) (below : String → Val L → Nat → Bool)
    (zs : ZCMStruct) (sv : Val L) (n : Nat) : Bool :=
  match sv with
  | Val.arr rs => decide (rs.length = n) && rs.all (wfRecord env below zs)
  | _ => false

/-- `sv` is a run of exactly `n` values of the type named `tn`: primitives that are values
of their C type, or records of the struct that have one storage per member, whose size
members equal the actual lengths of the arrays they measure. -/
def wf {L : Type} (env : CoreTypes L) (zcm : ZCMGen) : Nat → String → Val L → Nat → Bool
  | 0, tn, sv, n =>
    match zcm.findStruct tn with
    | none => wfPrims env tn sv n
    | some _ => false
  | fuel + 1, tn, sv, n =>
    match zcm.findStruct tn with
    | none => wfPrims env tn sv n
    | some zs => wfRecords env (wf env zcm fuel) zs sv n

/-! ## `emitCDecodeArray`, `emitCDecode`: the generated decoder -/

/-- The locals of a generated decoder while it runs: `pos` and the element counts of the
`zcm_malloc` calls made so far. -/
structure DecSt where
  pos : Nat
  mallocs : List Int

/-- What a call of a decoder did: its `int` result, the storage behind `p` after it, and
the element counts of the `zcm_malloc` calls it made. -/
structure DecOut (L : Type) where
  ret : Int
  p : Val L
  mallocs : List Int

/-- Storage whose content is not determined (fresh from `zcm_malloc`, or never written). -/
def junk {L : Type} : Val L := Val.prims []

/-- The elements of an array storage. -/
def elemsOf {L : Type} : Val L → List (Val L)
  | Val.arr xs => xs
  | _ => []

/-- The fields of a record storage. -/
def fieldsOf {L : Type} : Val L → List (Val L)
  | Val.record fs => fs
  | _ => []

/-- Storage of exactly `n` places, as the C type of the storage says: the first `n` of
`xs`, filled up with undetermined places. -/
def fit {L : Type} (n : Nat) (xs : List (Val L)) : List (Val L) :=
  (xs ++ List.replicate n junk).take n

/-- The statement pair every decoder is built from,
`thislen = callee(buf, offset + pos, maxlen - pos, ...);`
`if (thislen < 0) return thislen; else pos += thislen;`: the storage the callee decoded
into and the locals after it. -/
def decodeStep {L : Type} (callee : Nat → Nat → Option (DecOut L)) (offset maxlen : Nat)
    (s : DecSt) : Option (Flow (Val L × DecSt)) :=
  match callee ((offset + s.pos) % 2 ^ 32) ((maxlen + 2 ^ 32 - s.pos) % 2 ^ 32) with
  | none => none
  | some out =>
    if out.ret < 0 then some (Flow.ret out.ret (out.p, ⟨s.pos, s.mallocs ++ out.mallocs⟩))
    else some (Flow.next (out.p, ⟨(s.pos + toU32 out.ret) % 2 ^ 32, s.mallocs ++ out.mallocs⟩))

/-- One iteration `a` of a loop over the elements of an array: the statements `inner`
run on the element `xs[a]`, which they may replace. -/
def onElement {L σ : Type} (inner : Val L × σ → Option (Flow (Val L × σ))) (a : Nat)
    (s : List (Val L) × σ) : Option (Flow (List (Val L) × σ)) :=
  match s.1.get? a with
  | none => none
  | some x =>
    match inner (x, s.2) with
    | none => none
    | some (Flow.next (x1, s1)) => some (Flow.next (s.1.set a x1, s1))
    | some (Flow.ret r (x1, s1)) => some (Flow.ret r (s.1.set a x1, s1))

/-- The storage a decoder loop of `emitCArrayLoopsStart` runs over, of `e` elements: with
`FLAG_EMIT_MALLOCS` fresh from `accessor = zcm_malloc(sizeof(..) * e)` (taken to
succeed), otherwise the inline array already behind the accessor. -/
def loopStorage {L : Type} (mallocs : Bool) (e : Int) (sv : Val L) : List (Val L) :=
  fit e.toNat (if mallocs then [] else elemsOf sv)

/-- The locals after the optional `zcm_malloc` of `e` elements. -/
def logMalloc (mallocs : Bool) (e : Int) (s : DecSt) : DecSt :=
  if mallocs then ⟨s.pos, s.mallocs ++ [e]⟩ else s

/-- The loops printed by `emitCArrayLoopsStart(zm, "p", flags)` ...
`emitCArrayLoopsEnd(zm, "p", FLAG_NONE)` around the leaf statement of the decoder. With
`mallocs` (`FLAG_EMIT_MALLOCS`) the storage of every depth is first replaced by a fresh
`zcm_malloc(sizeof(..) * makeArraySize(zm, "p", d))`. `k`, `d` are as in `arrayLoops`; the
state is the storage the accessor of depth `d` denotes together with the locals. As in
`arrayLoops`, a block with a loop variable that is not usable has no behaviour. -/
def decodeLoops {L : Type} (size : Nat → Option Int) (mallocs : Bool)
    (leaf : Val L × DecSt → Option (Flow (Val L × DecSt))) :
    Nat → Nat → Val L × DecSt → Option (Flow (Val L × DecSt))
  | 0, d, s =>
    if mallocs then
      match size d with
      | none => none
      | some e => leaf (junk, logMalloc mallocs e s.2)
    else leaf s
  | k + 1, d, s =>
    if loopsCompile (k + 1) d then
      match size d with
      | none => none
      | some e =>
        match forLoop (onElement (decodeLoops size mallocs leaf k (d + 1))) 0 e.toNat
            (loopStorage mallocs e s.1, logMalloc mallocs e s.2) with
        | none => none
        | some (Flow.next (xs1, s2)) => some (Flow.next (Val.arr xs1, s2))
        | some (Flow.ret r (xs1, s2)) => some (Flow.ret r (Val.arr xs1, s2))
    else none

/-- The leaf statement `emitCDecodeArray` prints for the member `zm`,
`thislen = __T_decode_%sarray(buf, offset + pos, maxlen - pos, accessor, size);`
`if (thislen < 0) return thislen; else pos += thislen;`, where `%s` is `little_endian_`
when `little` is set and empty otherwise, whatever the type `T`; `t.1` is the run the
accessor of the last axis denotes, `r` the record `p[element]`, and `callee le T` the
linked symbol `__T_decode_array` (`le = false`) or `__T_decode_little_endian_array`
(`le = true`). -/
def decodeLeaf {L : Type} (env : CoreTypes L) (little : Bool)
    (callee : Bool → String → Nat → Nat → Val L → Nat → Option (DecOut L))
    (zs : ZCMStruct) (offset maxlen : Nat) (r : List (Val L)) (zm : ZCMMember)
    (t : Val L × DecSt) : Option (Flow (Val L × DecSt)) :=
  match makeArraySize env zs zm r (zm.dimensions.length - 1) with
  | none => none
  | some e =>
    decodeStep (fun o l => callee little zm.type.nameUnderscore o l t.1 (toU32 e)) offset maxlen
      t.2

/-- The block `emitCDecodeArray` prints for the member `zm`, run on the record `s.1`
(`p[element]`): the array loops, with allocation unless `zm.isConstantSizeArray()`, around
the leaf statement. The sizes are read from the record as it is when the block starts. -/
def decodeMember {L : Type} (env : CoreTypes L) (little : Bool)
    (callee : Bool → String → Nat → Nat → Val L → Nat → Option (DecOut L))
    (zs : ZCMStruct) (offset maxlen : Nat) (zm : ZCMMember)
    (s : List (Val L) × DecSt) : Option (Flow (List (Val L) × DecSt)) :=
  match fieldIndex zs.members zm.membername with
  | none => none
  | some i =>
    match decodeLoops (makeArraySize env zs zm s.1) (!zm.isConstantSizeArray)
        (decodeLeaf env little callee zs offset maxlen s.1 zm)
        (zm.dimensions.length - 1) 0 ((s.1.get? i).getD junk, s.2) with
    | none => none
    | some (Flow.next (x, s1)) => some (Flow.next (s.1.set i x, s1))
    | some (Flow.ret r (x, s1)) => some (Flow.ret r (s.1.set i x, s1))

/-- The body of the element loop printed by `emitCDecodeArray`, run on the record `t.1`
(`p[element]`, one storage per member): the member blocks in declaration order. -/
def decodeElement {L : Type} (env : CoreTypes L) (little : Bool)
    (callee : Bool → String → Nat → Nat → Val L → Nat → Option (DecOut L))
    (zs : ZCMStruct) (offset maxlen : Nat)
    (t : Val L × DecSt) : Option (Flow (Val L × DecSt)) :=
  match forMembers (decodeMember env little callee zs offset maxlen) zs.members
      (fit zs.members.length (fieldsOf t.1), t.2) with
  | none => none
  | some (Flow.next (fs, s1)) => some (Flow.next (Val.record fs, s1))
  | some (Flow.ret r (fs, s1)) => some (Flow.ret r (Val.record fs, s1))

/-- The function `__S_decode_array(buf, offset, maxlen, p, elements)` that
`emitCDecodeArray` prints for the struct `zs`, decoding into the run of `elements`
records behind `p`. -/
def decodeStructArray {L : Type} (env : CoreTypes L) (little : Bool)
    (callee : Bool → String → Nat → Nat → Val L → Nat → Option (DecOut L))
    (zs : ZCMStruct) (offset maxlen : Nat) (p : Val L) (elements : Nat) :
    Option (DecOut L) :=
  match forLoop (onElement (decodeElement env little callee zs offset maxlen))
        0 elements (fit elements (elemsOf p), (⟨0, []⟩ : DecSt)) with
  | none => none
  | some (Flow.ret r (rs1, s)) => some ⟨r, Val.arr rs1, s.mallocs⟩
  | some (Flow.next (rs1, s)) => some ⟨toInt32 s.pos, Val.arr rs1, s.mallocs⟩

/-- A call of `__T_decode_array` of `zcm_coretypes.h`: its result, and the elements it
stored as the run behind `p`. -/
def decodePrim {L : Type} (env : CoreTypes L) (tn : String) (buf : Buf) (offset maxlen : Nat)
    (elements : Nat) : DecOut L :=
  ⟨(env.decodeArray tn buf offset maxlen elements).1,
   Val.prims (env.decodeArray tn buf offset maxlen elements).2, []⟩

/-- The C symbol `__T_decode_array` (`le = false`) or `__T_decode_little_endian_array`
(`le = true`) with `T = tn`, linked, in the program generated with the option `little`,
reading the memory `buf`: the function of `zcm_coretypes.h` of a primitive type, whose
stored elements replace the run behind `p`, or the generated function of the struct named
`tn`. As for `encode_array`, the generated file defines `__T_decode_array` only
(`emitCDecodeArray` prints `int __%s_decode_array(`): the symbol of a struct with the
infix is defined nowhere (`none`). -/
def decode_array {L : Type} (env : CoreTypes L) (zcm : ZCMGen) (little : Bool) (buf : Buf) :
    Nat → Bool → String → Nat → Nat → Val L → Nat → Option (DecOut L)
  | 0, _, tn, offset, maxlen, _, elements =>
    match zcm.findStruct tn with
    | none => some (decodePrim env tn buf offset maxlen elements)
    | some _ => none
  | fuel + 1, le, tn, offset, maxlen, p, elements =>
    match zcm.findStruct tn with
    | none => some (decodePrim env tn buf offset maxlen elements)
    | some zs =>
      if le then none
      else
        decodeStructArray env little (decode_array env zcm little buf fuel) zs offset maxlen p
          elements

/-- The function `S_decode(buf, offset, maxlen, p)` that `emitCDecode` prints for the
struct named `tn` under the option `little`, run on the record `p` with the fingerprint
statics `st`: the result (the record behind `p` after the call, the allocations) and the
statics after the call. The fingerprint is read by the `int64_t` decoder of the family of
the option; the members by `__S_decode_array`, which `emitCDecode` names without infix. -/
def decode {L : Type} (env : CoreTypes L) (zcm : ZCMGen) (little : Bool) (fuel : Nat)
    (tn : String)
    (st : HashState) (buf : Buf) (offset maxlen : Nat) (p : Val L) :
    Option (DecOut L × HashState) :=
  -- int64_t hash = __S_get_hash();
  match get_hash zcm tn st with
  | none => none
  | some (hash, st1) =>
    -- thislen = __int64_t_decode_%sarray(buf, offset + pos, maxlen - pos, &this_hash, 1);
    match env.decodeArray "int64_t" buf ((offset + 0) % 2 ^ 32) ((maxlen + 2 ^ 32 - 0) % 2 ^ 32) 1 with
    | (thislen, stored) =>
      -- if (thislen < 0) return thislen; else pos += thislen;
      if thislen < 0 then some (⟨thislen, p, []⟩, st1)
      else
        match stored with
        | [this_hash] =>
          -- if (this_hash != hash) return -1;
          if env.asInt this_hash ≠ hash then some (⟨-1, p, []⟩, st1)
          else
            -- thislen = __S_decode_array(buf, offset + pos, maxlen - pos, p, 1);
            match decodeStep
                (fun o l => decode_array env zcm little buf fuel false tn o l (Val.arr [p]) 1)
                offset maxlen ⟨(0 + toU32 thislen) % 2 ^ 32, []⟩ with
            | none => none
            | some (Flow.ret r (Val.arr [q], s)) => some (⟨r, q, s.mallocs⟩, st1)
            | some (Flow.next (Val.arr [q], s)) => some (⟨toInt32 s.pos, q, s.mallocs⟩, st1)
            | some _ => none
        | _ => none

/-! ## Reasoning about blocks of generated statements -/

/-- Two blocks one after the other: the second runs unless the first returned. -/
def seqBlock {σ : Type} (b1 b2 : σ → Option (Flow σ)) : σ → Option (Flow σ) :=
  fun s =>
    match b1 s with
    | none => none
    | some (Flow.ret r s1) => some (Flow.ret r s1)
    | some (Flow.next s1) => b2 s1

/-- The empty block. -/
def skipBlock {σ : Type} : σ → Option (Flow σ) := fun s => some (Flow.next s)

/-- A property of blocks, relative to the list of leaf runs they handle, that holds for
the empty block and is kept by sequencing. -/
structure BlockLaw {σ R : Type} (OK : (σ → Option (Flow σ)) → List R → Prop) : Prop where
  skip : OK skipBlock []
  seq : ∀ b1 b2 P1 P2, OK b1 P1 → OK b2 P2 → OK (seqBlock b1 b2) (P1 ++ P2)

/-- The run of primitives a leaf call was made on. -/
def LeafCall.run {L : Type} (c : LeafCall L) : LeafRun L := ⟨c.type, c.p, c.elements⟩

/-- The bytes written by a list of leaf calls: the sum of their non-negative results. -/
def written {L : Type} : List (LeafCall L) → Nat
  | [] => 0
  | c :: cs => c.ret.toNat + written cs

/-- Every call of the list, made after `w` bytes and the results of the calls before it,
was passed the position `offset + (bytes written so far)` (as a `uint32_t`) and a
remaining length that, added to the bytes written so far, is exactly `maxlen`. -/
def TraceOK {L : Type} (offset maxlen : Nat) : Nat → List (LeafCall L) → Prop
  | _, [] => True
  | w, c :: cs =>
    c.offset = (offset + w) % 2 ^ 32 ∧ c.maxlen + w = maxlen ∧
      TraceOK offset maxlen (w + c.ret.toNat) cs

/-- Decoding the memory `B` at `o` gives back the run `c`, and its encoded size as result,
whenever the length given is at least that size. -/
def DecodesAt {L : Type} (env : CoreTypes L) (B : Buf) (o : Nat) (c : LeafRun L) : Prop :=
  ∀ len, env.encodedArraySize c.type c.p c.elements ≤ len → len < 2 ^ 32 →
    env.decodeArray c.type B o len c.elements
      = (((env.encodedArraySize c.type c.p c.elements : Nat) : Int), c.p)

/-- The memory `B` holds, from `o` on, the encodings of the leaf runs of the list, one
after the other. -/
def Layout {L : Type} (env : CoreTypes L) (B : Buf) : Nat → List (LeafRun L) → Prop
  | _, [] => True
  | o, c :: cs =>
    DecodesAt env B o c ∧ Layout env B (o + env.encodedArraySize c.type c.p c.elements) cs

/-- The bytes of `b` from `lo` on are the encodings of the leaf runs of `P`: every memory
that agrees with `b` on these bytes has that layout. -/
def Written {L : Type} (env : CoreTypes L) (b : Buf) (lo : Nat) (P : List (LeafRun L)) : Prop :=
  ∀ B : Buf, (∀ i, lo ≤ i → i < lo + planSize env P → B i = b i) → Layout env B lo P

/-! ### What is assumed of `zcm_coretypes.h` -/

/-- Every leaf encoder fails with a negative result rather than write past the length it
is given: its result is negative or at most `maxlen`, and it leaves every byte outside
`[offset, offset + maxlen)` alone. -/
def EncBounded {L : Type} (env : CoreTypes L) : Prop :=
  ∀ tn buf off len xs n,
    ((env.encodeArray tn buf off len xs n).1 < 0 ∨ (env.encodeArray tn buf off len xs n).1 ≤ len) ∧
    ∀ i, (i < off ∨ off + len ≤ i) → (env.encodeArray tn buf off len xs n).2 i = buf i

/-- What a leaf encoder returns when it succeeds is the size `encodedArraySize` reports for
the run, and it succeeds when that size fits the length given and an `int`. -/
def EncSized {L : Type} (env : CoreTypes L) : Prop :=
  ∀ tn buf off len xs n,
    (0 ≤ (env.encodeArray tn buf off len xs n).1 →
      (env.encodeArray tn buf off len xs n).1 = ((env.encodedArraySize tn xs n : Nat) : Int)) ∧
    (env.encodedArraySize tn xs n ≤ len → env.encodedArraySize tn xs n < 2 ^ 31 →
      0 ≤ (env.encodeArray tn buf off len xs n).1)

/-- The encoded fingerprint is 8 bytes (`return 8 + ...` in `S_encoded_size`), and an
`int64_t` stored and read back is unchanged. -/
def HashLeaf {L : Type} (env : CoreTypes L) : Prop :=
  ∀ h : Int, env.encodedArraySize "int64_t" [env.ofInt h] 1 = 8 ∧
    (-(2 ^ 63) ≤ h → h < 2 ^ 63 →
      env.valid "int64_t" (env.ofInt h) = true ∧ env.asInt (env.ofInt h) = h)

/-- The primitive leaf codecs round-trip: a successful leaf encoder of a run of `n` valid
values writes exactly the bytes `[offset, offset + size)`, and the leaf decoder run on any
memory holding these bytes there returns `size` and stores the values back. -/
def RoundTrip {L : Type} (env : CoreTypes L) : Prop :=
  ∀ tn buf off len xs n, xs.length = n → xs.all (env.valid tn) = true →
    0 ≤ (env.encodeArray tn buf off len xs n).1 →
    (∀ i, (i < off ∨ off + env.encodedArraySize tn xs n ≤ i) →
      (env.encodeArray tn buf off len xs n).2 i = buf i) ∧
    ∀ B : Buf, (∀ i, off ≤ i → i < off + env.encodedArraySize tn xs n →
        B i = (env.encodeArray tn buf off len xs n).2 i) →
      DecodesAt env B off ⟨tn, xs, n⟩

/-- The statics after a call of `__S_get_hash()`. -/
def hashAfter (zcm : ZCMGen) (tn : String) (st : HashState) : HashState :=
  match get_hash zcm tn st with
  | none => st
  | some x => x.2

/-- The value a call of `__S_get_hash()` returns. -/
def hashOf (zcm : ZCMGen) (tn : String) (st : HashState) : Int :=
  match get_hash zcm tn st with
  | none => 0
  | some x => x.1

/-- A size block handles the leaf runs `P`: it adds their bytes to `size`, in
`uint32_t`. -/
def SizeOK {L : Type} (env : CoreTypes L) (b : Nat → Option (Flow Nat)) (P : List (LeafRun L)) :
    Prop :=
  ∀ sz, sz < 2 ^ 32 → b sz = some (Flow.next ((sz + planSize env P) % 2 ^ 32))

/-! ### What a block of the encoder does, relative to the leaf runs it handles -/

/-- The outcome `f` of an encoder block that handles the leaf runs `P`, started in `s`. -/
def EncPost {L : Type} (env : CoreTypes L) (offset maxlen : Nat) (P : List (LeafRun L))
    (s : EncSt L) : Flow (EncSt L) → Prop
  | Flow.ret r s1 =>
    r < 0 ∧ ¬ (s.pos + planSize env P ≤ maxlen ∧ s.pos + planSize env P < 2 ^ 31) ∧
    (∀ i, offset + maxlen ≤ i → s1.buf i = s.buf i) ∧
    ∃ cs, s1.calls = s.calls ++ cs ∧ TraceOK offset maxlen s.pos cs
  | Flow.next s1 =>
    s1.pos = s.pos + planSize env P ∧ s1.pos ≤ maxlen ∧
    (∀ i, offset + maxlen ≤ i → s1.buf i = s.buf i) ∧
    (∃ cs, s1.calls = s.calls ++ cs ∧ TraceOK offset maxlen s.pos cs ∧
      cs.map LeafCall.run = P ∧
      ∀ c, c ∈ cs → c.ret = ((env.encodedArraySize c.type c.p c.elements : Nat) : Int)) ∧
    (RoundTrip env → offset + maxlen < 2 ^ 32 →
      (∀ i, (i < offset + s.pos ∨ offset + s1.pos ≤ i) → s1.buf i = s.buf i) ∧
      Written env s1.buf (offset + s.pos) P)

/-- An encoder block handles the leaf runs `P`: started with `pos ≤ maxlen` it runs to an
outcome described by `EncPost`. -/
def EncOK {L : Type} (env : CoreTypes L) (offset maxlen : Nat)
    (b : EncSt L → Option (Flow (EncSt L))) (P : List (LeafRun L)) : Prop :=
  ∀ s, s.pos ≤ maxlen → ∃ f, b s = some f ∧ EncPost env offset maxlen P s f

/-- The result `res` of a call of an encoder function on memory `buf` that handles the
leaf runs `P`. -/
def EncFnOK {L : Type} (env : CoreTypes L) (buf : Buf) (off len : Nat) (P : List (LeafRun L))
    (res : Option (EncOut L)) : Prop :=
  ∃ out, res = some out ∧
    (∀ i, off + len ≤ i → out.buf i = buf i) ∧ TraceOK off len 0 out.calls ∧
    (out.ret < 0 → ¬ (planSize env P ≤ len ∧ planSize env P < 2 ^ 31)) ∧
    (0 ≤ out.ret →
      out.ret = ((planSize env P : Nat) : Int) ∧ planSize env P ≤ len ∧
      out.calls.map LeafCall.run = P ∧
      (∀ c, c ∈ out.calls → c.ret = ((env.encodedArraySize c.type c.p c.elements : Nat) : Int)) ∧
      (RoundTrip env → off + len < 2 ^ 32 →
        (∀ i, (i < off ∨ off + planSize env P ≤ i) → out.buf i = buf i) ∧
        Written env out.buf off P))

/-! ### The schemas the decoder can invert -/

/-- Every `ZCM_VAR` axis of `zm` names a member among `pre`, the members declared before
`zm`. -/
def dimsBefore (pre : List ZCMMember) (zm : ZCMMember) : Bool :=
  zm.dimensions.all (fun zd =>
    decide (zd.mode = ZCMDimensionMode.ZCM_CONST) || (fieldIndex pre zd.size).isSome)

/-- Every member of `rest`, declared after the members `pre` and in this order, has the
size members of its `ZCM_VAR` axes declared before it. -/
def extentsBefore : List ZCMMember → List ZCMMember → Bool
  | _, [] => true
  | pre, zm :: rest => dimsBefore pre zm && extentsBefore (pre ++ [zm]) rest

/-- The struct has no two members of the same name, and the size member of every
`ZCM_VAR` axis is declared before the array it measures. -/
def ZCMStruct.sizesFirst (zs : ZCMStruct) : Bool :=
  decide (zs.members.map (fun zm => zm.membername)).Nodup && extentsBefore [] zs.members

/-- Every struct of the schema declares its size members before the arrays they
measure. -/
def ZCMGen.sizesFirst (zcm : ZCMGen) : Bool :=
  zcm.structs.all (fun zs => zs.sizesFirst)

/-! ### The schemas whose generated functions compile and link -/

/-- Every member of every struct has at most 16 axes, so at most 15 loops: the variables
its blocks declare are `a` to `o`, all usable. -/
def ZCMGen.loopVarsUsable (zcm : ZCMGen) : Bool :=
  zcm.structs.all (fun zs => zs.members.all (fun zm => decide (zm.dimensions.length ≤ 16)))

/-- Every symbol a leaf statement of the encoders and decoders names is defined: the
option `little-endian-encoding` is off, or every member of every struct has a primitive
type. -/
def ZCMGen.leafSymbolsDefined (zcm : ZCMGen) (little : Bool) : Bool :=
  !little || zcm.structs.all (fun zs =>
    zs.members.all (fun zm => (zcm.findStruct zm.type.nameUnderscore).isNone))

/-! ### What a block of the decoder does, relative to the leaf runs it reads -/

/-- The memory `buf` holds the encodings of the leaf runs `P` at the position of the
decoder state `s`, within `maxlen`, within `uint32_t` addresses and within an `int`. -/
def DecPre {L : Type} (env : CoreTypes L) (buf : Buf) (offset maxlen : Nat)
    (P : List (LeafRun L)) (s : DecSt) : Prop :=
  Layout env buf (offset + s.pos) P ∧ s.pos + planSize env P ≤ maxlen ∧
    offset + s.pos + planSize env P < 2 ^ 32 ∧ s.pos + planSize env P < 2 ^ 31

/-- A decoder block reads the leaf runs `P` and leaves the storage `v`: started where the
memory holds `P`, on any storage, it falls through with `v` stored and `pos` advanced by
the bytes of `P`. -/
def DecOK {L : Type} (env : CoreTypes L) (buf : Buf) (offset maxlen : Nat)
    (b : Val L × DecSt → Option (Flow (Val L × DecSt))) (P : List (LeafRun L)) (v : Val L) :
    Prop :=
  ∀ old s, DecPre env buf offset maxlen P s →
    ∃ ms, b (old, s) = some (Flow.next (v, ⟨s.pos + planSize env P, s.mallocs ++ ms⟩))

/-- A decoder function reads the leaf runs `P` into the storage `v`: called where the
memory holds `P`, with a length that covers it, it returns the bytes of `P` and has
stored `v`. -/
def DecFnOK {L : Type} (env : CoreTypes L) (buf : Buf)
    (callee : Nat → Nat → Val L → Option (DecOut L)) (P : List (LeafRun L)) (v : Val L) : Prop :=
  ∀ off len old, Layout env buf off P → planSize env P ≤ len → len < 2 ^ 32 →
    off + planSize env P < 2 ^ 32 → planSize env P < 2 ^ 31 →
    ∃ ms, callee off len old = some ⟨((planSize env P : Nat) : Int), v, ms⟩

/-! ## The fixed-width integer primitives, for the examples -/

/-- Modelled from the spec: the primitive codecs are in `zcm_coretypes.h`, which is not
among the sources. "PrimitiveType — 8/16/32/64-bit signed integers ...": the encoded
width in bytes of the integer primitives (1 for any other name, as for `byte`). -/
def primWidth (tn : String) : Nat :=
  if tn = "int16_t" then 2
  else if tn = "int32_t" then 4
  else if tn = "int64_t" then 8
  else 1

/-- Byte `k` (0 is the most significant) of the `w`-byte two's complement form of `x`. -/
def byteOf (w : Nat) (x : Int) (k : Nat) : Nat :=
  ((x % (256 : Int) ^ w).toNat / 256 ^ (w - 1 - k)) % 256

/-- The number whose big-endian bytes are `f 0, ..., f (w-1)`. -/
def beNat (f : Nat → Nat) : Nat → Nat
  | 0 => 0
  | w + 1 => beNat f w * 256 + f w

/-- The signed value of a `w`-byte two's complement number. -/
def signedOf (w : Nat) (u : Nat) : Int :=
  if 2 * u < 256 ^ w then (u : Int) else (u : Int) - (256 : Int) ^ w

/-- Modelled from the spec: `__intN_t_encode_array` of `zcm_coretypes.h`. "scalars as
fixed-width values in a configurable byte order" (big-endian here); "Buffer-exhaustion
fault — encode/decode would exceed `max_len`; surfaced as a negative/error result". -/
def intEncodeArray (tn : String) (buf : Buf) (offset maxlen : Nat) (xs : List Int)
    (elements : Nat) : Int × Buf :=
  if maxlen < primWidth tn * elements then (-1, buf)
  else
    (((primWidth tn * elements : Nat) : Int),
     fun i =>
      if offset ≤ i ∧ i < offset + primWidth tn * elements then
        byteOf (primWidth tn) (xs.getD ((i - offset) / primWidth tn) 0) ((i - offset) % primWidth tn)
      else buf i)

/-- Modelled from the spec: `__intN_t_decode_array` of `zcm_coretypes.h`, the inverse of
`intEncodeArray`, with the same buffer-exhaustion result. -/
def intDecodeArray (tn : String) (buf : Buf) (offset maxlen : Nat) (elements : Nat) :
    Int × List Int :=
  if maxlen < primWidth tn * elements then (-1, [])
  else
    (((primWidth tn * elements : Nat) : Int),
     (List.range elements).map (fun j =>
       signedOf (primWidth tn) (beNat (fun k => buf (offset + j * primWidth tn + k)) (primWidth tn))))

/-- The value of a decimal size token. -/
def decimal (s : String) : Int :=
  ((s.data.foldl (fun acc c => acc * 10 + (c.toNat - 48)) 0 : Nat) : Int)

/-- Modelled from the spec: the environment of the examples, in which every primitive is
a fixed-width big-endian two's complement integer and size tokens are decimal. -/
def intEnv : CoreTypes Int where
  encodeArray := intEncodeArray
  decodeArray := intDecodeArray
  encodedArraySize := fun tn _ elements => primWidth tn * elements
  valid := fun tn x => decide (-(2 ^ (8 * primWidth tn - 1)) ≤ x) && decide (x < 2 ^ (8 * primWidth tn - 1))
  asInt := fun x => x
  ofInt := fun x => x
  constSize := decimal

/-- An array member with the given axes. -/
def array (ty name : String) (dims : List ZCMDimension) : ZCMMember := ⟨tname ty, name, dims, ""⟩

/-- Struct `point_t { int32_t x; int32_t y; }`. -/
def pointT : ZCMStruct :=
  ⟨tname "point_t", [scalar "int32_t" "x", scalar "int32_t" "y"], [], 7, "", "t.zcm"⟩

/-- Struct `blob_t { int32_t n; int8_t data[n]; }`. -/
def blobT : ZCMStruct :=
  ⟨tname "blob_t",
   [scalar "int32_t" "n", array "int8_t" "data" [⟨ZCMDimensionMode.ZCM_VAR, "n"⟩]],
   [], 11, "", "t.zcm"⟩

/-- Struct `late_t { int8_t data[n]; int32_t n; }`: the size member comes after the
array it measures. -/
def lateT : ZCMStruct :=
  ⟨tname "late_t",
   [array "int8_t" "data" [⟨ZCMDimensionMode.ZCM_VAR, "n"⟩], scalar "int32_t" "n"],
   [], 13, "", "t.zcm"⟩

/-- The schema of the codec examples. -/
def codecSchema : ZCMGen := ⟨[pointT, blobT, lateT]⟩

/-- The schema of the round-trip example: `point_t` and `blob_t` only. -/
def wireSchema : ZCMGen := ⟨[pointT, blobT]⟩

/-- The value `{x: 3, y: -7}` of `point_t`. -/
def pointV : Val Int := Val.record [Val.prims [3], Val.prims [-7]]

/-- The value `{n: 3, data: [1, 2, 3]}` of `blob_t`. -/
def blobV : Val Int := Val.record [Val.prims [3], Val.prims [1, 2, 3]]

/-- The value `{data: [1, 2, 3], n: 3}` of `late_t`. -/
def lateV : Val Int := Val.record [Val.prims [1, 2, 3], Val.prims [3]]

/-- A zero-initialised `late_t` (`memset(&p, 0, sizeof(late_t))`): a null `data`, `n = 0`. -/
def lateZero : Val Int := Val.record [Val.prims [], Val.prims [0]]

/-- Memory that is zero everywhere. -/
def zeroBuf : Buf := fun _ => 0

/-- The number of elements of the large example, `2^30`. -/
def bigN : Nat := 2 ^ 30

/-- Struct `big_t { int32_t n; int8_t a[n]; int8_t b[n]; }`. -/
def bigT : ZCMStruct :=
  ⟨tname "big_t",
   [scalar "int32_t" "n", array "int8_t" "a" [⟨ZCMDimensionMode.ZCM_VAR, "n"⟩],
    array "int8_t" "b" [⟨ZCMDimensionMode.ZCM_VAR, "n"⟩]],
   [], 17, "", "t.zcm"⟩

/-- The schema of the large example. -/
def bigSchema : ZCMGen := ⟨[bigT]⟩

/-- The value `{n: n, a: n zero bytes, b: n zero bytes}` of `big_t`. -/
def bigValue (n : Nat) : Val Int :=
  Val.record [Val.prims [(n : Int)], Val.prims (List.replicate n 0),
    Val.prims (List.replicate n 0)]

/-- The value `{n: 2^30, a: 2^30 zero bytes, b: 2^30 zero bytes}` of `big_t`: its encoding
takes `8 + 4 + 2^30 + 2^30` bytes, more than `2^31`. -/
def bigV : Val Int := bigValue bigN

/-- The member `int8_t cells[1]...[1]` of 17 axes, each of extent 1. -/
def thinCells : ZCMMember :=
  array "int8_t" "cells" (List.replicate 17 ⟨ZCMDimensionMode.ZCM_CONST, "1"⟩)

/-- Struct `deep_t` with the one member `int8_t cells[1]...[1]` of 17 axes. -/
def deepT : ZCMStruct := ⟨tname "deep_t", [thinCells], [], 29, "", "t.zcm"⟩

/-- The schema of `deep_t`. -/
def deepSchema : ZCMGen := ⟨[deepT]⟩

/-- Storage of `k` nested arrays of one element around a run of one zero. -/
def thinVal : Nat → Val Int
  | 0 => Val.prims [0]
  | k + 1 => Val.arr [thinVal k]

/-- The value of `deep_t` whose one element is zero. -/
def deepV : Val Int := Val.record [thinVal 16]

/-- The value of `outer_t { inner_t i; }` with `i.v = 5`. -/
def outerV : Val Int := Val.record [Val.arr [Val.record [Val.prims [5]]]]

/-! ## The text `EmitC.cpp` prints

The functions below are the member functions of `Emit`, `EmitHeader` and `EmitSource`:
each returns the lines its `emit` calls print, in order. -/

/-- Modelled from the spec: the options as the emitter reads them,
`zcm.gopt->getString(name)` and `zcm.gopt->getBool(name)` (`GetOpt.hpp` is not among the
sources; the backend is driven by "a single global configuration option" per setting). -/
structure GetOpt where
  getString : String → String
  getBool : String → Bool

/-- One call `emit(indent, fmt, ...)` of `Emitter` (`Emitter.hpp` is not among the
sources): the indentation level and the formatted text of one output line. -/
structure Line where
  indent : Nat
  text : String
deriving DecidableEq, Repr

/-- The flag value `FLAG_NONE`. -/
def FLAG_NONE : Nat := 0

/-- The flag value `FLAG_EMIT_MALLOCS`, for `emitCArrayLoopsStart`. -/
def FLAG_EMIT_MALLOCS : Nat := 1

/-- The flag value `FLAG_EMIT_FREES`, for `emitCArrayLoopsEnd`. -/
def FLAG_EMIT_FREES : Nat := 2

/-- The C test `flags & f`. -/
def hasFlag (flags f : Nat) : Bool := flags &&& f != 0

/-- The function `makeAccessor(zm, n, dim)`: the C expression for the storage of member
`zm` of the record `n[element]` at depth `dim` (`dim = 0` has no brackets, `dim = 1` has
`[a]`, `dim = 2` has `[a][b]`); for a scalar the address of the member. -/
def makeAccessor (zm : ZCMMember) (n : String) (dim : Nat) : String :=
  if zm.dimensions.length = 0 then "&(" ++ n ++ "[element]." ++ zm.membername ++ ")"
  else
    (List.range dim).foldl (fun s d => s ++ "[" ++ loopVar d ++ "]")
      (n ++ "[element]." ++ zm.membername)

/-- The string `makeArraySize(zm, n, dim)` returns: the C expression for the extent of
axis `dim` of member `zm` of the record `n[element]`: `1` for a scalar, the size token of
a `ZCM_CONST` axis, `n[element].<size>` for a `ZCM_VAR` axis. (The definition
`makeArraySize` above is the value of this expression.) No caller passes an axis the
member does not have; the empty string stands for that. -/
def makeArraySizeExpr (zm : ZCMMember) (n : String) (dim : Nat) : String :=
  if zm.dimensions.length = 0 then "1"
  else
    match zm.dimensions.get? dim with
    | none => ""
    | some zd =>
      match zd.mode with
      | ZCMDimensionMode.ZCM_CONST => zd.size
      | ZCMDimensionMode.ZCM_VAR => n ++ "[element]." ++ zd.size

/-- The function `mapTypeName`: the C storage type of a zcm type name. -/
def mapTypeName (t : String) : String :=
  if t = "boolean" then "int8_t"
  else if t = "string" then "char*"
  else if t = "byte" then "uint8_t"
  else dotsToUnderscores t

/-- The allocation statement `emitCArrayLoopsStart` prints for depth `i` of member `zm`
under `FLAG_EMIT_MALLOCS`: `accessor = (T stars *) zcm_malloc(sizeof(T stars) * size);`
with `stars` stars, at indentation `indent`. -/
def mallocLine (zm : ZCMMember) (n : String) (indent i stars : Nat) : Line :=
  ⟨indent, makeAccessor zm n i ++ " = (" ++ mapTypeName zm.type.fullname
    ++ String.mk (List.replicate stars '*') ++ "*) zcm_malloc(sizeof("
    ++ mapTypeName zm.type.fullname ++ String.mk (List.replicate stars '*') ++ ") * "
    ++ makeArraySizeExpr zm n i ++ ");"⟩

/-- The two lines with which `emitCArrayLoopsStart` opens the loop of depth `i`:
the block with the counter and the `for` header, bounded by `makeArraySize(zm, "p", i)`. -/
def loopOpen (zm : ZCMMember) (i : Nat) : List Line :=
  [⟨2 + i, "\x7b int " ++ loopVar i ++ ";"⟩,
   ⟨2 + i, "for (" ++ loopVar i ++ " = 0; " ++ loopVar i ++ " < " ++ makeArraySizeExpr zm "p" i
      ++ "; ++" ++ loopVar i ++ ") \x7b"⟩]

/-- The member function `emitCArrayLoopsStart(zm, n, flags)`. -/
def emitCArrayLoopsStart (zm : ZCMMember) (n : String) (flags : Nat) : List Line :=
  if zm.dimensions.length = 0 then []
  else
    (List.range (zm.dimensions.length - 1)).flatMap (fun i =>
      (if hasFlag flags FLAG_EMIT_MALLOCS then
        [mallocLine zm n (2 + i) i (zm.dimensions.length - 1 - i)]
       else []) ++ loopOpen zm i)
    ++ (if hasFlag flags FLAG_EMIT_MALLOCS then
        [mallocLine zm n (2 + zm.dimensions.length - 1) (zm.dimensions.length - 1) 0]
       else [])

/-- The guarded release `if (accessor) free(accessor);` that `emitCArrayLoopsEnd` prints
for depth `d` of member `zm`, at indentation `indent`. The accessor is always that of
`"p"`. -/
def freeLine (zm : ZCMMember) (indent d : Nat) : Line :=
  ⟨indent, "if (" ++ makeAccessor zm "p" d ++ ") free(" ++ makeAccessor zm "p" d ++ ");"⟩

/-- The two closing braces `emitCArrayLoopsEnd` prints at indentation `indent`. -/
def loopClose (indent : Nat) : List Line := [⟨indent, "\x7d"⟩, ⟨indent, "\x7d"⟩]

/-- The member function `emitCArrayLoopsEnd(zm, n, flags)`. -/
def emitCArrayLoopsEnd (zm : ZCMMember) (_n : String) (flags : Nat) : List Line :=
  if zm.dimensions.length = 0 then []
  else
    (List.range (zm.dimensions.length - 1)).flatMap (fun i =>
      (if hasFlag flags FLAG_EMIT_FREES then
        [freeLine zm (zm.dimensions.length - i + 1) (zm.dimensions.length - 1 - i)]
       else []) ++ loopClose (zm.dimensions.length - i))
    ++ (if hasFlag flags FLAG_EMIT_FREES then [freeLine zm 2 0] else [])

/-- The shape of a member block, said by nesting: at depth `d` come the statements
`pre d`, then, if a loop of this depth exists (`k` loops are still to open), its two
opening lines, the block of depth `d + 1` inside it and its two closing braces, or else
the leaf statement; and last the statements `post d`. -/
def nest (pre post : Nat → List Line) (zm : ZCMMember) (leaf : List Line) :
    Nat → Nat → List Line
  | 0, d => pre d ++ leaf ++ post d
  | k + 1, d =>
    pre d ++ loopOpen zm d ++ nest pre post zm leaf k (d + 1) ++ loopClose (2 + d) ++ post d

/-- No statement. -/
def noLines : Nat → List Line := fun _ => []

/-- The allocation of depth `d` of member `zm` of the record `n`, as a statement of the
nesting. -/
def allocAt (zm : ZCMMember) (n : String) : Nat → List Line :=
  fun d => [mallocLine zm n (2 + d) d (zm.dimensions.length - 1 - d)]

/-- The guarded release of depth `d` of member `zm`, as a statement of the nesting. -/
def releaseAt (zm : ZCMMember) : Nat → List Line :=
  fun d => [freeLine zm (2 + d) d]

/-- The indentation of the leaf statement of member `zm`,
`2+std::max(0, (int)zm.dimensions.size() - 1)`. -/
def leafIndent (zm : ZCMMember) : Nat := 2 + (zm.dimensions.length - 1)

/-- The text `zcm.gopt->getBool("little-endian-encoding") ? "little_endian_" : ""`. -/
def endianInfix (gopt : GetOpt) : String :=
  if gopt.getBool "little-endian-encoding" then "little_endian_" else ""

/-- Left-pads `s` with `c` to the width `w` (the `0` flag and width of a `printf`
conversion). -/
def padLeft (w : Nat) (c : Char) (s : String) : String :=
  String.mk (List.replicate (w - s.length) c) ++ s

/-- The conversion `%016" PRIx64 "` of the `uint64_t` value `n`. -/
def hex016 (n : Nat) : String :=
  padLeft 16 '0' (String.mk (Nat.toDigits 16 (n % 2 ^ 64)))

/-- The member function `emitCStructGetHash`. -/
def emitCStructGetHash (zs : ZCMStruct) : List Line :=
  let tn := zs.structname.nameUnderscore
  ([⟨0, "static int __" ++ tn ++ "_hash_computed = 0;"⟩,
    ⟨0, "static uint64_t __" ++ tn ++ "_hash;"⟩,
    ⟨0, ""⟩,
    ⟨0, "uint64_t __" ++ tn ++ "_hash_recursive(const __zcm_hash_ptr* p)"⟩,
    ⟨0, "\x7b"⟩,
    ⟨1, "const __zcm_hash_ptr* fp;"⟩,
    ⟨1, "for (fp = p; fp != NULL; fp = fp->parent)"⟩,
    ⟨2, "if (fp->v == __" ++ tn ++ "_get_hash)"⟩,
    ⟨3, "return 0;"⟩,
    ⟨0, ""⟩,
    ⟨1, "__zcm_hash_ptr cp;"⟩,
    ⟨1, "cp.parent =  p;"⟩] : List Line)
  ++ ([⟨1, "cp.v = (void*)__" ++ tn ++ "_get_hash;"⟩,
       ⟨1, "(void) cp;"⟩,
       ⟨0, ""⟩,
       ⟨1, "uint64_t hash = (uint64_t)0x" ++ hex016 zs.hash ++ "LL"⟩] : List Line)
  ++ zs.members.map (fun zm => ⟨2, " + __" ++ zm.type.nameUnderscore ++ "_hash_recursive(&cp)"⟩)
  ++ ([⟨2, ";"⟩,
       ⟨0, ""⟩,
       ⟨1, "return (hash<<1) + ((hash>>63)&1);"⟩,
       ⟨0, "\x7d"⟩,
       ⟨0, ""⟩,
       ⟨0, "int64_t __" ++ tn ++ "_get_hash(void)"⟩,
       ⟨0, "\x7b"⟩,
       ⟨1, "if (!__" ++ tn ++ "_hash_computed) \x7b"⟩,
       ⟨2, "__" ++ tn ++ "_hash = (int64_t)__" ++ tn ++ "_hash_recursive(NULL);"⟩,
       ⟨2, "__" ++ tn ++ "_hash_computed = 1;"⟩,
       ⟨1, "\x7d"⟩,
       ⟨0, ""⟩] : List Line)
  ++ ([⟨1, "return __" ++ tn ++ "_hash;"⟩,
       ⟨0, "\x7d"⟩,
       ⟨0, ""⟩] : List Line)

/-- The leaf statement of `emitCEncodeArray` for member `zm`: the call of the member
type's encoder and the test of its result. -/
def encodeLeafLines (gopt : GetOpt) (zm : ZCMMember) : List Line :=
  [⟨leafIndent zm, "thislen = __" ++ zm.type.nameUnderscore ++ "_encode_" ++ endianInfix gopt
      ++ "array(buf, offset + pos, maxlen - pos, "
      ++ makeAccessor zm "p" (zm.dimensions.length - 1) ++ ", "
      ++ makeArraySizeExpr zm "p" (zm.dimensions.length - 1) ++ ");"⟩,
   ⟨leafIndent zm, "if (thislen < 0) return thislen; else pos += thislen;"⟩]

/-- The body of the loop over `zs.members` in `emitCEncodeArray`. -/
def emitCEncodeArrayMember (gopt : GetOpt) (zm : ZCMMember) : List Line :=
  emitCArrayLoopsStart zm "p" FLAG_NONE ++ encodeLeafLines gopt zm
    ++ emitCArrayLoopsEnd zm "p" FLAG_NONE ++ [⟨0, ""⟩]

/-- The member function `emitCEncodeArray`. -/
def emitCEncodeArray (gopt : GetOpt) (zs : ZCMStruct) : List Line :=
  let tn := zs.structname.nameUnderscore
  [⟨0, "int __" ++ tn ++ "_encode_array(void* buf, uint32_t offset, uint32_t maxlen, const "
      ++ tn ++ "* p, uint32_t elements)"⟩,
   ⟨0, "\x7b"⟩,
   ⟨1, "uint32_t pos = 0, element;"⟩]
  ++ (if zs.members.length > 0 then [⟨1, "int thislen;"⟩] else [])
  ++ [⟨0, ""⟩,
   ⟨1, "for (element = 0; element < elements; ++element) \x7b"⟩,
   ⟨0, ""⟩]
  ++ zs.members.flatMap (emitCEncodeArrayMember gopt)
  ++ [⟨1, "\x7d"⟩,
   ⟨1, "return pos;"⟩,
   ⟨0, "\x7d"⟩,
   ⟨0, ""⟩]

/-- The member function `emitCEncode`. -/
def emitCEncode (gopt : GetOpt) (zs : ZCMStruct) : List Line :=
  let tn := zs.structname.nameUnderscore
  ([⟨0, "int " ++ tn ++ "_encode(void* buf, uint32_t offset, uint32_t maxlen, const " ++ tn ++ "* p)"⟩,
    ⟨0, "\x7b"⟩,
    ⟨1, "uint32_t pos = 0;"⟩,
    ⟨1, "int thislen;"⟩,
    ⟨1, "int64_t hash = __" ++ tn ++ "_get_hash();"⟩,
    ⟨0, ""⟩,
    ⟨1, "thislen = __int64_t_encode_" ++ endianInfix gopt
        ++ "array(buf, offset + pos, maxlen - pos, &hash, 1);"⟩,
    ⟨1, "if (thislen < 0) return thislen; else pos += thislen;"⟩,
    ⟨0, ""⟩,
    ⟨1, "thislen = __" ++ tn ++ "_encode_array(buf, offset + pos, maxlen - pos, p, 1);"⟩,
    ⟨1, "if (thislen < 0) return thislen; else pos += thislen;"⟩,
    ⟨0, ""⟩] : List Line)
  ++ ([⟨1, "return pos;"⟩,
       ⟨0, "\x7d"⟩,
       ⟨0, ""⟩] : List Line)

/-- The leaf statement of `emitCEncodedArraySize` for member `zm`. -/
def sizeLeafLines (zm : ZCMMember) : List Line :=
  [⟨leafIndent zm, "size += __" ++ zm.type.nameUnderscore ++ "_encoded_array_size("
      ++ makeAccessor zm "p" (zm.dimensions.length - 1) ++ ", "
      ++ makeArraySizeExpr zm "p" (zm.dimensions.length - 1) ++ ");"⟩]

/-- The body of the loop over `zs.members` in `emitCEncodedArraySize`. -/
def emitCEncodedArraySizeMember (zm : ZCMMember) : List Line :=
  emitCArrayLoopsStart zm "p" FLAG_NONE ++ sizeLeafLines zm
    ++ emitCArrayLoopsEnd zm "p" FLAG_NONE ++ [⟨0, ""⟩]

/-- The member function `emitCEncodedArraySize`. -/
def emitCEncodedArraySize (zs : ZCMStruct) : List Line :=
  let tn := zs.structname.nameUnderscore
  [⟨0, "uint32_t __" ++ tn ++ "_encoded_array_size(const " ++ tn ++ "* p, uint32_t elements)"⟩,
   ⟨0, "\x7b"⟩,
   ⟨1, "uint32_t size = 0, element;"⟩,
   ⟨1, "for (element = 0; element < elements; ++element) \x7b"⟩,
   ⟨0, ""⟩]
  ++ zs.members.flatMap emitCEncodedArraySizeMember
  ++ [⟨1, "\x7d"⟩,
   ⟨1, "return size;"⟩,
   ⟨0, "\x7d"⟩,
   ⟨0, ""⟩]

/-- The member function `emitCEncodedSize`. -/
def emitCEncodedSize (zs : ZCMStruct) : List Line :=
  let tn := zs.structname.nameUnderscore
  [⟨0, "uint32_t " ++ tn ++ "_encoded_size(const " ++ tn ++ "* p)"⟩,
   ⟨0, "\x7b"⟩,
   ⟨1, "return 8 + __" ++ tn ++ "_encoded_array_size(p, 1);"⟩,
   ⟨0, "\x7d"⟩,
   ⟨0, ""⟩]

/-- Modelled from the spec: `ZCMGen::isPrimitiveType` of `ZCMGen.hpp`, which is not among
the sources. "PrimitiveType — enumerated: 8/16/32/64-bit signed integers, single/double
floats, boolean, byte, string." -/
def isPrimitiveType (t : String) : Bool :=
  ["int8_t", "int16_t", "int32_t", "int64_t", "byte", "float", "double", "string",
    "boolean"].contains t

/-- Modelled from the spec: `StringUtil::toUpper` of `util/StringUtil.hpp`, which is not
among the sources: the name in upper case, as in the "language-level symbolic
constants". -/
def toUpper (s : String) : String := s.toUpper

/-- The member function `emitCStructSize`. -/
def emitCStructSize (zs : ZCMStruct) : List Line :=
  let tn := zs.structname.nameUnderscore
  [⟨0, "uint32_t " ++ tn ++ "_struct_size(void)"⟩,
   ⟨0, "\x7b"⟩,
   ⟨1, "return sizeof(" ++ tn ++ ");"⟩,
   ⟨0, "\x7d"⟩,
   ⟨0, ""⟩]

/-- The member function `emitCNumFields`. -/
def emitCNumFields (zs : ZCMStruct) : List Line :=
  let tn := zs.structname.nameUnderscore
  [⟨0, "uint32_t " ++ tn ++ "_num_fields(void)"⟩,
   ⟨0, "\x7b"⟩,
   ⟨1, "return " ++ toString (zs.members.length % 2 ^ 32) ++ ";"⟩,
   ⟨0, "\x7d"⟩,
   ⟨0, ""⟩]

/-- The lines `emitCGetField` prints for the axes of member `m`: the sizes, then the
modes. -/
def getFieldDims (m : ZCMMember) : List Line :=
  (m.dimensions.enum.map (fun jd =>
    match jd.2.mode with
    | ZCMDimensionMode.ZCM_VAR =>
      (⟨3, "f->dim_size[" ++ toString jd.1 ++ "] = p->" ++ jd.2.size ++ ";"⟩ : Line)
    | ZCMDimensionMode.ZCM_CONST =>
      ⟨3, "f->dim_size[" ++ toString jd.1 ++ "] = " ++ jd.2.size ++ ";"⟩))
  ++ m.dimensions.enum.map (fun jd =>
    ⟨3, "f->dim_is_variable[" ++ toString jd.1 ++ "] = "
      ++ (if jd.2.mode = ZCMDimensionMode.ZCM_VAR then "1" else "0") ++ ";"⟩)

/-- The `case` that `emitCGetField` prints for member `m`, the `i`-th of the struct. -/
def getFieldCase (i : Nat) (m : ZCMMember) : List Line :=
  [⟨2, "case " ++ toString i ++ ": \x7b"⟩]
  ++ (if isPrimitiveType m.type.shortname then []
      else [⟨3, "/* " ++ m.type.shortname ++ " */"⟩])
  ++ [⟨3, "f->name = \"" ++ m.membername ++ "\";"⟩,
   ⟨3, "f->type = " ++ (if isPrimitiveType m.type.shortname
        then "ZCM_FIELD_" ++ toUpper m.type.shortname else "ZCM_FIELD_USER_TYPE") ++ ";"⟩,
   ⟨3, "f->typestr = \"" ++ m.type.fullname ++ "\";"⟩,
   ⟨3, "f->num_dim = " ++ toString m.dimensions.length ++ ";"⟩]
  ++ (if m.dimensions.length ≠ 0 then getFieldDims m else [])
  ++ [⟨3, "f->data = (void*) &p->" ++ m.membername ++ ";"⟩,
   ⟨3, "return 0;"⟩,
   ⟨2, "\x7d"⟩,
   ⟨2, ""⟩]

/-- The member function `emitCGetField`. -/
def emitCGetField (zs : ZCMStruct) : List Line :=
  let tn := zs.structname.nameUnderscore
  [⟨0, "int " ++ tn ++ "_get_field(const " ++ tn ++ "* p, uint32_t i, zcm_field_t* f)"⟩,
   ⟨0, "\x7b"⟩,
   ⟨1, "if (i >= " ++ tn ++ "_num_fields())"⟩,
   ⟨2, "return 1;"⟩,
   ⟨1, ""⟩,
   ⟨1, "switch (i) \x7b"⟩,
   ⟨1, ""⟩]
  ++ zs.members.enum.flatMap (fun im => getFieldCase im.1 im.2)
  ++ [⟨2, "default:"⟩,
   ⟨3, "return 1;"⟩,
   ⟨1, "\x7d"⟩,
   ⟨0, "\x7d"⟩,
   ⟨0, ""⟩]

/-- The member function `emitCGetTypeInfo`. -/
def emitCGetTypeInfo (zs : ZCMStruct) : List Line :=
  let tn := zs.structname.nameUnderscore
  ([⟨0, "const zcm_type_info_t* " ++ tn ++ "_get_type_info(void)"⟩,
    ⟨0, "\x7b"⟩,
    ⟨1, "static int init = 0;"⟩,
    ⟨1, "static zcm_type_info_t typeinfo;"⟩,
    ⟨1, "if (!init) \x7b"⟩,
    ⟨2, "typeinfo.encode         = (zcm_encode_t) " ++ tn ++ "_encode;"⟩,
    ⟨2, "typeinfo.decode         = (zcm_decode_t) " ++ tn ++ "_decode;"⟩,
    ⟨2, "typeinfo.decode_cleanup = (zcm_decode_cleanup_t) " ++ tn ++ "_decode_cleanup;"⟩,
    ⟨2, "typeinfo.encoded_size   = (zcm_encoded_size_t) " ++ tn ++ "_encoded_size;"⟩,
    ⟨2, "typeinfo.struct_size    = (zcm_struct_size_t)  " ++ tn ++ "_struct_size;"⟩,
    ⟨2, "typeinfo.num_fields     = (zcm_num_fields_t) " ++ tn ++ "_num_fields;"⟩,
    ⟨2, "typeinfo.get_field      = (zcm_get_field_t) " ++ tn ++ "_get_field;"⟩] : List Line)
  ++ ([⟨2, "typeinfo.get_hash       = (zcm_get_hash_t) __" ++ tn ++ "_get_hash;"⟩,
       ⟨1, "\x7d"⟩,
       ⟨1, ""⟩,
       ⟨1, "return &typeinfo;"⟩,
       ⟨0, "\x7d"⟩] : List Line)

/-- The leaf statement of `emitCDecodeArray` for member `zm`: the call of the member
type's decoder and the test of its result. -/
def decodeLeafLines (gopt : GetOpt) (zm : ZCMMember) : List Line :=
  [⟨leafIndent zm, "thislen = __" ++ zm.type.nameUnderscore ++ "_decode_" ++ endianInfix gopt
      ++ "array(buf, offset + pos, maxlen - pos, "
      ++ makeAccessor zm "p" (zm.dimensions.length - 1) ++ ", "
      ++ makeArraySizeExpr zm "p" (zm.dimensions.length - 1) ++ ");"⟩,
   ⟨leafIndent zm, "if (thislen < 0) return thislen; else pos += thislen;"⟩]

/-- The body of the loop over `zs.members` in `emitCDecodeArray`. -/
def emitCDecodeArrayMember (gopt : GetOpt) (zm : ZCMMember) : List Line :=
  emitCArrayLoopsStart zm "p" (if zm.isConstantSizeArray then FLAG_NONE else FLAG_EMIT_MALLOCS)
    ++ decodeLeafLines gopt zm
    ++ emitCArrayLoopsEnd zm "p" FLAG_NONE ++ [⟨0, ""⟩]

/-- The member function `emitCDecodeArray`. -/
def emitCDecodeArray (gopt : GetOpt) (zs : ZCMStruct) : List Line :=
  let tn := zs.structname.nameUnderscore
  [⟨0, "int __" ++ tn ++ "_decode_array(const void* buf, uint32_t offset, uint32_t maxlen, "
      ++ tn ++ "* p, uint32_t elements)"⟩,
   ⟨0, "\x7b"⟩,
   ⟨1, "uint32_t pos = 0, element;"⟩,
   ⟨1, "int thislen;"⟩,
   ⟨0, ""⟩,
   ⟨1, "for (element = 0; element < elements; ++element) \x7b"⟩,
   ⟨0, ""⟩]
  ++ zs.members.flatMap (emitCDecodeArrayMember gopt)
  ++ [⟨1, "\x7d"⟩,
   ⟨1, "return pos;"⟩,
   ⟨0, "\x7d"⟩,
   ⟨0, ""⟩]

/-- The leaf statement of `emitCDecodeArrayCleanup` for member `zm`: the call of the
member type's cleanup. -/
def cleanupLeafLines (zm : ZCMMember) : List Line :=
  [⟨leafIndent zm, "__" ++ zm.type.nameUnderscore ++ "_decode_array_cleanup("
      ++ makeAccessor zm "p" (zm.dimensions.length - 1) ++ ", "
      ++ makeArraySizeExpr zm "p" (zm.dimensions.length - 1) ++ ");"⟩]

/-- The body of the loop over `zs.members` in `emitCDecodeArrayCleanup`. -/
def emitCDecodeArrayCleanupMember (zm : ZCMMember) : List Line :=
  emitCArrayLoopsStart zm "p" FLAG_NONE
    ++ cleanupLeafLines zm
    ++ emitCArrayLoopsEnd zm "p" (if zm.isConstantSizeArray then FLAG_NONE else FLAG_EMIT_FREES)
    ++ [⟨0, ""⟩]

/-- The member function `emitCDecodeArrayCleanup`. -/
def emitCDecodeArrayCleanup (zs : ZCMStruct) : List Line :=
  let tn := zs.structname.nameUnderscore
  [⟨0, "int __" ++ tn ++ "_decode_array_cleanup(" ++ tn ++ "* p, uint32_t elements)"⟩,
   ⟨0, "\x7b"⟩,
   ⟨1, "uint32_t element;"⟩,
   ⟨1, "for (element = 0; element < elements; ++element) \x7b"⟩,
   ⟨0, ""⟩]
  ++ zs.members.flatMap emitCDecodeArrayCleanupMember
  ++ [⟨1, "\x7d"⟩,
   ⟨1, "return 0;"⟩,
   ⟨0, "\x7d"⟩,
   ⟨0, ""⟩]

/-- The member function `emitCDecode`. -/
def emitCDecode (gopt : GetOpt) (zs : ZCMStruct) : List Line :=
  let tn := zs.structname.nameUnderscore
  ([⟨0, "int " ++ tn ++ "_decode(const void* buf, uint32_t offset, uint32_t maxlen, " ++ tn ++ "* p)"⟩,
    ⟨0, "\x7b"⟩,
    ⟨1, "uint32_t pos = 0;"⟩,
    ⟨1, "int thislen;"⟩,
    ⟨1, "int64_t hash = __" ++ tn ++ "_get_hash();"⟩,
    ⟨0, ""⟩,
    ⟨1, "int64_t this_hash;"⟩,
    ⟨1, "thislen = __int64_t_decode_" ++ endianInfix gopt
        ++ "array(buf, offset + pos, maxlen - pos, &this_hash, 1);"⟩,
    ⟨1, "if (thislen < 0) return thislen; else pos += thislen;"⟩,
    ⟨1, "if (this_hash != hash) return -1;"⟩,
    ⟨0, ""⟩,
    ⟨1, "thislen = __" ++ tn ++ "_decode_array(buf, offset + pos, maxlen - pos, p, 1);"⟩] : List Line)
  ++ ([⟨1, "if (thislen < 0) return thislen; else pos += thislen;"⟩,
       ⟨0, ""⟩,
       ⟨1, "return pos;"⟩,
       ⟨0, "\x7d"⟩,
       ⟨0, ""⟩] : List Line)

/-- The member function `emitCDecodeCleanup`. -/
def emitCDecodeCleanup (zs : ZCMStruct) : List Line :=
  let tn := zs.structname.nameUnderscore
  [⟨0, "int " ++ tn ++ "_decode_cleanup(" ++ tn ++ "* p)"⟩,
   ⟨0, "\x7b"⟩,
   ⟨1, "return __" ++ tn ++ "_decode_array_cleanup(p, 1);"⟩,
   ⟨0, "\x7d"⟩,
   ⟨0, ""⟩]

/-- The leaf statement of `emitCCloneArray` for member `zm`: the call of the member
type's clone, from the accessor of `p` to the accessor of `q`. -/
def cloneLeafLines (zm : ZCMMember) : List Line :=
  [⟨leafIndent zm, "n += __" ++ zm.type.nameUnderscore ++ "_clone_array("
      ++ makeAccessor zm "p" (zm.dimensions.length - 1) ++ ", "
      ++ makeAccessor zm "q" (zm.dimensions.length - 1) ++ ", "
      ++ makeArraySizeExpr zm "p" (zm.dimensions.length - 1) ++ ");"⟩]

/-- The body of the loop over `zs.members` in `emitCCloneArray`. -/
def emitCCloneArrayMember (zm : ZCMMember) : List Line :=
  emitCArrayLoopsStart zm "q" (if zm.isConstantSizeArray then FLAG_NONE else FLAG_EMIT_MALLOCS)
    ++ cloneLeafLines zm
    ++ emitCArrayLoopsEnd zm "p" FLAG_NONE ++ [⟨0, ""⟩]

/-- The member function `emitCCloneArray`. -/
def emitCCloneArray (zs : ZCMStruct) : List Line :=
  let tn := zs.structname.nameUnderscore
  [⟨0, "uint32_t __" ++ tn ++ "_clone_array(const " ++ tn ++ "* p, " ++ tn
      ++ "* q, uint32_t elements)"⟩,
   ⟨0, "\x7b"⟩,
   ⟨1, "uint32_t n = 0, element;"⟩,
   ⟨1, "for (element = 0; element < elements; ++element) \x7b"⟩,
   ⟨0, ""⟩]
  ++ zs.members.flatMap emitCCloneArrayMember
  ++ [⟨1, "\x7d"⟩,
   ⟨1, "return n;"⟩,
   ⟨0, "\x7d"⟩,
   ⟨0, ""⟩]

/-- The member function `emitCCopy`. -/
def emitCCopy (zs : ZCMStruct) : List Line :=
  let tn := zs.structname.nameUnderscore
  [⟨0, tn ++ "* " ++ tn ++ "_copy(const " ++ tn ++ "* p)"⟩,
   ⟨0, "\x7b"⟩,
   ⟨1, tn ++ "* q = (" ++ tn ++ "*) malloc(sizeof(" ++ tn ++ "));"⟩,
   ⟨1, "__" ++ tn ++ "_clone_array(p, q, 1);"⟩,
   ⟨1, "return q;"⟩,
   ⟨0, "\x7d"⟩,
   ⟨0, ""⟩]

/-- The member function `emitCDestroy`. -/
def emitCDestroy (zs : ZCMStruct) : List Line :=
  let tn := zs.structname.nameUnderscore
  [⟨0, "void " ++ tn ++ "_destroy(" ++ tn ++ "* p)"⟩,
   ⟨0, "\x7b"⟩,
   ⟨1, "__" ++ tn ++ "_decode_array_cleanup(p, 1);"⟩,
   ⟨1, "free(p);"⟩,
   ⟨0, "\x7d"⟩,
   ⟨0, ""⟩]

/-- The member function `emitCStructPublish`. -/
def emitCStructPublish (zs : ZCMStruct) : List Line :=
  let tn := zs.structname.nameUnderscore
  ([⟨0, "int " ++ tn ++ "_publish(zcm_t* zcm, const char* channel, const " ++ tn ++ "* p)"⟩,
    ⟨0, "\x7b"⟩,
    ⟨0, "      uint32_t max_data_size = " ++ tn ++ "_encoded_size (p);"⟩,
    ⟨0, "      uint8_t* buf = (uint8_t*) malloc (max_data_size);"⟩,
    ⟨0, "      if (!buf) return -1;"⟩,
    ⟨0, "      int data_size = " ++ tn ++ "_encode (buf, 0, max_data_size, p);"⟩,
    ⟨0, "      if (data_size < 0) \x7b"⟩,
    ⟨0, "          free (buf);"⟩,
    ⟨0, "          return data_size;"⟩,
    ⟨0, "      \x7d"⟩,
    ⟨0, "      int status = zcm_publish (zcm, channel, buf, (uint32_t)data_size);"⟩,
    ⟨0, "      free (buf);"⟩] : List Line)
  ++ ([⟨0, "      return status;"⟩,
       ⟨0, "\x7d"⟩,
       ⟨0, ""⟩] : List Line)

/-- The member function `emitCStructSubscribe`. -/
def emitCStructSubscribe (zs : ZCMStruct) : List Line :=
  let tn := zs.structname.nameUnderscore
  ([⟨0, "struct _" ++ tn ++ "_subscription_t \x7b"⟩,
    ⟨0, "    " ++ tn ++ "_handler_t user_handler;"⟩,
    ⟨0, "    void* userdata;"⟩,
    ⟨0, "    zcm_sub_t* z_sub;"⟩,
    ⟨0, "\x7d;"⟩,
    ⟨0, "static"⟩,
    ⟨0, "void " ++ tn ++ "_handler_stub (const zcm_recv_buf_t* rbuf,"⟩,
    ⟨0, "                            const char* channel, void* userdata)"⟩,
    ⟨0, "\x7b"⟩,
    ⟨0, "    int status;"⟩,
    ⟨0, "    " ++ tn ++ " p;"⟩,
    ⟨0, "    memset(&p, 0, sizeof(" ++ tn ++ "));"⟩] : List Line)
  ++ ([⟨0, "    status = " ++ tn ++ "_decode (rbuf->data, 0, rbuf->data_size, &p);"⟩,
       ⟨0, "    if (status < 0) \x7b"⟩,
       ⟨0, "        #ifndef ZCM_EMBEDDED"⟩,
       ⟨0, "        fprintf (stderr, \"error %d decoding " ++ tn ++ "!!!\\n\", status);"⟩,
       ⟨0, "        #endif"⟩,
       ⟨0, "        return;"⟩,
       ⟨0, "    \x7d"⟩,
       ⟨0, ""⟩,
       ⟨0, "    " ++ tn ++ "_subscription_t* h = (" ++ tn ++ "_subscription_t*) userdata;"⟩,
       ⟨0, "    h->user_handler (rbuf, channel, &p, h->userdata);"⟩,
       ⟨0, ""⟩,
       ⟨0, "    " ++ tn ++ "_decode_cleanup (&p);"⟩] : List Line)
  ++ ([⟨0, "\x7d"⟩,
       ⟨0, ""⟩,
       ⟨0, tn ++ "_subscription_t* " ++ tn ++ "_subscribe (zcm_t* zcm,"⟩,
       ⟨0, "                    const char* channel,"⟩,
       ⟨0, "                    " ++ tn ++ "_handler_t f, void* userdata)"⟩,
       ⟨0, "\x7b"⟩,
       ⟨0, "    " ++ tn ++ "_subscription_t* n = (" ++ tn ++ "_subscription_t*)"⟩,
       ⟨0, "                       malloc(sizeof(" ++ tn ++ "_subscription_t));"⟩,
       ⟨0, "    n->user_handler = f;"⟩,
       ⟨0, "    n->userdata = userdata;"⟩,
       ⟨0, "    n->z_sub = zcm_subscribe (zcm, channel,"⟩,
       ⟨0, "                              " ++ tn ++ "_handler_stub, n);"⟩] : List Line)
  ++ ([⟨0, "    if (n->z_sub == NULL) \x7b"⟩,
       ⟨0, "        #ifndef ZCM_EMBEDDED"⟩,
       ⟨0, "        fprintf (stderr,\"couldn't reg " ++ tn ++ " ZCM handler!\\n\");"⟩,
       ⟨0, "        #endif"⟩,
       ⟨0, "        free (n);"⟩,
       ⟨0, "        return NULL;"⟩,
       ⟨0, "    \x7d"⟩,
       ⟨0, "    return n;"⟩,
       ⟨0, "\x7d"⟩,
       ⟨0, ""⟩,
       ⟨0, "int " ++ tn ++ "_unsubscribe(zcm_t* zcm, " ++ tn ++ "_subscription_t* hid)"⟩,
       ⟨0, "\x7b"⟩] : List Line)
  ++ ([⟨0, "    int status = zcm_unsubscribe (zcm, hid->z_sub);"⟩,
       ⟨0, "    if (0 != status) \x7b"⟩,
       ⟨0, "        #ifndef ZCM_EMBEDDED"⟩,
       ⟨0, "        fprintf(stderr,"⟩,
       ⟨0, "           \"couldn't unsubscribe " ++ tn ++ "_handler %p!\\n\", hid);"⟩,
       ⟨0, "        #endif"⟩,
       ⟨0, "        return -1;"⟩,
       ⟨0, "    \x7d"⟩,
       ⟨0, "    free (hid);"⟩,
       ⟨0, "    return 0;"⟩,
       ⟨0, "\x7d\n"⟩] : List Line)

/-- The member function `emitAutoGeneratedWarning` of `Emit`. -/
def emitAutoGeneratedWarning : List Line :=
  [⟨0, "// THIS IS AN AUTOMATICALLY GENERATED FILE."⟩,
   ⟨0, "// DO NOT MODIFY BY HAND!!"⟩,
   ⟨0, "//"⟩,
   ⟨0, "// Generated by zcm-gen\n"⟩]

/-- The path text `<c-include>/<package>/<name>.h` both emitters print after
`#include`: a `/` follows the `c-include` option and the package path when they are not
empty. -/
def includePath (gopt : GetOpt) (package name : String) : String :=
  gopt.getString "c-include" ++ (if (gopt.getString "c-include").length > 0 then "/" else "")
    ++ package ++ (if package.length > 0 then "/" else "") ++ name ++ ".h"

/-- The member function `emitIncludes` of `EmitSource`. -/
def emitIncludes (gopt : GetOpt) (zs : ZCMStruct) : List Line :=
  let tn := zs.structname.nameUnderscore
  let package := dotsToSlashes zs.structname.package
  [⟨0, "#include <string.h>"⟩,
   ⟨0, "#ifndef ZCM_EMBEDDED"⟩,
   ⟨0, "#include <stdio.h>"⟩,
   ⟨0, "#endif"⟩,
   ⟨0, "#include \"" ++ includePath gopt package tn ++ "\""⟩,
   ⟨0, ""⟩]

/-- The lines `emitStructSource(zcm, zs, fname)` prints into the emitter it opened: the
member functions of `EmitSource` in the order of the calls, the type-info functions under
`c-typeinfo`, publish and subscribe unless `c-no-pubsub`. -/
def emitStructSourceLines (gopt : GetOpt) (zs : ZCMStruct) : List Line :=
  emitAutoGeneratedWarning ++ emitIncludes gopt zs
  ++ emitCStructGetHash zs ++ emitCEncodeArray gopt zs ++ emitCEncode gopt zs
  ++ emitCEncodedArraySize zs ++ emitCEncodedSize zs
  ++ (if gopt.getBool "c-typeinfo" then
        emitCStructSize zs ++ emitCNumFields zs ++ emitCGetField zs ++ emitCGetTypeInfo zs
      else [])
  ++ emitCDecodeArray gopt zs ++ emitCDecodeArrayCleanup zs ++ emitCDecode gopt zs
  ++ emitCDecodeCleanup zs
  ++ emitCCloneArray zs ++ emitCCopy zs ++ emitCDestroy zs
  ++ (if !gopt.getBool "c-no-pubsub" then emitCStructPublish zs ++ emitCStructSubscribe zs
      else [])

/-- Modelled from the spec: `StringUtil::split(comment, '\n')` of `util/StringUtil.hpp`,
which is not among the sources: the lines of an "optional doc comment". -/
def splitLines (comment : String) : List String := comment.splitOn "\n"

/-- The member function `emitComment(indent, comment)` of `Emit`: nothing for an empty
comment, `/// text` for one line, a `/** ... */` block for several. -/
def emitComment (indent : Nat) (comment : String) : List Line :=
  if comment = "" then []
  else
    match splitLines comment with
    | [line] => [⟨indent, "/// " ++ line⟩]
    | lines =>
      [⟨indent, "/**"⟩]
      ++ lines.map (fun line =>
          if line.length > 0 then (⟨indent, " * " ++ line⟩ : Line) else ⟨indent, " *"⟩)
      ++ [⟨indent, " */"⟩]

/-- The member function `emitHeaderTop` of `EmitHeader`. -/
def emitHeaderTop (gopt : GetOpt) (zs : ZCMStruct) : List Line :=
  let tn := zs.structname.nameUnderscore
  [⟨0, "#include <stdint.h>"⟩,
   ⟨0, "#include <stdlib.h>"⟩,
   ⟨0, "#include <zcm/zcm_coretypes.h>"⟩]
  ++ (if !gopt.getBool "c-no-pubsub" then [⟨0, "#include <zcm/zcm.h>"⟩] else [])
  ++ [⟨0, ""⟩,
   ⟨0, "#ifndef _" ++ tn ++ "_h"⟩,
   ⟨0, "#define _" ++ tn ++ "_h"⟩,
   ⟨0, ""⟩,
   ⟨0, "#ifdef __cplusplus"⟩,
   ⟨0, "extern \"C\" \x7b"⟩,
   ⟨0, "#endif"⟩,
   ⟨0, ""⟩]

/-- The member function `emitHeaderBottom` of `EmitHeader`. -/
def emitHeaderBottom : List Line :=
  [⟨0, "#ifdef __cplusplus"⟩,
   ⟨0, "\x7d"⟩,
   ⟨0, "#endif"⟩,
   ⟨0, ""⟩,
   ⟨0, "#endif"⟩]

/-- The first loop of `emitHeaderStruct`: one `#include` per member whose type is neither
primitive nor the struct itself. -/
def headerIncludes (gopt : GetOpt) (zs : ZCMStruct) : List Line :=
  zs.members.flatMap (fun zm =>
    if !isPrimitiveType zm.type.fullname && zm.type.fullname != zs.structname.fullname then
      [⟨0, "#include \"" ++ includePath gopt (dotsToSlashes zm.type.package)
          zm.type.nameUnderscore ++ "\""⟩]
    else [])

/-- The second loop of `emitHeaderStruct`, `// output constants`: for every constant its
doc comment and one `#define` line (with the suffix `LL` for an `int64_t`), and an empty
line after them when there is any. -/
def headerConstants (zs : ZCMStruct) : List Line :=
  zs.constants.flatMap (fun zc =>
    emitComment 0 zc.comment
    ++ [⟨0, "#define " ++ toUpper zs.structname.nameUnderscore ++ "_" ++ zc.membername ++ " "
        ++ zc.valstr ++ (if zc.type = "int64_t" then "LL" else "")⟩])
  ++ (if zs.constants.length > 0 then [⟨0, ""⟩] else [])

/-- The conversion `%-10s`: `s` padded with blanks on the right to the width 10. -/
def padRight10 (s : String) : String :=
  s ++ String.mk (List.replicate (10 - s.length) ' ')

/-- The lines `emitHeaderStruct` prints for the member `zm` of the typedef: its doc
comment and its declaration, with the axes in brackets for a constant-size array and one
star per axis otherwise. -/
def headerMember (zm : ZCMMember) : List Line :=
  emitComment 1 zm.comment
  ++ (if zm.dimensions.length = 0 then
        [⟨1, padRight10 (mapTypeName zm.type.fullname) ++ " " ++ zm.membername ++ ";"⟩]
      else if zm.isConstantSizeArray then
        [⟨1, padRight10 (mapTypeName zm.type.fullname) ++ " " ++ zm.membername
            ++ String.join (zm.dimensions.map (fun zd => "[" ++ zd.size ++ "]")) ++ ";"⟩]
      else
        [⟨1, padRight10 (mapTypeName zm.type.fullname) ++ " "
            ++ String.join (zm.dimensions.map (fun _ => "*")) ++ zm.membername ++ ";"⟩])

/-- The last part of `emitHeaderStruct`, `// define the struct`. -/
def headerTypedef (zs : ZCMStruct) : List Line :=
  let tn := zs.structname.nameUnderscore
  emitComment 0 zs.comment
  ++ [⟨0, "typedef struct _" ++ tn ++ " " ++ tn ++ ";"⟩,
   ⟨0, "struct _" ++ tn⟩,
   ⟨0, "\x7b"⟩]
  ++ zs.members.flatMap headerMember
  ++ [⟨0, "\x7d;"⟩,
   ⟨0, ""⟩]

/-- The member function `emitHeaderStruct` of `EmitHeader`: the includes required by the
members, the constants, the struct. -/
def emitHeaderStruct (gopt : GetOpt) (zs : ZCMStruct) : List Line :=
  headerIncludes gopt zs ++ headerConstants zs ++ headerTypedef zs

/-- The member function `emitHeaderPrototypes` of `EmitHeader`. -/
def emitHeaderPrototypes (gopt : GetOpt) (zs : ZCMStruct) : List Line :=
  let tn := zs.structname.nameUnderscore
  [⟨0, "/**"⟩,
   ⟨0, " * Create a deep copy of a " ++ tn ++ "."⟩,
   ⟨0, " * When no longer needed, destroy it with " ++ tn ++ "_destroy()"⟩,
   ⟨0, " */"⟩,
   ⟨0, tn ++ "* " ++ tn ++ "_copy(const " ++ tn ++ "* to_copy);"⟩,
   ⟨0, ""⟩,
   ⟨0, "/**"⟩,
   ⟨0, " * Destroy an instance of " ++ tn ++ " created by " ++ tn ++ "_copy()"⟩,
   ⟨0, " */"⟩,
   ⟨0, "void " ++ tn ++ "_destroy(" ++ tn ++ "* to_destroy);"⟩,
   ⟨0, ""⟩]
  ++ (if !gopt.getBool "c-no-pubsub" then
  ([⟨0, "/**"⟩,
    ⟨0, " * Identifies a single subscription.  This is an opaque data type."⟩,
    ⟨0, " */"⟩,
    ⟨0, "typedef struct _" ++ tn ++ "_subscription_t " ++ tn ++ "_subscription_t;"⟩,
    ⟨0, ""⟩,
    ⟨0, "/**"⟩,
    ⟨0, " * Prototype for a callback function invoked when a message of type"⟩,
    ⟨0, " * " ++ tn ++ " is received."⟩,
    ⟨0, " */"⟩,
    ⟨0, "typedef void(*" ++ tn ++ "_handler_t)(const zcm_recv_buf_t* rbuf,\n             const char* channel, const " ++ tn ++ "* msg, void* userdata);"⟩,
    ⟨0, ""⟩,
    ⟨0, "/**"⟩] : List Line)
  ++ ([⟨0, " * Publish a message of type " ++ tn ++ " using ZCM."⟩,
       ⟨0, " *"⟩,
       ⟨0, " * @param zcm The ZCM instance to publish with."⟩,
       ⟨0, " * @param channel The channel to publish on."⟩,
       ⟨0, " * @param msg The message to publish."⟩,
       ⟨0, " * @return 0 on success, <0 on error.  Success means ZCM has transferred"⟩,
       ⟨0, " * responsibility of the message data to the OS."⟩,
       ⟨0, " */"⟩,
       ⟨0, "int " ++ tn ++ "_publish(zcm_t* zcm, const char* channel, const " ++ tn ++ "* msg);"⟩,
       ⟨0, ""⟩,
       ⟨0, "/**"⟩,
       ⟨0, " * Subscribe to messages of type " ++ tn ++ " using ZCM."⟩] : List Line)
  ++ ([⟨0, " *"⟩,
       ⟨0, " * @param zcm The ZCM instance to subscribe with."⟩,
       ⟨0, " * @param channel The channel to subscribe to."⟩,
       ⟨0, " * @param handler The callback function invoked by ZCM when a message is received."⟩,
       ⟨0, " *                This function is invoked by ZCM during calls to zcm_handle() and"⟩,
       ⟨0, " *                zcm_handle_timeout()."⟩,
       ⟨0, " * @param userdata An opaque pointer passed to @p handler when it is invoked."⟩,
       ⟨0, " * @return pointer to subscription type, NULL if failure. Must clean up"⟩,
       ⟨0, " *         dynamic memory by passing the pointer to " ++ tn ++ "_unsubscribe."⟩,
       ⟨0, " */"⟩,
       ⟨0, tn ++ "_subscription_t* " ++ tn ++ "_subscribe(zcm_t* zcm, const char* channel, " ++ tn ++ "_handler_t handler, void* userdata);"⟩,
       ⟨0, ""⟩] : List Line)
  ++ ([⟨0, "/**"⟩,
       ⟨0, " * Removes and destroys a subscription created by " ++ tn ++ "_subscribe()"⟩,
       ⟨0, " */"⟩,
       ⟨0, "int " ++ tn ++ "_unsubscribe(zcm_t* zcm, " ++ tn ++ "_subscription_t* hid);"⟩] : List Line)
  else [])
  ++ ([⟨0, "/**"⟩,
       ⟨0, " * Encode a message of type " ++ tn ++ " into binary form."⟩,
       ⟨0, " *"⟩,
       ⟨0, " * @param buf The output buffer."⟩,
       ⟨0, " * @param offset Encoding starts at this byte offset into @p buf."⟩,
       ⟨0, " * @param maxlen Maximum number of bytes to write.  This should generally"⟩,
       ⟨0, " *               be equal to " ++ tn ++ "_encoded_size()."⟩,
       ⟨0, " * @param msg The message to encode."⟩,
       ⟨0, " * @return The number of bytes encoded, or <0 if an error occured."⟩,
       ⟨0, " */"⟩,
       ⟨0, "int " ++ tn ++ "_encode(void* buf, uint32_t offset, uint32_t maxlen, const " ++ tn ++ "* p);"⟩,
       ⟨0, ""⟩] : List Line)
  ++ ([⟨0, "/**"⟩,
       ⟨0, " * Decode a message of type " ++ tn ++ " from binary form."⟩,
       ⟨0, " * When decoding messages containing strings or variable-length arrays, this"⟩,
       ⟨0, " * function may allocate memory.  When finished with the decoded message,"⟩,
       ⟨0, " * release allocated resources with " ++ tn ++ "_decode_cleanup()."⟩,
       ⟨0, " *"⟩,
       ⟨0, " * @param buf The buffer containing the encoded message"⟩,
       ⟨0, " * @param offset The byte offset into @p buf where the encoded message starts."⟩,
       ⟨0, " * @param maxlen The maximum number of bytes to read while decoding."⟩,
       ⟨0, " * @param msg Output parameter where the decoded message is stored"⟩,
       ⟨0, " * @return The number of bytes decoded, or <0 if an error occured."⟩,
       ⟨0, " */"⟩] : List Line)
  ++ ([⟨0, "int " ++ tn ++ "_decode(const void* buf, uint32_t offset, uint32_t maxlen, " ++ tn ++ "* msg);"⟩,
       ⟨0, ""⟩,
       ⟨0, "/**"⟩,
       ⟨0, " * Release resources allocated by " ++ tn ++ "_decode()"⟩,
       ⟨0, " * @return 0"⟩,
       ⟨0, " */"⟩,
       ⟨0, "int " ++ tn ++ "_decode_cleanup(" ++ tn ++ "* p);"⟩,
       ⟨0, ""⟩,
       ⟨0, "/**"⟩,
       ⟨0, " * Check how many bytes are required to encode a message of type " ++ tn⟩,
       ⟨0, " */"⟩,
       ⟨0, "uint32_t " ++ tn ++ "_encoded_size(const " ++ tn ++ "* p);"⟩] : List Line)
  ++ (if gopt.getBool "c-typeinfo" then
  [⟨0, "uint32_t " ++ tn ++ "_struct_size(void);"⟩,
     ⟨0, "uint32_t " ++ tn ++ "_num_fields(void);"⟩,
     ⟨0, "int      " ++ tn ++ "_get_field(const " ++ tn ++ "* p, uint32_t i, zcm_field_t* f);"⟩,
     ⟨0, "const zcm_type_info_t* " ++ tn ++ "_get_type_info(void);"⟩]
  else [])
  ++ [⟨0, ""⟩,
   ⟨0, "// ZCM support functions. Users should not call these"⟩,
   ⟨0, "int64_t  __" ++ tn ++ "_get_hash(void);"⟩,
   ⟨0, "uint64_t __" ++ tn ++ "_hash_recursive(const __zcm_hash_ptr* p);"⟩,
   ⟨0, "int      __" ++ tn ++ "_encode_array(void* buf, uint32_t offset, uint32_t maxlen, const " ++ tn ++ "* p, uint32_t elements);"⟩,
   ⟨0, "int      __" ++ tn ++ "_decode_array(const void* buf, uint32_t offset, uint32_t maxlen, " ++ tn ++ "* p, uint32_t elements);"⟩,
   ⟨0, "int      __" ++ tn ++ "_decode_array_cleanup(" ++ tn ++ "* p, uint32_t elements);"⟩,
   ⟨0, "uint32_t __" ++ tn ++ "_encoded_array_size(const " ++ tn ++ "* p, uint32_t elements);"⟩,
   ⟨0, "uint32_t __" ++ tn ++ "_clone_array(const " ++ tn ++ "* p, " ++ tn ++ "* q, uint32_t elements);"⟩,
   ⟨0, ""⟩]

/-- The lines `emitStructHeader(zcm, zs, fname)` prints into the emitter it opened. -/
def emitStructHeaderLines (gopt : GetOpt) (zs : ZCMStruct) : List Line :=
  emitAutoGeneratedWarning ++ emitHeaderTop gopt zs ++ emitHeaderStruct gopt zs
  ++ emitHeaderPrototypes gopt zs ++ emitHeaderBottom

/-! ## `emitC`, `getFilepathsC`: which files are written -/

/-- What the emitter asks of and does to the world outside it (`ZCMGen::needsGeneration`,
`FileUtil::makeDirsForFile` and the constructor and `emit` of `Emitter`, none of them
among the sources). -/
structure World where
  needsGeneration : String → String → Bool
  good : String → Bool

/-- One step of `emitC` that the world outside can see. -/
inductive EmitEvent where
  | needsGeneration (zcmfile path : String)
  | makeDirsForFile (path : String)
  | openEmitter (path : String)
  | write (path : String) (lines : List Line)
deriving DecidableEq, Repr

/-- The names `hName` and `cName` that `emitC` and `getFilepathsC` compute for the struct
`zs`, by the same statements. -/
def artifactNames (gopt : GetOpt) (zs : ZCMStruct) : String × String :=
  -- string package = dotsToSlashes(zs.structname.package);
  -- if (package != "") package = "/" + package;
  let package :=
    if dotsToSlashes zs.structname.package ≠ "" then "/" ++ dotsToSlashes zs.structname.package
    else dotsToSlashes zs.structname.package
  -- string hpath = zcm.gopt->getString("c-hpath") + package;
  let hpath := gopt.getString "c-hpath" ++ package
  -- string cpath = zcm.gopt->getString("c-cpath") + package;
  let _cpath := gopt.getString "c-cpath" ++ package
  -- string hName = hpath + "/" + zs.structname.nameUnderscore() + ".h";
  -- string cName = hpath + "/" + zs.structname.nameUnderscore() + ".c";
  (hpath ++ "/" ++ zs.structname.nameUnderscore ++ ".h",
   hpath ++ "/" ++ zs.structname.nameUnderscore ++ ".c")

/-- The function `emitStructHeader(zcm, zs, fname)`: its result and what it did. -/
def emitStructHeader (gopt : GetOpt) (w : World) (zs : ZCMStruct) (fname : String) :
    Int × List EmitEvent :=
  -- EmitHeader E{zcm, zs, fname}; if (!E.good()) return -1;
  if !w.good fname then (-1, [EmitEvent.openEmitter fname])
  else (0, [EmitEvent.openEmitter fname, EmitEvent.write fname (emitStructHeaderLines gopt zs)])

/-- The function `emitStructSource(zcm, zs, fname)`: its result and what it did. -/
def emitStructSource (gopt : GetOpt) (w : World) (zs : ZCMStruct) (fname : String) :
    Int × List EmitEvent :=
  -- EmitSource E{zcm, zs, fname}; if (!E.good()) return -1;
  if !w.good fname then (-1, [EmitEvent.openEmitter fname])
  else (0, [EmitEvent.openEmitter fname, EmitEvent.write fname (emitStructSourceLines gopt zs)])

/-- The loop `for (auto& zs : zcm.structs)` of `emitC` over the structs still to do, and
the `return 0;` after it. -/
def emitCLoop (gopt : GetOpt) (w : World) : List ZCMStruct → Int × List EmitEvent
  | [] => (0, [])
  | zs :: rest =>
    let hName := (artifactNames gopt zs).1
    let cName := (artifactNames gopt zs).2
    -- if (zcm.needsGeneration(zs.zcmfile, hName)) { makeDirsForFile(hName);
    --     if (int ret = emitStructHeader(zcm, zs, hName)) return ret; }
    let h : Int × List EmitEvent :=
      if w.needsGeneration zs.zcmfile hName then
        ((emitStructHeader gopt w zs hName).1,
         [EmitEvent.needsGeneration zs.zcmfile hName, EmitEvent.makeDirsForFile hName]
          ++ (emitStructHeader gopt w zs hName).2)
      else (0, [EmitEvent.needsGeneration zs.zcmfile hName])
    if h.1 ≠ 0 then h
    else
      -- if (zcm.needsGeneration(zs.zcmfile, cName)) { makeDirsForFile(cName);
      --     if (int ret = emitStructSource(zcm, zs, cName)) return ret; }
      let c : Int × List EmitEvent :=
        if w.needsGeneration zs.zcmfile cName then
          ((emitStructSource gopt w zs cName).1,
           [EmitEvent.needsGeneration zs.zcmfile cName, EmitEvent.makeDirsForFile cName]
            ++ (emitStructSource gopt w zs cName).2)
        else (0, [EmitEvent.needsGeneration zs.zcmfile cName])
      if c.1 ≠ 0 then (c.1, h.2 ++ c.2)
      else ((emitCLoop gopt w rest).1, h.2 ++ c.2 ++ (emitCLoop gopt w rest).2)

/-- The function `emitC(zcm)`: its result and what it did, in order. -/
def emitC (gopt : GetOpt) (w : World) (zcm : ZCMGen) : Int × List EmitEvent :=
  emitCLoop gopt w zcm.structs

/-- The function `getFilepathsC(zcm)`. -/
def getFilepathsC (gopt : GetOpt) (zcm : ZCMGen) : List String :=
  zcm.structs.flatMap (fun zs => [(artifactNames gopt zs).1, (artifactNames gopt zs).2])

/-- The output artifacts of a schema in the order `emitC` treats them: for every struct,
in schema order, the header and then the source, each with the schema file it comes
from. -/
def artifacts (gopt : GetOpt) (zcm : ZCMGen) : List (String × String) :=
  zcm.structs.flatMap (fun zs =>
    [(zs.zcmfile, (artifactNames gopt zs).1), (zs.zcmfile, (artifactNames gopt zs).2)])

/-- What the regeneration gate allows for one output artifact: the question, and only on
the answer yes the directory, the emitter and, if it opened, the lines; the result is
`-1` when the emitter did not open. -/
def gatedArtifact (w : World) (zcmfile path : String) (lines : List Line) :
    Int × List EmitEvent :=
  if w.needsGeneration zcmfile path then
    if w.good path then
      (0, [EmitEvent.needsGeneration zcmfile path, EmitEvent.makeDirsForFile path,
        EmitEvent.openEmitter path, EmitEvent.write path lines])
    else
      (-1, [EmitEvent.needsGeneration zcmfile path, EmitEvent.makeDirsForFile path,
        EmitEvent.openEmitter path])
  else (0, [EmitEvent.needsGeneration zcmfile path])

/-- The artifacts of a list, gated one after the other, stopping at the first whose
emitter does not open. -/
def runArtifacts (w : World) : List (String × String × List Line) → Int × List EmitEvent
  | [] => (0, [])
  | a :: rest =>
    if (gatedArtifact w a.1 a.2.1 a.2.2).1 ≠ 0 then gatedArtifact w a.1 a.2.1 a.2.2
    else
      ((runArtifacts w rest).1,
       (gatedArtifact w a.1 a.2.1 a.2.2).2 ++ (runArtifacts w rest).2)

/-- The output artifacts of a list of structs with the lines of each: header, then
source, in the order of the list. -/
def artifactsWithLines (gopt : GetOpt) (l : List ZCMStruct) : List (String × String × List Line) :=
  l.flatMap (fun zs =>
    [(zs.zcmfile, (artifactNames gopt zs).1, emitStructHeaderLines gopt zs),
     (zs.zcmfile, (artifactNames gopt zs).2, emitStructSourceLines gopt zs)])

/-- The question an event asks of `needsGeneration`, if it is one. -/
def EmitEvent.query : EmitEvent → Option (String × String)
  | EmitEvent.needsGeneration z p => some (z, p)
  | _ => none

/-- The path an event does emission work on (a directory made, an emitter opened, lines
written), if it does any. -/
def EmitEvent.work : EmitEvent → Option String
  | EmitEvent.needsGeneration _ _ => none
  | EmitEvent.makeDirsForFile p => some p
  | EmitEvent.openEmitter p => some p
  | EmitEvent.write p _ => some p

/-- Options for the examples: the given `c-hpath` and `c-cpath`, every other string
option empty, every flag off. -/
def pathOpts (hpath cpath : String) : GetOpt where
  getString := fun name => if name = "c-hpath" then hpath else if name = "c-cpath" then cpath else ""
  getBool := fun _ => false

/-- The member `int8_t data[n]` of `blob_t`. -/
def blobData : ZCMMember := array "int8_t" "data" [⟨ZCMDimensionMode.ZCM_VAR, "n"⟩]

/-- The member `int8_t cells[3][n]`: a `ZCM_CONST` axis before a `ZCM_VAR` axis. -/
def gridCells : ZCMMember :=
  array "int8_t" "cells" [⟨ZCMDimensionMode.ZCM_CONST, "3"⟩, ⟨ZCMDimensionMode.ZCM_VAR, "n"⟩]

/-- Struct `grid_t { int32_t n; int8_t cells[3][n]; }`. -/
def gridT : ZCMStruct :=
  ⟨tname "grid_t", [scalar "int32_t" "n", gridCells], [], 19, "", "t.zcm"⟩

/-! ## Loop variables and accessors, said directly -/

/-- The index brackets of the loop variables of the depths `0, ..., k-1`, in this order:
`[a][b]...`. -/
def brackets : Nat → String
  | 0 => ""
  | k + 1 => brackets k ++ "[" ++ loopVar k ++ "]"

/-- The identifiers in scope in the generated array functions besides the loop
variables: the parameters `p` and `q`, the counter `n` of the clone and `element`. -/
def scopeNames : List String := ["p", "q", "n", "element"]

/-- A member with 17 axes, `int8_t cells[2][2]...[2]`. -/
def deepCells : ZCMMember :=
  array "int8_t" "cells" (List.replicate 17 ⟨ZCMDimensionMode.ZCM_CONST, "2"⟩)

/-! ## `emitCStructPublish`, `emitCStructSubscribe`: the generated functions -/

/-- What the generated `S_publish` did, in order. -/
inductive PublishEvent where
  | malloc (size : Nat)
  | encode (maxlen : Nat)
  | zcm_publish (len : Nat)
  | free
deriving DecidableEq, Repr

/-- The function `S_publish(zcm, channel, p)` that `emitCStructPublish` prints, in the
program generated with the option `little`. `malloc` is the allocator (`none` is a null
result, otherwise the fresh memory), `zcm_publish` the transport: the C result, what was
done, and the fingerprint statics after the call. -/
def publish {L : Type} (env : CoreTypes L) (zcm : ZCMGen) (little : Bool) (fuel : Nat)
    (tn : String)
    (st : HashState) (malloc : Nat → Option Buf) (zcm_publish : Buf → Nat → Int) (p : Val L) :
    Option (Int × List PublishEvent × HashState) :=
  -- uint32_t max_data_size = S_encoded_size (p);
  match encoded_size env zcm fuel tn p with
  | none => none
  | some max_data_size =>
    -- uint8_t* buf = (uint8_t*) malloc (max_data_size);
    match malloc max_data_size with
    -- if (!buf) return -1;
    | none => some (-1, [PublishEvent.malloc max_data_size], st)
    | some buf =>
      -- int data_size = S_encode (buf, 0, max_data_size, p);
      match encode env zcm little fuel tn st buf 0 max_data_size p with
      | none => none
      | some (out, st1) =>
        if out.ret < 0 then
          -- free (buf); return data_size;
          some (out.ret, [PublishEvent.malloc max_data_size,
            PublishEvent.encode max_data_size, PublishEvent.free], st1)
        else
          -- int status = zcm_publish (zcm, channel, buf, (uint32_t)data_size);
          -- free (buf); return status;
          some (zcm_publish out.buf (toU32 out.ret), [PublishEvent.malloc max_data_size,
            PublishEvent.encode max_data_size, PublishEvent.zcm_publish (toU32 out.ret),
            PublishEvent.free], st1)

/-- What the generated handler stub did, in order: the call of `S_decode` with its result
and the element counts of the allocations it made, the call of the user handler, the call
of `S_decode_cleanup`. -/
inductive StubEvent where
  | decode (status : Int) (mallocs : List Int)
  | user_handler
  | decode_cleanup
deriving DecidableEq, Repr

/-- The function `S_handler_stub(rbuf, channel, userdata)` that `emitCStructSubscribe`
prints, in the program generated with the option `little`, run on the received bytes
`data` of length `data_size`; `zero` is the record `p` after
`memset(&p, 0, sizeof(S))`. -/
def handler_stub {L : Type} (env : CoreTypes L) (zcm : ZCMGen) (little : Bool) (fuel : Nat)
    (tn : String)
    (st : HashState) (zero : Val L) (data : Buf) (data_size : Nat) :
    Option (List StubEvent × HashState) :=
  -- status = S_decode (rbuf->data, 0, rbuf->data_size, &p);
  match decode env zcm little fuel tn st data 0 data_size zero with
  | none => none
  | some (out, st1) =>
    if out.ret < 0 then
      -- fprintf (stderr, "error %d decoding S!!!\n", status); return;
      some ([StubEvent.decode out.ret out.mallocs], st1)
    else
      -- h->user_handler (rbuf, channel, &p, h->userdata);
      -- S_decode_cleanup (&p);
      some ([StubEvent.decode out.ret out.mallocs, StubEvent.user_handler,
        StubEvent.decode_cleanup], st1)

/-- A zero-initialised `blob_t` (`memset(&p, 0, sizeof(blob_t))`): `n = 0`, a null
`data`. -/
def blobZero : Val Int := Val.record [Val.prims [0], Val.prims []]

/-! ## `emitCDecodeArrayCleanup`, `emitCDecodeCleanup`: the generated cleanup -/

/-- C storage as the cleanup sees it: a null handle; a run of primitives or a run of
handles, arrays or records (inline in the record, or behind a handle that is not null);
a record with the storage of each member in declaration order. -/
inductive Mem (L : Type) where
  | null
  | prims (xs : List L)
  | arr (xs : List (Mem L))
  | record (fs : List (Mem L))

/-- What the cleanup did that can be seen from outside: a `free(accessor)` that was run
(its null guard passed), for a member and a depth, and a call of a cleanup of
`zcm_coretypes.h`. -/
inductive CleanupEvent where
  | free (member : String) (depth : Nat)
  | leaf (type : String) (elements : Nat)
deriving DecidableEq, Repr

/-- The outcome of a piece of cleanup code: whether it indexed through a null handle (or
past its storage) and stopped there, and what it did until then. -/
structure CleanupOut where
  fault : Bool
  events : List CleanupEvent
deriving DecidableEq, Repr

/-- Two pieces of code one after the other: the second runs unless the first faulted. -/
def thenDo (a b : Option CleanupOut) : Option CleanupOut :=
  match a with
  | none => none
  | some x =>
    if x.fault then some x
    else
      match b with
      | none => none
      | some y => some ⟨y.fault, x.events ++ y.events⟩

/-- A counting loop `for (i = start; i < start + count; ++i) body`. -/
def forCount (body : Nat → Option CleanupOut) : Nat → Nat → Option CleanupOut
  | _, 0 => some ⟨false, []⟩
  | i, k + 1 => thenDo (body i) (forCount body (i + 1) k)

/-- The member blocks of a record, in declaration order. -/
def membersDo (block : ZCMMember → Option CleanupOut) : List ZCMMember → Option CleanupOut
  | [] => some ⟨false, []⟩
  | zm :: rest => thenDo (block zm) (membersDo block rest)

/-- The value of `accessor[a]`, where `acc` is the value of the accessor if evaluating it
did not fault: indexing through a null handle, or past the storage, faults (`none`). -/
def Mem.index {L : Type} (acc : Option (Mem L)) (a : Nat) : Option (Mem L) :=
  match acc with
  | some (Mem.arr xs) => xs.get? a
  | _ => none

/-- The integer member `name` of the record `r` of struct `zs`, read as a number. -/
def memReadInt {L : Type} (env : CoreTypes L) (zs : ZCMStruct) (r : List (Mem L))
    (name : String) : Option Int :=
  match fieldIndex zs.members name with
  | none => none
  | some i =>
    match r.get? i with
    | some (Mem.prims [x]) => some (env.asInt x)
    | _ => none

/-- The value of the expression `makeArraySize(zm, "p", dim)` on the record `r` in `Mem`
storage (as `makeArraySize` above on `Val` storage). -/
def memArraySize {L : Type} (env : CoreTypes L) (zs : ZCMStruct) (zm : ZCMMember)
    (r : List (Mem L)) (dim : Nat) : Option Int :=
  if zm.dimensions.length = 0 then some 1
  else
    match zm.dimensions.get? dim with
    | none => none
    | some zd =>
      match zd.mode with
      | ZCMDimensionMode.ZCM_CONST => some (env.constSize zd.size)
      | ZCMDimensionMode.ZCM_VAR => memReadInt env zs r zd.size

/-- The statement `if (accessor) free(accessor);` of `emitCArrayLoopsEnd`, present under
`FLAG_EMIT_FREES`: evaluating the accessor may fault; a null handle is skipped. -/
def freeGuard {L : Type} (frees : Bool) (member : String) (d : Nat) (acc : Option (Mem L)) :
    Option CleanupOut :=
  if frees then
    match acc with
    | none => some ⟨true, []⟩
    | some Mem.null => some ⟨false, []⟩
    | some _ => some ⟨false, [CleanupEvent.free member d]⟩
  else some ⟨false, []⟩

/-- The loops printed by `emitCArrayLoopsStart(zm, "p", FLAG_NONE)` ...
`emitCArrayLoopsEnd(zm, "p", flags)` around the leaf statement of the cleanup, run with
`acc` the value of the accessor of depth `d`: the content of the depth (the leaf, or the
loop over `accessor[a]`), then the guarded release of the depth. `k` is the number of
loops still to open. As in `arrayLoops`, the accessor indexes by the names of the loop
variables, and a block with a variable that is not usable (the `int p;` of depth 15) does
not compile and has no behaviour (`none`). -/
def cleanupLoops {L : Type} (size : Nat → Option Int) (frees : Bool) (member : String)
    (leaf : Option (Mem L) → Option CleanupOut) :
    Nat → Nat → Option (Mem L) → Option CleanupOut
  | 0, d, acc => thenDo (leaf acc) (freeGuard frees member d acc)
  | k + 1, d, acc =>
    if loopsCompile (k + 1) d then
      match size d with
      | none => none
      | some e =>
        thenDo
          (forCount (fun a => cleanupLoops size frees member leaf k (d + 1) (Mem.index acc a))
            0 e.toNat)
          (freeGuard frees member d acc)
    else none

/-- The leaf statement `__T_decode_array_cleanup(accessor, size);` of the member `zm`:
the arguments are evaluated, then the callee runs. -/
def cleanupLeaf {L : Type} (env : CoreTypes L)
    (callee : String → Mem L → Nat → Option CleanupOut)
    (zs : ZCMStruct) (r : List (Mem L)) (zm : ZCMMember) (acc : Option (Mem L)) :
    Option CleanupOut :=
  match memArraySize env zs zm r (zm.dimensions.length - 1) with
  | none => none
  | some e =>
    match acc with
    | none => some ⟨true, []⟩
    | some sv => callee zm.type.nameUnderscore sv (toU32 e)

/-- The block `emitCDecodeArrayCleanup` prints for the member `zm`, run on the record `r`
(`p[element]`). -/
def cleanupMember {L : Type} (env : CoreTypes L)
    (callee : String → Mem L → Nat → Option CleanupOut)
    (zs : ZCMStruct) (r : List (Mem L)) (zm : ZCMMember) : Option CleanupOut :=
  match fieldIndex zs.members zm.membername with
  | none => none
  | some i =>
    cleanupLoops (memArraySize env zs zm r) (!zm.isConstantSizeArray) zm.membername
      (cleanupLeaf env callee zs r zm) (zm.dimensions.length - 1) 0 (r.get? i)

/-- The function `__S_decode_array_cleanup(p, elements)` that `emitCDecodeArrayCleanup`
prints for the struct `zs`. When it does not fault it returns 0. -/
def cleanupStructArray {L : Type} (env : CoreTypes L)
    (callee : String → Mem L → Nat → Option CleanupOut)
    (zs : ZCMStruct) (p : Mem L) (elements : Nat) : Option CleanupOut :=
  forCount (fun element =>
    match Mem.index (some p) element with
    | some (Mem.record r) => membersDo (cleanupMember env callee zs r) zs.members
    | _ => some ⟨true, []⟩) 0 elements

/-- The C symbol `__T_decode_array_cleanup` with `T = tn`, linked: the generated function
of the struct named `tn`, or the one of `zcm_coretypes.h`, which is recorded as a
call. -/
def cleanup_array {L : Type} (env : CoreTypes L) (zcm : ZCMGen) :
    Nat → String → Mem L → Nat → Option CleanupOut
  | 0, tn, _, elements =>
    match zcm.findStruct tn with
    | none => some ⟨false, [CleanupEvent.leaf tn elements]⟩
    | some _ => none
  | fuel + 1, tn, p, elements =>
    match zcm.findStruct tn with
    | none => some ⟨false, [CleanupEvent.leaf tn elements]⟩
    | some zs => cleanupStructArray env (cleanup_array env zcm fuel) zs p elements

/-- The function `S_decode_cleanup(p)` that `emitCDecodeCleanup` prints:
`return __S_decode_array_cleanup(p, 1);`. -/
def decode_cleanup {L : Type} (env : CoreTypes L) (zcm : ZCMGen) (fuel : Nat) (tn : String)
    (p : Mem L) : Option CleanupOut :=
  cleanup_array env zcm fuel tn (Mem.arr [p]) 1

/-- The C result of the cleanup: `return 0;` is the only return statement, reached when
nothing faulted. -/
def CleanupOut.ret (o : CleanupOut) : Option Int :=
  if o.fault then none else some 0

/-! ### The all-zero value -/

/-- The innermost run of `c` zeroed elements of type `tn`: zero primitives, or `c` zeroed
records of the struct (`below tn`, when it exists). -/
def zeroElems {L : Type} (env : CoreTypes L) (zcm : ZCMGen) (below : String → Option (Mem L))
    (tn : String) (c : Nat) : Option (Mem L) :=
  match zcm.findStruct tn with
  | none => some (Mem.prims (List.replicate c (env.ofInt 0)))
  | some _ =>
    match below tn with
    | none => none
    | some r => some (Mem.arr (List.replicate c r))

/-- The zeroed inline storage of a constant-shaped member from axis `d` on, `k` axes
above the last: an array of the extent of each axis (no C array has a negative
extent). -/
def zeroLoops {L : Type} (size : Nat → Option Int) (leafRun : Nat → Option (Mem L)) :
    Nat → Nat → Option (Mem L)
  | 0, d =>
    match size d with
    | none => none
    | some e => if e < 0 then none else leafRun e.toNat
  | k + 1, d =>
    match size d with
    | none => none
    | some e =>
      if e < 0 then none
      else
        match zeroLoops size leafRun k (d + 1) with
        | none => none
        | some m => some (Mem.arr (List.replicate e.toNat m))

/-- The storage of the member `zm` in a zeroed record: a constant-shaped member is
embedded inline, a variable-shaped member is a handle, which zeroed is null. -/
def zeroMember {L : Type} (env : CoreTypes L) (zcm : ZCMGen) (below : String → Option (Mem L))
    (zs : ZCMStruct) (zm : ZCMMember) : Option (Mem L) :=
  if zm.isConstantSizeArray then
    zeroLoops (memArraySize env zs zm []) (zeroElems env zcm below zm.type.nameUnderscore)
      (zm.dimensions.length - 1) 0
  else some Mem.null

/-- The storage of each member, in declaration order. -/
def zeroFields {L : Type} (f : ZCMMember → Option (Mem L)) : List ZCMMember → Option (List (Mem L))
  | [] => some []
  | zm :: rest =>
    match f zm with
    | none => none
    | some m =>
      match zeroFields f rest with
      | none => none
      | some ms => some (m :: ms)

/-- The record of the struct named `tn` after `memset(&p, 0, sizeof(S))`, when the C type
exists (`none` otherwise, also when `fuel` does not cover the nesting of inline
structs). -/
def zeroMem {L : Type} (env : CoreTypes L) (zcm : ZCMGen) : Nat → String → Option (Mem L)
  | 0, _ => none
  | fuel + 1, tn =>
    match zcm.findStruct tn with
    | none => none
    | some zs =>
      match zeroFields (zeroMember env zcm (zeroMem env zcm fuel) zs) zs.members with
      | none => none
      | some fs => some (Mem.record fs)

/-- The member `zm` of `zs` is constant-shaped, or its leading axis is `ZCM_VAR`, sized by
a scalar member of primitive type. -/
def leadingVar (zcm : ZCMGen) (zs : ZCMStruct) (zm : ZCMMember) : Bool :=
  zm.isConstantSizeArray ||
    match zm.dimensions.head? with
    | none => false
    | some zd =>
      decide (zd.mode = ZCMDimensionMode.ZCM_VAR) &&
        match fieldIndex zs.members zd.size with
        | none => false
        | some i =>
          match zs.members.get? i with
          | none => false
          | some sm =>
            sm.dimensions.isEmpty && (zcm.findStruct sm.type.nameUnderscore).isNone

/-- No two members of a struct share a name, and every variable-shaped member of every
struct of the schema has a `ZCM_VAR` leading axis. -/
def ZCMGen.leadingVar (zcm : ZCMGen) : Bool :=
  zcm.structs.all (fun zs =>
    decide (zs.members.map (fun zm => zm.membername)).Nodup &&
      zs.members.all (fun zm => ZCM.leadingVar zcm zs zm))

/-- The cleanup ran to its end without a fault and without a `free`: all it did was call
cleanups of `zcm_coretypes.h`. -/
def Quiet (o : Option CleanupOut) : Prop :=
  ∃ evs, o = some ⟨false, evs⟩ ∧ ∀ e, e ∈ evs → ∃ t n, e = CleanupEvent.leaf t n

/-- The schema of `grid_t`. -/
def gridSchema : ZCMGen := ⟨[gridT]⟩

/-- Struct `table_t { int32_t n; blob_t rows[n]; point_t origin; int8_t tag[2][3]; }`. -/
def tableT : ZCMStruct :=
  ⟨tname "table_t",
   [scalar "int32_t" "n", array "blob_t" "rows" [⟨ZCMDimensionMode.ZCM_VAR, "n"⟩],
    scalar "point_t" "origin",
    array "int8_t" "tag" [⟨ZCMDimensionMode.ZCM_CONST, "2"⟩, ⟨ZCMDimensionMode.ZCM_CONST, "3"⟩]],
   [], 23, "", "t.zcm"⟩

/-- The schema of `table_t`. -/
def tableSchema : ZCMGen := ⟨[pointT, blobT, tableT]⟩

/-- A zeroed `grid_t`: `n = 0` and a null `cells`. -/
def gridZero : Mem Int := Mem.record [Mem.prims [0], Mem.null]

/-- A zeroed `table_t`: `n = 0`, a null `rows`, the inline `origin` with two zero
coordinates, the inline `tag` of two rows of three zeros. -/
def tableZero : Mem Int :=
  Mem.record [Mem.prims [0], Mem.null, Mem.arr [Mem.record [Mem.prims [0], Mem.prims [0]]],
    Mem.arr [Mem.prims [0, 0, 0], Mem.prims [0, 0, 0]]]

/-- Zeroed storage of `k` nested inline arrays of one element around a run of one
zero. -/
def thinMem : Nat → Mem Int
  | 0 => Mem.prims [0]
  | k + 1 => Mem.arr [thinMem k]

/-- A zeroed `deep_t`: the inline `cells`. -/
def deepZero : Mem Int := Mem.record [thinMem 16]

/-! # Theorems -/

/-! ## Fingerprint: helper lemmas -/

theorem hashMix_rotl1_aux (hash : Nat) (h : hash < 2 ^ 64) : hashMix hash = rotl1 hash := by
  unfold hashMix rotl1
  have hb : hash >>> 63 < 2 := by
    rw [Nat.shiftRight_eq_div_pow]
    exact Nat.div_lt_of_lt_mul (by norm_num at h ⊢; omega)
  have hsh : (hash <<< 1) % 2 ^ 64 = 2 ^ 1 * (hash % 2 ^ 63) := by
    rw [Nat.shiftLeft_eq]; omega
  have hand : (hash >>> 63) &&& 1 = hash >>> 63 := by
    rw [Nat.and_one_is_mod]; omega
  rw [hand, hsh, ← Nat.mul_add_lt_is_or (by omega)]
  apply Nat.mod_eq_of_lt
  have : hash % 2 ^ 63 < 2 ^ 63 := Nat.mod_lt _ (by norm_num)
  omega

theorem hashMix_lt (hash : Nat) : hashMix hash < 2 ^ 64 := by
  unfold hashMix
  exact Nat.mod_lt _ (by norm_num)

theorem toU64_toInt64 (n : Nat) (h : n < 2 ^ 64) : toU64 (toInt64 n) = n := by
  unfold toU64 toInt64
  rw [Nat.mod_eq_of_lt h]
  split <;> omega

theorem findStruct_some {zcm : ZCMGen} {tn : String} {zs : ZCMStruct}
    (h : zcm.findStruct tn = some zs) :
    zs ∈ zcm.structs ∧ zs.structname.nameUnderscore = tn := by
  unfold ZCMGen.findStruct at h
  refine ⟨List.mem_of_find?_eq_some h, ?_⟩
  have := List.find?_some h
  simpa using this

theorem freeCount_le (zcm : ZCMGen) (p : List String) : freeCount zcm p ≤ zcm.structs.length := by
  unfold freeCount
  calc _ ≤ ((zcm.structs.map (fun zs => zs.structname.nameUnderscore)).toFinset).card :=
        Finset.card_le_card Finset.sdiff_subset
    _ ≤ (zcm.structs.map (fun zs => zs.structname.nameUnderscore)).length := List.toFinset_card_le _
    _ = zcm.structs.length := by simp

theorem freeCount_cons_lt {zcm : ZCMGen} {tn : String} {zs : ZCMStruct} {p : List String}
    (h : zcm.findStruct tn = some zs) (hp : tn ∉ p) :
    freeCount zcm (tn :: p) < freeCount zcm p := by
  unfold freeCount
  obtain ⟨hmem, hname⟩ := findStruct_some h
  apply Finset.card_lt_card
  rw [Finset.ssubset_iff_of_subset]
  · refine ⟨tn, ?_, ?_⟩
    · simp only [Finset.mem_sdiff, List.mem_toFinset, List.mem_map]
      exact ⟨⟨zs, hmem, hname⟩, hp⟩
    · simp
  · intro x hx
    simp only [Finset.mem_sdiff, List.mem_toFinset, List.mem_map, List.mem_cons, not_or] at hx ⊢
    exact ⟨hx.1, hx.2.2⟩

theorem hashSum_some (call : String → List String → Option Nat) (cp : List String) :
    ∀ (ms : List ZCMMember) (acc : Nat) (log : List (String × List String)),
      (∀ zm, zm ∈ ms → ∃ v, call zm.type.nameUnderscore cp = some v) →
      ∃ r, hashSum call cp ms acc log = some r ∧
        r.calls = log ++ ms.map (fun zm => (zm.type.nameUnderscore, cp)) ∧
        ∃ hs, List.Forall₂ (fun zm h => call zm.type.nameUnderscore cp = some h) ms hs ∧
          r.value = wrapSum hs acc := by
  intro ms
  induction ms with
  | nil => intro acc log _; exact ⟨⟨acc, log⟩, rfl, by simp, [], List.Forall₂.nil, rfl⟩
  | cons zm rest ih =>
    intro acc log hall
    obtain ⟨v, hv⟩ := hall zm (List.mem_cons_self _ _)
    obtain ⟨r, hr, hcalls, hs, hfa, hval⟩ :=
      ih ((acc + v) % 2 ^ 64) (log ++ [(zm.type.nameUnderscore, cp)])
        (fun zm1 h1 => hall zm1 (List.mem_cons_of_mem _ h1))
    refine ⟨r, ?_, ?_, v :: hs, List.Forall₂.cons hv hfa, ?_⟩
    · simp only [hashSum, hv]; exact hr
    · rw [hcalls]; simp
    · rw [hval]; rfl

theorem hashSum_inv (call : String → List String → Option Nat) (cp : List String) :
    ∀ (ms : List ZCMMember) (acc : Nat) (log : List (String × List String)) (r : HashRun),
      hashSum call cp ms acc log = some r →
      r.calls = log ++ ms.map (fun zm => (zm.type.nameUnderscore, cp)) ∧
        ∃ hs, List.Forall₂ (fun zm h => call zm.type.nameUnderscore cp = some h) ms hs ∧
          r.value = wrapSum hs acc := by
  intro ms
  induction ms with
  | nil =>
    intro acc log r h
    simp only [hashSum, Option.some.injEq] at h
    subst h
    exact ⟨by simp, [], List.Forall₂.nil, rfl⟩
  | cons zm rest ih =>
    intro acc log r h
    simp only [hashSum] at h
    cases hv : call zm.type.nameUnderscore cp with
    | none => rw [hv] at h; simp at h
    | some v =>
      rw [hv] at h
      obtain ⟨hcalls, hs, hfa, hval⟩ := ih _ _ _ h
      refine ⟨?_, v :: hs, List.Forall₂.cons hv hfa, ?_⟩
      · rw [hcalls]; simp
      · rw [hval]; rfl

theorem wrapSum_lt : ∀ (hs : List Nat) (acc : Nat), acc < 2 ^ 64 → wrapSum hs acc < 2 ^ 64 := by
  intro hs
  induction hs with
  | nil => intro acc h; exact h
  | cons h rest ih => intro acc _; exact ih _ (Nat.mod_lt _ (by norm_num))

theorem hashSum_mono (c1 c2 : String → List String → Option Nat) (cp : List String) :
    ∀ (ms : List ZCMMember) (acc : Nat) (log : List (String × List String)) (r : HashRun),
      (∀ zm, zm ∈ ms → ∀ v, c1 zm.type.nameUnderscore cp = some v →
        c2 zm.type.nameUnderscore cp = some v) →
      hashSum c1 cp ms acc log = some r → hashSum c2 cp ms acc log = some r := by
  intro ms
  induction ms with
  | nil => intro acc log r _ h; exact h
  | cons zm rest ih =>
    intro acc log r hall h
    simp only [hashSum] at h ⊢
    cases h1 : c1 zm.type.nameUnderscore cp with
    | none => simp [h1] at h
    | some v =>
      rw [hall zm (List.mem_cons_self _ _) v h1]
      simp only [h1] at h
      exact ih _ _ _ (fun zm1 hm v1 hv1 => hall zm1 (List.mem_cons_of_mem _ hm) v1 hv1) h

theorem hash_recursive_run_eq (zcm : ZCMGen) (fuel : Nat) (tn : String) (p : List String) :
    hash_recursive_run zcm fuel tn p =
      match zcm.findStruct tn with
      | none => some ⟨primHashRecursive tn p, []⟩
      | some zs =>
        if tn ∈ p then some ⟨0, []⟩
        else
          match fuel with
          | 0 => none
          | fuel + 1 =>
            match hashSum (fun t c => (hash_recursive_run zcm fuel t c).map HashRun.value) (tn :: p)
                zs.members (zs.hash % 2 ^ 64) [] with
            | none => none
            | some run => some ⟨hashMix run.value, run.calls⟩ := by
  rw [hash_recursive_run]

/-- With as much fuel as there are struct names off the chain, the call returns. -/
theorem hash_recursive_run_some (zcm : ZCMGen) :
    ∀ (fuel : Nat) (tn : String) (p : List String), freeCount zcm p ≤ fuel →
      ∃ r, hash_recursive_run zcm fuel tn p = some r := by
  intro fuel
  induction fuel with
  | zero =>
    intro tn p hfree
    rw [hash_recursive_run_eq]
    cases hfind : zcm.findStruct tn with
    | none => exact ⟨_, rfl⟩
    | some zs =>
      by_cases hp : tn ∈ p
      · simp [hp]
      · have := freeCount_cons_lt hfind hp
        omega
  | succ fuel ih =>
    intro tn p hfree
    rw [hash_recursive_run_eq]
    cases hfind : zcm.findStruct tn with
    | none => exact ⟨_, rfl⟩
    | some zs =>
      by_cases hp : tn ∈ p
      · simp [hp]
      · have hlt := freeCount_cons_lt hfind hp
        obtain ⟨r, hr, _⟩ := hashSum_some
          (fun t c => (hash_recursive_run zcm fuel t c).map HashRun.value) (tn :: p)
          zs.members (zs.hash % 2 ^ 64) []
          (fun zm _ => by
            obtain ⟨r, hr⟩ := ih zm.type.nameUnderscore (tn :: p) (by omega)
            exact ⟨r.value, by simp [hr]⟩)
        simp only [hp, if_false, hr]
        exact ⟨_, rfl⟩

/-- More fuel does not change a result. -/
theorem hash_recursive_run_mono (zcm : ZCMGen) :
    ∀ (fuel : Nat) (tn : String) (p : List String) (r : HashRun),
      hash_recursive_run zcm fuel tn p = some r →
      hash_recursive_run zcm (fuel + 1) tn p = some r := by
  intro fuel
  induction fuel with
  | zero =>
    intro tn p r h
    rw [hash_recursive_run_eq] at h ⊢
    cases hfind : zcm.findStruct tn with
    | none => simpa [hfind] using h
    | some zs =>
      by_cases hp : tn ∈ p
      · simpa [hfind, hp] using h
      · simp [hfind, hp] at h
  | succ fuel ih =>
    intro tn p r h
    rw [hash_recursive_run_eq] at h ⊢
    cases hfind : zcm.findStruct tn with
    | none => simpa [hfind] using h
    | some zs =>
      by_cases hp : tn ∈ p
      · simpa [hfind, hp] using h
      · simp only [hfind, hp, if_false] at h ⊢
        cases hs : hashSum (fun t c => (hash_recursive_run zcm fuel t c).map HashRun.value)
            (tn :: p) zs.members (zs.hash % 2 ^ 64) [] with
        | none => rw [hs] at h; simp at h
        | some run =>
          rw [hs] at h
          rw [hashSum_mono _ (fun t c => (hash_recursive_run zcm (fuel + 1) t c).map HashRun.value)
            (tn :: p) zs.members _ _ run ?_ hs]
          · exact h
          · intro zm _ v hv
            simp only [Option.map_eq_some'] at hv ⊢
            obtain ⟨r1, hr1, hv1⟩ := hv
            exact ⟨r1, ih _ _ _ hr1, hv1⟩

theorem hash_recursive_run_add (zcm : ZCMGen) (fuel : Nat) (tn : String) (p : List String)
    (r : HashRun) (h : hash_recursive_run zcm fuel tn p = some r) :
    ∀ k, hash_recursive_run zcm (fuel + k) tn p = some r := by
  intro k
  induction k with
  | zero => exact h
  | succ k ih => exact hash_recursive_run_mono zcm _ _ _ _ ih

/-- From `zcm.structs.length` on, the fuel does not matter. -/
theorem hash_recursive_run_total (zcm : ZCMGen) (tn : String) (p : List String) :
    ∃ r, ∀ k, hash_recursive_run zcm (zcm.structs.length + k) tn p = some r := by
  obtain ⟨r, hr⟩ := hash_recursive_run_some zcm zcm.structs.length tn p (freeCount_le zcm p)
  exact ⟨r, hash_recursive_run_add zcm _ _ _ _ hr⟩

theorem hash_recursive_run_inv {zcm : ZCMGen} {fuel : Nat} {tn : String} {p : List String}
    {zs : ZCMStruct} {r : HashRun} (hfind : zcm.findStruct tn = some zs) (hp : tn ∉ p)
    (h : hash_recursive_run zcm (fuel + 1) tn p = some r) :
    r.calls = zs.members.map (fun zm => (zm.type.nameUnderscore, tn :: p)) ∧
      ∃ hs, List.Forall₂ (fun zm h =>
          hash_recursive zcm fuel zm.type.nameUnderscore (tn :: p) = some h) zs.members hs ∧
        r.value = hashMix (wrapSum hs (zs.hash % 2 ^ 64)) := by
  rw [hash_recursive_run_eq] at h
  simp only [hfind, hp, if_false] at h
  cases hs : hashSum (fun t c => (hash_recursive_run zcm fuel t c).map HashRun.value)
      (tn :: p) zs.members (zs.hash % 2 ^ 64) [] with
  | none => rw [hs] at h; simp at h
  | some run =>
    rw [hs] at h
    simp only [Option.some.injEq] at h
    subst h
    obtain ⟨hc, hl, hfa, hval⟩ := hashSum_inv _ _ _ _ _ _ hs
    refine ⟨by simpa using hc, hl, hfa, ?_⟩
    simp only [hval]

theorem hash_recursive_run_guard {zcm : ZCMGen} (fuel : Nat) {tn : String} {p : List String}
    {zs : ZCMStruct} (hfind : zcm.findStruct tn = some zs) (hp : tn ∈ p) :
    hash_recursive_run zcm fuel tn p = some ⟨0, []⟩ := by
  rw [hash_recursive_run_eq]
  simp only [hfind, hp, if_true]

theorem hash_recursive_run_prim {zcm : ZCMGen} (fuel : Nat) {tn : String} (p : List String)
    (hfind : zcm.findStruct tn = none) :
    hash_recursive_run zcm fuel tn p = some ⟨0, []⟩ := by
  rw [hash_recursive_run_eq]
  simp only [hfind, primHashRecursive]

/-- In a schema without cycles the chain does not matter. -/
theorem hash_recursive_chain_irrelevant {zcm : ZCMGen} {rank : String → Nat}
    (hac : Acyclic zcm rank) :
    ∀ (fuel : Nat) (tn : String) (p : List String),
      (∀ n, n ∈ p → rank tn < rank n) →
      hash_recursive zcm fuel tn p = hash_recursive zcm fuel tn [] := by
  intro fuel
  induction fuel with
  | zero =>
    intro tn p hrank
    unfold hash_recursive
    rw [hash_recursive_run_eq, hash_recursive_run_eq]
    cases hfind : zcm.findStruct tn with
    | none => rfl
    | some zs =>
      have hp : tn ∉ p := fun hmem => Nat.lt_irrefl _ (hrank tn hmem)
      simp [hp]
  | succ fuel ih =>
    intro tn p hrank
    unfold hash_recursive
    rw [hash_recursive_run_eq, hash_recursive_run_eq]
    cases hfind : zcm.findStruct tn with
    | none => rfl
    | some zs =>
      have hp : tn ∉ p := fun hmem => Nat.lt_irrefl _ (hrank tn hmem)
      obtain ⟨hzs, hname⟩ := findStruct_some hfind
      simp only [hp, if_false, List.not_mem_nil]
      have key : ∀ (ms : List ZCMMember), (∀ zm, zm ∈ ms → zm ∈ zs.members) →
          ∀ (acc : Nat) (l1 l2 : List (String × List String)),
          (hashSum (fun t c => (hash_recursive_run zcm fuel t c).map HashRun.value) (tn :: p)
              ms acc l1).map HashRun.value =
          (hashSum (fun t c => (hash_recursive_run zcm fuel t c).map HashRun.value) [tn]
              ms acc l2).map HashRun.value := by
        intro ms
        induction ms with
        | nil => intro _ acc l1 l2; rfl
        | cons zm rest ihm =>
          intro hsub acc l1 l2
          simp only [hashSum]
          have hcall : (hash_recursive_run zcm fuel zm.type.nameUnderscore (tn :: p)).map HashRun.value
              = (hash_recursive_run zcm fuel zm.type.nameUnderscore [tn]).map HashRun.value := by
            cases hf : zcm.findStruct zm.type.nameUnderscore with
            | none => rw [hash_recursive_run_prim fuel _ hf, hash_recursive_run_prim fuel _ hf]
            | some zs1 =>
              have hlt : rank zm.type.nameUnderscore < rank tn := by
                have := hac zs hzs zm (hsub zm (List.mem_cons_self _ _)) (by simp [hf])
                rwa [hname] at this
              have e1 := ih zm.type.nameUnderscore (tn :: p) (by
                intro n hn
                rcases List.mem_cons.mp hn with h1 | h1
                · rw [h1]; exact hlt
                · exact Nat.lt_trans hlt (hrank n h1))
              have e2 := ih zm.type.nameUnderscore [tn] (by
                intro n hn
                rw [List.mem_singleton.mp hn]; exact hlt)
              unfold hash_recursive at e1 e2
              rw [e1, e2]
          rw [hcall]
          cases (hash_recursive_run zcm fuel zm.type.nameUnderscore [tn]).map HashRun.value with
          | none => rfl
          | some v => exact ihm (fun zm1 h1 => hsub zm1 (List.mem_cons_of_mem _ h1)) _ _ _
      have k := key zs.members (fun _ h => h) (zs.hash % 2 ^ 64) [] []
      cases h1 : hashSum (fun t c => (hash_recursive_run zcm fuel t c).map HashRun.value) (tn :: p)
          zs.members (zs.hash % 2 ^ 64) [] with
      | none =>
        rw [h1] at k
        cases h2 : hashSum (fun t c => (hash_recursive_run zcm fuel t c).map HashRun.value) [tn]
            zs.members (zs.hash % 2 ^ 64) [] with
        | none => rfl
        | some r2 => rw [h2] at k; simp at k
      | some r1 =>
        rw [h1] at k
        cases h2 : hashSum (fun t c => (hash_recursive_run zcm fuel t c).map HashRun.value) [tn]
            zs.members (zs.hash % 2 ^ 64) [] with
        | none => rw [h2] at k; simp at k
        | some r2 =>
          rw [h2] at k
          simp only [Option.map_some', Option.some.injEq] at k
          simp [k]

theorem forall2_imp_of_mem {α β : Type} {R S : α → β → Prop} :
    ∀ {l1 : List α} {l2 : List β}, List.Forall₂ R l1 l2 →
      (∀ a b, a ∈ l1 → R a b → S a b) → List.Forall₂ S l1 l2 := by
  intro l1 l2 h
  induction h with
  | nil => intro _; exact List.Forall₂.nil
  | cons hab _ ih =>
    intro himp
    exact List.Forall₂.cons (himp _ _ (List.mem_cons_self _ _) hab)
      (ih (fun a b ha hr => himp a b (List.mem_cons_of_mem _ ha) hr))

theorem get_hash_step (zcm : ZCMGen) (tn : String) (st : HashState) (hst : HashState.Sound zcm st) :
    ∃ h st1, hash_recursive zcm zcm.structs.length tn [] = some h ∧
      get_hash zcm tn st = some (toInt64 h, st1) ∧ toU64 (toInt64 h) = h ∧
      HashState.Sound zcm st1 ∧ (∀ n, n ≠ tn → st1 n = st n) ∧
      (st1 tn).computed = true ∧ (st1 tn).hash = h := by
  obtain ⟨r, hr⟩ := hash_recursive_run_total zcm tn []
  have hr0 : hash_recursive zcm zcm.structs.length tn [] = some r.value := by
    have := hr 0
    unfold hash_recursive
    simp only [Nat.add_zero] at this
    rw [this]; rfl
  have hlt : r.value < 2 ^ 64 := by
    have h0 := hr 0
    simp only [Nat.add_zero] at h0
    rw [hash_recursive_run_eq] at h0
    cases hfind : zcm.findStruct tn with
    | none =>
      simp only [hfind, Option.some.injEq] at h0
      subst h0; simp [primHashRecursive]
    | some zs =>
      simp only [hfind] at h0
      by_cases hp : tn ∈ ([] : List String)
      · simp at hp
      · simp only [List.not_mem_nil, if_false] at h0
        cases hN : zcm.structs.length with
        | zero => rw [hN] at h0; simp at h0
        | succ N =>
          rw [hN] at h0
          simp only at h0
          cases hs : hashSum (fun t c => (hash_recursive_run zcm N t c).map HashRun.value) [tn]
              zs.members (zs.hash % 2 ^ 64) [] with
          | none => rw [hs] at h0; simp at h0
          | some run =>
            rw [hs] at h0
            simp only [Option.some.injEq] at h0
            subst h0
            exact hashMix_lt _
  by_cases hc : (st tn).computed = true
  · refine ⟨r.value, st, hr0, ?_, toU64_toInt64 _ hlt, hst, fun _ _ => rfl, hc, ?_⟩
    · have := hst tn hc
      rw [hr0] at this
      simp only [Option.some.injEq] at this
      unfold get_hash
      simp only [hc, if_true, ← this]
    · have := hst tn hc
      rw [hr0] at this
      simp only [Option.some.injEq] at this
      exact this.symm
  · refine ⟨r.value, fun n => if n = tn then ⟨true, toU64 (toInt64 r.value)⟩ else st n, hr0, ?_,
      toU64_toInt64 _ hlt, ?_, ?_, ?_, ?_⟩
    · unfold get_hash
      simp only [hc, hr0, toU64_toInt64 _ hlt, if_true]
      rfl
    · intro n hn
      by_cases hnt : n = tn
      · subst hnt
        simp only [if_true, toU64_toInt64 _ hlt]
        exact hr0
      · simp only [hnt, if_false] at hn ⊢
        exact hst n hn
    · intro n hn; simp only [hn, if_false]
    · simp
    · simp [toU64_toInt64 _ hlt]

theorem sound_init (zcm : ZCMGen) : HashState.Sound zcm HashState.init := by
  intro tn h
  simp [HashState.init] at h

theorem get_hash_calls_spec (zcm : ZCMGen) :
    ∀ (calls : List String) (st : HashState), HashState.Sound zcm st →
      ∃ rs st1, get_hash_calls zcm calls st = some (rs, st1) ∧
        List.Forall₂ (fun tn r => ∃ h, hash_recursive zcm zcm.structs.length tn [] = some h ∧
          r = toInt64 h ∧ toU64 r = h) calls rs ∧
        (∀ n, n ∉ calls → st1 n = st n) ∧ HashState.Sound zcm st1 := by
  intro calls
  induction calls with
  | nil => intro st hst; exact ⟨[], st, rfl, List.Forall₂.nil, fun _ _ => rfl, hst⟩
  | cons tn rest ih =>
    intro st hst
    obtain ⟨h, st1, hh, hg, hu, hs1, hfr, _, _⟩ := get_hash_step zcm tn st hst
    obtain ⟨rs, st2, hcalls, hfa, hfr2, hs2⟩ := ih st1 hs1
    refine ⟨toInt64 h :: rs, st2, ?_, List.Forall₂.cons ⟨h, hh, rfl, hu⟩ hfa, ?_, hs2⟩
    · simp only [get_hash_calls, hg, hcalls]
    · intro n hn
      simp only [List.mem_cons, not_or] at hn
      rw [hfr2 n hn.2, hfr n hn.1]

/-- C7. The expression the emitter writes at the end of the generated hash function,
`(hash<<1) + ((hash>>63)&1)` on a `uint64_t`, is for every 64-bit value the rotation
`(hash << 1) | (hash >> 63)`: a left rotation by one bit. -/
theorem hash_mix_is_rotation (hash : Nat) (h : hash < 2 ^ 64) : hashMix hash = rotl1 hash :=
  hashMix_rotl1_aux hash h

theorem hash_mix_is_rotation_witness :
    (2 ^ 63 + 5 : Nat) < 2 ^ 64 ∧ hashMix (2 ^ 63 + 5) = rotl1 (2 ^ 63 + 5) :=
  ⟨by norm_num, hash_mix_is_rotation (2 ^ 63 + 5) (by norm_num)⟩

/-- C8. Cycle guard. For a struct `S` (C name `tn`) of the schema: when the chain `p`
already holds `S`, at any position, the generated `__S_hash_recursive(p)` returns 0 and
calls no member's hash function, whatever the fuel (even none); when the chain does not
hold `S`, it returns, and the calls it makes are one per member, in declaration order,
each passed the incoming chain extended by `S`. -/
theorem cycle_guard (zcm : ZCMGen) (tn : String) (zs : ZCMStruct) (p : List String)
    (hfind : zcm.findStruct tn = some zs) :
    (tn ∈ p → ∀ fuel, hash_recursive_run zcm fuel tn p = some ⟨0, []⟩) ∧
    (tn ∉ p → ∃ r, (∀ k, hash_recursive_run zcm (zcm.structs.length + k) tn p = some r) ∧
      r.calls = zs.members.map (fun zm => (zm.type.nameUnderscore, tn :: p))) := by
  refine ⟨fun hp fuel => hash_recursive_run_guard fuel hfind hp, fun hp => ?_⟩
  obtain ⟨r, hr⟩ := hash_recursive_run_total zcm tn p
  exact ⟨r, hr, (hash_recursive_run_inv hfind hp (hr 1)).1⟩

theorem cycle_guard_witness :
    hashSchema.findStruct "node_t" = some nodeT ∧
    (("node_t" ∈ ["outer_t", "node_t"] →
        ∀ fuel, hash_recursive_run hashSchema fuel "node_t" ["outer_t", "node_t"] = some ⟨0, []⟩) ∧
     ("node_t" ∉ ["outer_t", "node_t"] →
        ∃ r, (∀ k, hash_recursive_run hashSchema (hashSchema.structs.length + k) "node_t"
            ["outer_t", "node_t"] = some r) ∧
          r.calls = nodeT.members.map
            (fun zm => (zm.type.nameUnderscore, "node_t" :: ["outer_t", "node_t"])))) :=
  ⟨by decide, cycle_guard hashSchema "node_t" nodeT ["outer_t", "node_t"] (by decide)⟩

/-- C9. Fingerprinting terminates on every schema, cyclic or not: with fuel for as many
nested calls past the cycle guard as the schema has structs, `__T_hash_recursive(p)`
returns, more fuel does not change the result, and every call its body makes passes a
chain extended by a struct that was not on it. -/
theorem hash_recursive_terminates (zcm : ZCMGen) (tn : String) (p : List String) :
    ∃ r, (∀ k, hash_recursive_run zcm (zcm.structs.length + k) tn p = some r) ∧
      (∀ c, c ∈ r.calls → c.2 = tn :: p ∧ tn ∉ p) := by
  obtain ⟨r, hr⟩ := hash_recursive_run_total zcm tn p
  refine ⟨r, hr, ?_⟩
  intro c hc
  cases hfind : zcm.findStruct tn with
  | none =>
    have := hr 0
    rw [hash_recursive_run_prim _ _ hfind] at this
    simp only [Option.some.injEq] at this
    subst this
    simp at hc
  | some zs =>
    by_cases hp : tn ∈ p
    · have := hr 0
      rw [hash_recursive_run_guard _ hfind hp] at this
      simp only [Option.some.injEq] at this
      subst this
      simp at hc
    · have := (hash_recursive_run_inv hfind hp (hr 1)).1
      rw [this] at hc
      simp only [List.mem_map] at hc
      obtain ⟨zm, _, rfl⟩ := hc
      exact ⟨rfl, hp⟩

/-- C10. Fingerprint determinism and order independence. Whatever sequence of
`__T_get_hash()` calls is run from the initial statics, every call returns the value of
`__T_hash_recursive(NULL)` (as `int64_t`, the same 64 bits), which depends on `T` alone
and not on what was fingerprinted before; slots of structs that were not called keep
their initial value, and any single call changes no slot but that of its own struct. -/
theorem get_hash_deterministic (zcm : ZCMGen) (calls : List String) :
    ∃ rs st, get_hash_calls zcm calls HashState.init = some (rs, st) ∧
      List.Forall₂ (fun tn r => ∃ h, hash_recursive zcm zcm.structs.length tn [] = some h ∧
        r = toInt64 h ∧ toU64 r = h) calls rs ∧
      (∀ n, n ∉ calls → st n = HashState.init n) ∧
      (∀ tn st0 r st1, get_hash zcm tn st0 = some (r, st1) → ∀ n, n ≠ tn → st1 n = st0 n) := by
  obtain ⟨rs, st, h1, h2, h3, _⟩ := get_hash_calls_spec zcm calls HashState.init (sound_init zcm)
  refine ⟨rs, st, h1, h2, h3, ?_⟩
  intro tn st0 r st1 hg n hn
  unfold get_hash at hg
  by_cases hc : (st0 tn).computed = true
  · simp only [hc, if_true, Option.some.injEq, Prod.mk.injEq] at hg
    rw [← hg.2]
  · simp only [hc] at hg
    cases hh : hash_recursive zcm zcm.structs.length tn [] with
    | none => rw [hh] at hg; simp at hg
    | some h =>
      rw [hh] at hg
      simp only [Bool.false_eq_true, if_false, Option.some.injEq, Prod.mk.injEq] at hg
      rw [← hg.2]
      simp only [hn, if_false]

/-- C6, counterexample. In the acyclic schema `inner_t { int32_t v; }` (base 1),
`outer_t { inner_t i; }` (base 0), the generated `__outer_t_get_hash()` returns 4, while the
single rotation of the un-rotated sums, `rotl1(base(outer_t) + base(inner_t))`, is 2. -/
theorem fingerprint_single_rotation_fails :
    (get_hash pairSchema "outer_t" HashState.init).map Prod.fst = some 4 ∧
    toInt64 (rotl1 (claimedSum pairSchema 2 "outer_t")) = 2 ∧
    rotl1 ((outerT.hash + innerT.hash) % 2 ^ 64) = 2 := by
  decide

/-- C6, amended. For every struct `S` of an acyclic schema, the fingerprint exposed by the
generated `__S_get_hash` is the 1-bit left rotation of the wrapping 64-bit sum of
`base(S)` and, for every member in declaration order, the value of the member type's own
`hash_recursive(NULL)` (0 for a primitive type): the rotation is applied at every level,
so a dependency contributes its rotated fingerprint. -/
theorem fingerprint_rotates_each_level (zcm : ZCMGen) (rank : String → Nat) (tn : String)
    (zs : ZCMStruct) (hac : Acyclic zcm rank) (hfind : zcm.findStruct tn = some zs) :
    ∃ hs, List.Forall₂ (fun zm h =>
        hash_recursive zcm zcm.structs.length zm.type.nameUnderscore [] = some h ∧
        ((zcm.findStruct zm.type.nameUnderscore).isNone → h = 0)) zs.members hs ∧
      hash_recursive zcm zcm.structs.length tn [] = some (rotl1 (wrapSum hs (zs.hash % 2 ^ 64))) ∧
      (get_hash zcm tn HashState.init).map Prod.fst
        = some (toInt64 (rotl1 (wrapSum hs (zs.hash % 2 ^ 64)))) := by
  obtain ⟨r, hr⟩ := hash_recursive_run_total zcm tn []
  obtain ⟨_, hs, hfa, hval⟩ := hash_recursive_run_inv hfind (List.not_mem_nil tn) (hr 1)
  obtain ⟨hzs, hname⟩ := findStruct_some hfind
  have hrec : hash_recursive zcm zcm.structs.length tn []
      = some (rotl1 (wrapSum hs (zs.hash % 2 ^ 64))) := by
    unfold hash_recursive
    have := hr 0
    simp only [Nat.add_zero] at this
    rw [this, Option.map_some', hval,
      hashMix_rotl1_aux _ (wrapSum_lt hs _ (Nat.mod_lt _ (by norm_num)))]
  refine ⟨hs, ?_, hrec, ?_⟩
  · refine forall2_imp_of_mem hfa ?_
    intro zm h hzm hcall
    simp only [Nat.add_zero] at hcall
    cases hf : zcm.findStruct zm.type.nameUnderscore with
    | none =>
      have e : hash_recursive zcm zcm.structs.length zm.type.nameUnderscore [tn] = some 0 := by
        unfold hash_recursive; rw [hash_recursive_run_prim _ _ hf]; rfl
      have e0 : hash_recursive zcm zcm.structs.length zm.type.nameUnderscore [] = some 0 := by
        unfold hash_recursive; rw [hash_recursive_run_prim _ _ hf]; rfl
      rw [e] at hcall
      simp only [Option.some.injEq] at hcall
      subst hcall
      exact ⟨e0, fun _ => rfl⟩
    | some zs1 =>
      have hlt : rank zm.type.nameUnderscore < rank tn := by
        have := hac zs hzs zm hzm (by simp [hf])
        rwa [hname] at this
      rw [hash_recursive_chain_irrelevant hac _ _ [tn] (by
        intro n hn; rw [List.mem_singleton.mp hn]; exact hlt)] at hcall
      exact ⟨hcall, fun hnone => by simp at hnone⟩
  · obtain ⟨h, st1, hh, hg, _⟩ := get_hash_step zcm tn HashState.init (sound_init zcm)
    rw [hrec] at hh
    simp only [Option.some.injEq] at hh
    rw [hg, Option.map_some', hh]

theorem acyclic_pairSchema :
    Acyclic pairSchema (fun n => if n = "outer_t" then 1 else 0) := by
  intro zs hzs zm hzm hsome
  simp only [pairSchema, List.mem_cons, List.mem_singleton, List.not_mem_nil, or_false] at hzs
  rcases hzs with rfl | rfl
  · simp only [innerT, List.mem_singleton] at hzm
    subst hzm
    revert hsome
    decide
  · simp only [outerT, List.mem_singleton] at hzm
    subst hzm
    decide

theorem fingerprint_rotates_each_level_witness :
    Acyclic pairSchema (fun n => if n = "outer_t" then 1 else 0) ∧
    pairSchema.findStruct "outer_t" = some outerT ∧
    ∃ hs, List.Forall₂ (fun zm h =>
        hash_recursive pairSchema pairSchema.structs.length zm.type.nameUnderscore [] = some h ∧
        ((pairSchema.findStruct zm.type.nameUnderscore).isNone → h = 0)) outerT.members hs ∧
      hash_recursive pairSchema pairSchema.structs.length "outer_t" []
        = some (rotl1 (wrapSum hs (outerT.hash % 2 ^ 64))) ∧
      (get_hash pairSchema "outer_t" HashState.init).map Prod.fst
        = some (toInt64 (rotl1 (wrapSum hs (outerT.hash % 2 ^ 64)))) :=
  ⟨acyclic_pairSchema, by decide,
   fingerprint_rotates_each_level pairSchema _ "outer_t" outerT acyclic_pairSchema (by decide)⟩

/-! ## Blocks: loops as sequences -/

theorem forLoop_zero {σ : Type} (body : Nat → σ → Option (Flow σ)) (i : Nat) :
    forLoop body i 0 = skipBlock := by
  funext s; rfl

theorem forLoop_succ {σ : Type} (body : Nat → σ → Option (Flow σ)) (i k : Nat) :
    forLoop body i (k + 1) = seqBlock (body i) (forLoop body (i + 1) k) := by
  funext s
  simp only [forLoop, seqBlock]

theorem forMembers_nil {σ : Type} (block : ZCMMember → σ → Option (Flow σ)) :
    forMembers block [] = skipBlock := by
  funext s; rfl

theorem forMembers_cons {σ : Type} (block : ZCMMember → σ → Option (Flow σ)) (zm : ZCMMember)
    (rest : List ZCMMember) :
    forMembers block (zm :: rest) = seqBlock (block zm) (forMembers block rest) := by
  funext s
  simp only [forMembers, seqBlock]

/-- A loop over the indices of a list handles the concatenation of what its iterations
handle. -/
theorem forLoop_law {σ R α : Type} {OK : (σ → Option (Flow σ)) → List R → Prop}
    (law : BlockLaw OK) (f : α → Option (List R)) (body : Nat → σ → Option (Flow σ)) :
    ∀ (xs : List α) (i0 : Nat),
      (∀ j x, xs.get? j = some x → ∃ P, f x = some P ∧ OK (body (i0 + j)) P) →
      ∃ P, bindAll f xs = some P ∧ OK (forLoop body i0 xs.length) P := by
  intro xs
  induction xs with
  | nil =>
    intro i0 _
    exact ⟨[], rfl, by rw [List.length_nil, forLoop_zero]; exact law.skip⟩
  | cons x rest ih =>
    intro i0 h
    obtain ⟨P1, hf1, hok1⟩ := h 0 x rfl
    obtain ⟨P2, hf2, hok2⟩ := ih (i0 + 1) (fun j y hy => by
      have := h (j + 1) y (by simpa using hy)
      rwa [show i0 + (j + 1) = i0 + 1 + j by omega] at this)
    refine ⟨P1 ++ P2, by simp only [bindAll, hf1, hf2], ?_⟩
    rw [List.length_cons, forLoop_succ]
    exact law.seq _ _ _ _ (by simpa using hok1) hok2

/-- The member blocks in declaration order handle the concatenation of what each
handles. -/
theorem forMembers_law {σ R : Type} {OK : (σ → Option (Flow σ)) → List R → Prop}
    (law : BlockLaw OK) (f : ZCMMember → Option (List R))
    (block : ZCMMember → σ → Option (Flow σ)) :
    ∀ (ms : List ZCMMember),
      (∀ zm, zm ∈ ms → ∃ P, f zm = some P ∧ OK (block zm) P) →
      ∃ P, bindAll f ms = some P ∧ OK (forMembers block ms) P := by
  intro ms
  induction ms with
  | nil => intro _; exact ⟨[], rfl, by rw [forMembers_nil]; exact law.skip⟩
  | cons zm rest ih =>
    intro h
    obtain ⟨P1, hf1, hok1⟩ := h zm (List.mem_cons_self _ _)
    obtain ⟨P2, hf2, hok2⟩ := ih (fun zm1 h1 => h zm1 (List.mem_cons_of_mem _ h1))
    refine ⟨P1 ++ P2, by simp only [bindAll, hf1, hf2], ?_⟩
    rw [forMembers_cons]
    exact law.seq _ _ _ _ hok1 hok2

/-- The variables `a` to `o` of the depths 0 to 14 are usable. -/
theorem loopVarUsable_of_lt : ∀ d, d < 15 → loopVarUsable d = true := by
  decide

/-- A block of loops that stays above depth 15 compiles. -/
theorem loopsCompile_of_le : ∀ (k d : Nat), k + d ≤ 15 → loopsCompile k d = true := by
  intro k
  induction k with
  | zero => intro d _; rfl
  | succ k ih =>
    intro d h
    simp only [loopsCompile, Bool.and_eq_true]
    exact ⟨loopVarUsable_of_lt d (by omega), ih (d + 1) (by omega)⟩

/-- The blocks of a member of at most 16 axes compile. -/
theorem loopsCompile_member (zm : ZCMMember) (h : zm.dimensions.length ≤ 16) :
    loopsCompile (zm.dimensions.length - 1) 0 = true :=
  loopsCompile_of_le _ 0 (by omega)

/-- The array loops around a leaf statement handle the leaf runs of the member, when the
member has the shape its sizes say and the loops compile. -/
theorem arrayLoops_law {L σ : Type} {OK : (σ → Option (Flow σ)) → List (LeafRun L) → Prop}
    (law : BlockLaw OK) (size : Nat → Option Int) (wleaf : Val L → Nat → Bool)
    (fleaf : Val L → Option (List (LeafRun L))) (leaf : Val L → σ → Option (Flow σ)) :
    ∀ (k d : Nat) (sv : Val L), loopsCompile k d = true → wfLoops size wleaf k d sv = true →
      (∀ x e, size (d + k) = some e → 0 ≤ e → e < 2 ^ 31 → wleaf x e.toNat = true →
        ∃ P, fleaf x = some P ∧ OK (leaf x) P) →
      ∃ P, flatLoops fleaf k sv = some P ∧ OK (arrayLoops size leaf k d sv) P := by
  intro k
  induction k with
  | zero =>
    intro d sv _ hwf hleaf
    simp only [wfLoops] at hwf
    cases hs : size d with
    | none => rw [hs] at hwf; simp at hwf
    | some e =>
      rw [hs] at hwf
      simp only [Bool.and_eq_true, decide_eq_true_eq] at hwf
      obtain ⟨P, hP, hok⟩ := hleaf sv e (by simpa using hs) hwf.1.1 hwf.1.2 hwf.2
      exact ⟨P, by simpa [flatLoops] using hP, by
        have : arrayLoops size leaf 0 d sv = leaf sv := by funext s; rfl
        rw [this]; exact hok⟩
  | succ k ih =>
    intro d sv hc hwf hleaf
    have hc1 : loopsCompile k (d + 1) = true := by
      simp only [loopsCompile, Bool.and_eq_true] at hc
      exact hc.2
    cases sv with
    | prims xs => simp [wfLoops] at hwf
    | record fs => simp [wfLoops] at hwf
    | arr xs =>
      simp only [wfLoops] at hwf
      cases hs : size d with
      | none => rw [hs] at hwf; simp at hwf
      | some e =>
        rw [hs] at hwf
        simp only [Bool.and_eq_true, decide_eq_true_eq, List.all_eq_true] at hwf
        obtain ⟨⟨⟨he0, he1⟩, hlen⟩, hall⟩ := hwf
        have hloop := forLoop_law law (flatLoops fleaf k)
          (fun a s1 =>
            match xs.get? a with
            | none => none
            | some x => arrayLoops size leaf k (d + 1) x s1) xs 0
          (fun j x hx => by
            obtain ⟨P, hP, hok⟩ := ih (d + 1) x hc1 (hall x (List.get?_mem hx))
              (fun y e1 hs1 => hleaf y e1 (by rwa [show d + (k + 1) = d + 1 + k by omega]))
            refine ⟨P, hP, ?_⟩
            have : (fun s1 => match xs.get? (0 + j) with
                | none => none
                | some x => arrayLoops size leaf k (d + 1) x s1) = arrayLoops size leaf k (d + 1) x := by
              funext s1
              simp only [Nat.zero_add, hx]
            show OK (fun s1 => match xs.get? (0 + j) with
                | none => none
                | some x => arrayLoops size leaf k (d + 1) x s1) P
            rw [this]; exact hok)
        obtain ⟨P, hP, hok⟩ := hloop
        refine ⟨P, by simpa [flatLoops] using hP, ?_⟩
        have : arrayLoops size leaf (k + 1) d (Val.arr xs) =
            forLoop (fun a s1 =>
              match xs.get? a with
              | none => none
              | some x => arrayLoops size leaf k (d + 1) x s1) 0 xs.length := by
          funext s
          simp only [arrayLoops, hc, ↓reduceIte, hs, hlen]
        rw [this]; exact hok

/-! ## Machine integers: helper lemmas -/

theorem toU32_natCast (n : Nat) : toU32 (n : Int) = n % 2 ^ 32 := by
  unfold toU32
  omega

theorem toU32_of_range (e : Int) (h0 : 0 ≤ e) (h1 : e < 2 ^ 31) : toU32 e = e.toNat := by
  unfold toU32
  omega

theorem toInt32_small (n : Nat) (h : n < 2 ^ 31) : toInt32 n = (n : Int) := by
  unfold toInt32
  have : n % 2 ^ 32 = n := Nat.mod_eq_of_lt (by omega)
  rw [this, if_pos h]

theorem toInt32_big (n : Nat) (h1 : 2 ^ 31 ≤ n) (h2 : n < 2 ^ 32) : toInt32 n < 0 := by
  unfold toInt32
  have : n % 2 ^ 32 = n := Nat.mod_eq_of_lt h2
  rw [this, if_neg (by omega)]
  omega

/-! ## Leaf runs, traces and layouts: helper lemmas -/

theorem planSize_append {L : Type} (env : CoreTypes L) (P1 P2 : List (LeafRun L)) :
    planSize env (P1 ++ P2) = planSize env P1 + planSize env P2 := by
  induction P1 with
  | nil => simp [planSize]
  | cons c rest ih =>
    show planSize env (c :: (rest ++ P2)) = _
    simp only [planSize, ih]; omega

theorem written_append {L : Type} (cs ds : List (LeafCall L)) :
    written (cs ++ ds) = written cs + written ds := by
  induction cs with
  | nil => simp [written]
  | cons c rest ih =>
    show written (c :: (rest ++ ds)) = _
    simp only [written, ih]; omega

theorem written_eq_planSize {L : Type} (env : CoreTypes L) (cs : List (LeafCall L))
    (h : ∀ c, c ∈ cs → c.ret = ((env.encodedArraySize c.type c.p c.elements : Nat) : Int)) :
    written cs = planSize env (cs.map LeafCall.run) := by
  induction cs with
  | nil => rfl
  | cons c rest ih =>
    simp only [written, List.map_cons, planSize, LeafCall.run]
    rw [ih (fun c1 h1 => h c1 (List.mem_cons_of_mem _ h1)), h c (List.mem_cons_self _ _)]
    simp

theorem traceOK_append {L : Type} (offset maxlen : Nat) (cs ds : List (LeafCall L)) :
    ∀ w, TraceOK offset maxlen w (cs ++ ds) ↔
      (TraceOK offset maxlen w cs ∧ TraceOK offset maxlen (w + written cs) ds) := by
  induction cs with
  | nil => intro w; simp [TraceOK, written]
  | cons c rest ih =>
    intro w
    show TraceOK offset maxlen w (c :: (rest ++ ds)) ↔ _
    simp only [TraceOK, written, ih]
    rw [show w + c.ret.toNat + written rest = w + (c.ret.toNat + written rest) by omega]
    tauto

theorem traceOK_shift {L : Type} (offset maxlen p : Nat) (hp : p ≤ maxlen)
    (cs : List (LeafCall L)) :
    ∀ w, TraceOK ((offset + p) % 2 ^ 32) (maxlen - p) w cs → TraceOK offset maxlen (p + w) cs := by
  induction cs with
  | nil => intro w _; trivial
  | cons c rest ih =>
    intro w h
    simp only [TraceOK] at h ⊢
    obtain ⟨h1, h2, h3⟩ := h
    refine ⟨by rw [h1]; omega, by omega, ?_⟩
    have := ih _ h3
    rwa [show p + (w + c.ret.toNat) = p + w + c.ret.toNat by omega] at this

theorem layout_append {L : Type} (env : CoreTypes L) (B : Buf) (P1 P2 : List (LeafRun L)) :
    ∀ o, Layout env B o (P1 ++ P2) ↔
      (Layout env B o P1 ∧ Layout env B (o + planSize env P1) P2) := by
  induction P1 with
  | nil => intro o; simp [Layout, planSize]
  | cons c rest ih =>
    intro o
    show Layout env B o (c :: (rest ++ P2)) ↔ _
    simp only [Layout, planSize, ih]
    rw [show o + env.encodedArraySize c.type c.p c.elements + planSize env rest
      = o + (env.encodedArraySize c.type c.p c.elements + planSize env rest) by omega]
    tauto

theorem written_compose {L : Type} (env : CoreTypes L) (b1 b2 : Buf) (lo : Nat)
    (P1 P2 : List (LeafRun L)) (h1 : Written env b1 lo P1)
    (hkeep : ∀ i, lo ≤ i → i < lo + planSize env P1 → b2 i = b1 i)
    (h2 : Written env b2 (lo + planSize env P1) P2) :
    Written env b2 lo (P1 ++ P2) := by
  intro B hB
  rw [planSize_append] at hB
  rw [layout_append]
  refine ⟨h1 B (fun i hi1 hi2 => ?_), h2 B (fun i hi1 hi2 => ?_)⟩
  · rw [hB i hi1 (by omega), hkeep i hi1 hi2]
  · exact hB i (by omega) (by omega)

/-! ## The encoder: blocks -/

theorem encOK_law {L : Type} (env : CoreTypes L) (offset maxlen : Nat) :
    BlockLaw (EncOK env offset maxlen) where
  skip := by
    intro s hs
    refine ⟨Flow.next s, rfl, ?_⟩
    simp [EncPost, planSize, TraceOK, hs, Written, Layout]
  seq := by
    intro b1 b2 P1 P2 ok1 ok2 s hs
    obtain ⟨f1, h1, p1⟩ := ok1 s hs
    cases f1 with
    | ret r s1 =>
      refine ⟨Flow.ret r s1, by simp only [seqBlock, h1], ?_⟩
      simp only [EncPost] at p1 ⊢
      obtain ⟨hr, hno, hfr, hcs⟩ := p1
      refine ⟨hr, ?_, hfr, hcs⟩
      rw [planSize_append]
      omega
    | next s1 =>
      simp only [EncPost] at p1
      obtain ⟨hpos1, hle1, hfr1, ⟨cs1, hc1, tr1, map1, ret1⟩, rt1⟩ := p1
      obtain ⟨f2, h2, p2⟩ := ok2 s1 hle1
      have hw1 : written cs1 = planSize env P1 := by
        rw [written_eq_planSize env cs1 ret1, map1]
      refine ⟨f2, by simp only [seqBlock, h1, h2], ?_⟩
      cases f2 with
      | ret r s2 =>
        simp only [EncPost] at p2 ⊢
        obtain ⟨hr, hno, hfr2, cs2, hc2, tr2⟩ := p2
        refine ⟨hr, ?_, fun i hi => by rw [hfr2 i hi, hfr1 i hi], cs1 ++ cs2, ?_, ?_⟩
        · rw [planSize_append]; omega
        · rw [hc2, hc1, List.append_assoc]
        · rw [traceOK_append, hw1, ← hpos1]
          exact ⟨tr1, tr2⟩
      | next s2 =>
        simp only [EncPost] at p2 ⊢
        obtain ⟨hpos2, hle2, hfr2, ⟨cs2, hc2, tr2, map2, ret2⟩, rt2⟩ := p2
        refine ⟨by rw [hpos2, hpos1, planSize_append]; omega, hle2,
          fun i hi => by rw [hfr2 i hi, hfr1 i hi], ⟨cs1 ++ cs2, ?_, ?_, ?_, ?_⟩, ?_⟩
        · rw [hc2, hc1, List.append_assoc]
        · rw [traceOK_append, hw1, ← hpos1]
          exact ⟨tr1, tr2⟩
        · rw [List.map_append, map1, map2]
        · intro c hc
          rcases List.mem_append.mp hc with h | h
          · exact ret1 c h
          · exact ret2 c h
        · intro hrt hnw
          obtain ⟨fx1, w1⟩ := rt1 hrt hnw
          obtain ⟨fx2, w2⟩ := rt2 hrt hnw
          refine ⟨fun i hi => ?_, ?_⟩
          · rw [fx2 i (by omega), fx1 i (by omega)]
          · apply written_compose env s1.buf s2.buf (offset + s.pos) P1 P2 w1
            · intro i hi1 hi2
              exact fx2 i (by omega)
            · rw [show offset + s.pos + planSize env P1 = offset + s1.pos by omega]
              exact w2

/-- The statement pair around a callee that handles `P` is a block that handles `P`. -/
theorem encodeStep_ok {L : Type} (env : CoreTypes L) (offset maxlen : Nat)
    (hmax : maxlen < 2 ^ 32) (callee : Buf → Nat → Nat → Option (EncOut L))
    (P : List (LeafRun L))
    (hcallee : ∀ b o l, o < 2 ^ 32 → l < 2 ^ 32 → EncFnOK env b o l P (callee b o l)) :
    EncOK env offset maxlen (encodeStep callee offset maxlen) P := by
  intro s hs
  have hl : (maxlen + 2 ^ 32 - s.pos) % 2 ^ 32 = maxlen - s.pos := by omega
  obtain ⟨out, hres, hframe, htr, hneg, hpos⟩ :=
    hcallee s.buf ((offset + s.pos) % 2 ^ 32) ((maxlen + 2 ^ 32 - s.pos) % 2 ^ 32)
      (Nat.mod_lt _ (by norm_num)) (Nat.mod_lt _ (by norm_num))
  rw [hl] at hres hframe htr hneg hpos
  have htr1 : TraceOK offset maxlen s.pos out.calls := by
    have := traceOK_shift offset maxlen s.pos hs out.calls 0 htr
    simpa using this
  have hfr : ∀ i, offset + maxlen ≤ i → out.buf i = s.buf i := by
    intro i hi
    apply hframe
    have : (offset + s.pos) % 2 ^ 32 ≤ offset + s.pos := Nat.mod_le _ _
    omega
  by_cases hr : out.ret < 0
  · refine ⟨Flow.ret out.ret ⟨s.pos, out.buf, s.calls ++ out.calls⟩, ?_, ?_⟩
    · simp only [encodeStep, hl, hres, hr, if_true]
    · simp only [EncPost]
      refine ⟨hr, ?_, hfr, out.calls, rfl, htr1⟩
      intro hc
      exact hneg hr ⟨by omega, by omega⟩
  · have hr0 : 0 ≤ out.ret := by omega
    obtain ⟨hret, hle, hmap, hrets, hrt⟩ := hpos hr0
    have hnew : (s.pos + toU32 out.ret) % 2 ^ 32 = s.pos + planSize env P := by
      rw [hret, toU32_natCast]
      omega
    refine ⟨Flow.next ⟨(s.pos + toU32 out.ret) % 2 ^ 32, out.buf, s.calls ++ out.calls⟩, ?_, ?_⟩
    · simp only [encodeStep, hl, hres, hr, if_false]
    · simp only [EncPost]
      refine ⟨hnew, by rw [hnew]; omega, hfr, ⟨out.calls, rfl, htr1, hmap, hrets⟩, ?_⟩
      intro hrtc hnw
      have ho : (offset + s.pos) % 2 ^ 32 = offset + s.pos := Nat.mod_eq_of_lt (by omega)
      rw [ho] at hrt
      obtain ⟨fx, w⟩ := hrt hrtc (by omega)
      exact ⟨fun i hi => fx i (by rw [hnew] at hi; omega), w⟩

/-- A function whose body is a block that handles `P`, run from `pos = 0`, handles `P`;
when its result is not negative, `P` takes fewer than `2^31` bytes. -/
theorem encReturn_ok {L : Type} (env : CoreTypes L) (buf : Buf) (off len : Nat)
    (hlen : len < 2 ^ 32) (b : EncSt L → Option (Flow (EncSt L))) (P : List (LeafRun L))
    (hb : EncOK env off len b P) :
    EncFnOK env buf off len P (encReturn (b ⟨0, buf, []⟩)) ∧
    ∀ out, encReturn (b ⟨0, buf, []⟩) = some out → 0 ≤ out.ret → planSize env P < 2 ^ 31 := by
  obtain ⟨f, hf, post⟩ := hb ⟨0, buf, []⟩ (Nat.zero_le _)
  cases f with
  | ret r s =>
    simp only [EncPost] at post
    obtain ⟨hr, hno, hfr, cs, hcs, htr⟩ := post
    refine ⟨⟨⟨r, s.buf, s.calls⟩, by simp only [encReturn, hf], hfr, ?_, ?_, ?_⟩, ?_⟩
    · simp only [List.nil_append] at hcs; rw [hcs]; exact htr
    · intro _; simpa using hno
    · intro h0; exact absurd hr (by simp only [not_lt]; exact h0)
    · intro out hout h0
      simp only [hf, encReturn, Option.some.injEq] at hout
      subst hout
      exact absurd hr (by simp only [not_lt]; exact h0)
  | next s =>
    simp only [EncPost] at post
    obtain ⟨hpos, hle, hfr, ⟨cs, hcs, htr, hmap, hrets⟩, hrt⟩ := post
    simp only [List.nil_append] at hcs
    simp only [Nat.zero_add] at hpos htr hrt
    have hsmall : 0 ≤ toInt32 s.pos → s.pos < 2 ^ 31 := by
      intro h0
      by_contra hbig
      have := toInt32_big s.pos (by omega) (by omega)
      omega
    refine ⟨⟨⟨toInt32 s.pos, s.buf, s.calls⟩, by simp only [encReturn, hf], hfr, ?_, ?_, ?_⟩, ?_⟩
    · rw [hcs]; exact htr
    · intro hneg hc
      dsimp only at hneg
      rw [toInt32_small _ (by omega)] at hneg
      omega
    · intro h0
      have hs := hsmall h0
      refine ⟨by simp only; rw [toInt32_small _ hs, hpos], by omega, by rw [hcs]; exact hmap,
        by rw [hcs]; exact hrets, ?_⟩
      intro hrtc hnw
      obtain ⟨fx, w⟩ := hrt hrtc hnw
      exact ⟨fun i hi => fx i (by simp only [Nat.add_zero]; omega), by simpa using w⟩
    · intro out hout h0
      simp only [hf, encReturn, Option.some.injEq] at hout
      subst hout
      have := hsmall h0
      omega

/-- The generated `__S_encode_array`, whose element loop handles `P`, handles `P`. -/
theorem encodeStructArray_ok {L : Type} (env : CoreTypes L) (little : Bool)
    (callee : Bool → String → Buf → Nat → Nat → Val L → Nat → Option (EncOut L))
    (zs : ZCMStruct) (buf : Buf) (off len : Nat) (hlen : len < 2 ^ 32) (p : Val L)
    (elements : Nat) (P : List (LeafRun L))
    (hloop : EncOK env off len
      (forLoop (encodeElement env little callee zs off len p) 0 elements) P) :
    EncFnOK env buf off len P (encodeStructArray env little callee zs buf off len p elements) :=
  (encReturn_ok env buf off len hlen _ P hloop).1

/-- A call of a leaf encoder of `zcm_coretypes.h` handles the run it is given. -/
theorem encodePrim_ok {L : Type} (env : CoreTypes L) (hB : EncBounded env) (hS : EncSized env)
    (tn : String) (buf : Buf) (off len : Nat) (hoff : off < 2 ^ 32) (xs : List L) (n : Nat)
    (hn : xs.length = n) (hv : xs.all (env.valid tn) = true) :
    EncFnOK env buf off len [⟨tn, xs, n⟩] (some (encodePrim env tn buf off len xs n)) := by
  obtain ⟨hb1, hb2⟩ := hB tn buf off len xs n
  obtain ⟨hs1, hs2⟩ := hS tn buf off len xs n
  refine ⟨_, rfl, fun i hi => hb2 i (Or.inr hi), ?_, ?_, ?_⟩
  · simp only [encodePrim, TraceOK, and_true, Nat.add_zero]
    exact (Nat.mod_eq_of_lt hoff).symm
  · intro hneg hc
    simp only [encodePrim, planSize, Nat.add_zero] at hneg hc
    have := hs2 hc.1 hc.2
    omega
  · intro h0
    simp only [encodePrim] at h0
    have hret := hs1 h0
    have hle : env.encodedArraySize tn xs n ≤ len := by
      rcases hb1 with h | h
      · omega
      · rw [hret] at h; exact_mod_cast h
    refine ⟨by simp only [encodePrim, planSize, Nat.add_zero]; exact hret,
      by simpa [planSize] using hle, rfl, ?_, ?_⟩
    · intro c hc
      simp only [encodePrim, List.mem_singleton] at hc
      subst hc
      exact hret
    · intro hrt _
      obtain ⟨fx, hdec⟩ := hrt tn buf off len xs n hn hv h0
      refine ⟨fun i hi => fx i (by simpa [planSize] using hi), ?_⟩
      intro B hB
      simp only [Layout, and_true]
      exact hdec B (fun i h1 h2 => hB i h1 (by simpa [planSize] using h2))

/-- The case of a primitive type: the run is handed to `zcm_coretypes.h`. -/
theorem encodePrimArray_ok {L : Type} (env : CoreTypes L)
    (hB : EncBounded env) (hS : EncSized env) (tn : String) (sv : Val L) (n : Nat)
    (hwf : wfPrims env tn sv n = true) :
    ∃ P, flattenPrims tn sv = some P ∧
      ∀ buf off len, off < 2 ^ 32 → len < 2 ^ 32 →
        EncFnOK env buf off len P (encodePrimArray env tn buf off len sv n) := by
  cases sv with
  | arr xs => simp [wfPrims] at hwf
  | record fs => simp [wfPrims] at hwf
  | prims xs =>
    simp only [wfPrims, Bool.and_eq_true, decide_eq_true_eq] at hwf
    obtain ⟨hn, hv⟩ := hwf
    refine ⟨[⟨tn, xs, xs.length⟩], rfl, ?_⟩
    intro buf off len hoff _
    rw [hn]
    exact encodePrim_ok env hB hS tn buf off len hoff xs n hn hv

/-- The members of a struct of a schema with usable loop variables have at most 16
axes. -/
theorem loopVarsUsable_mem (zcm : ZCMGen) (h : zcm.loopVarsUsable = true) (tn : String)
    (zs : ZCMStruct) (hf : zcm.findStruct tn = some zs) (zm : ZCMMember)
    (hm : zm ∈ zs.members) : zm.dimensions.length ≤ 16 := by
  have hzs : zs ∈ zcm.structs := List.mem_of_find?_eq_some hf
  simp only [ZCMGen.loopVarsUsable, List.all_eq_true, decide_eq_true_eq] at h
  exact h zs hzs zm hm

/-- The leaf symbols of a struct of a schema with defined leaf symbols: the option is
off, or the member has a primitive type. -/
theorem leafSymbolsDefined_mem (zcm : ZCMGen) (little : Bool)
    (h : zcm.leafSymbolsDefined little = true) (tn : String)
    (zs : ZCMStruct) (hf : zcm.findStruct tn = some zs) (zm : ZCMMember)
    (hm : zm ∈ zs.members) : little = false ∨ zcm.findStruct zm.type.nameUnderscore = none := by
  have hzs : zs ∈ zcm.structs := List.mem_of_find?_eq_some hf
  cases little with
  | false => exact Or.inl rfl
  | true =>
    simp only [ZCMGen.leafSymbolsDefined, Bool.not_true, Bool.false_or, List.all_eq_true,
      Option.isNone_iff_eq_none] at h
    exact Or.inr (h zs hzs zm hm)

/-- A defined leaf symbol of the encoder is the function without infix. -/
theorem encode_array_le {L : Type} (env : CoreTypes L) (zcm : ZCMGen) (little : Bool)
    (fuel : Nat) (tn : String) (h : little = false ∨ zcm.findStruct tn = none) :
    encode_array env zcm little fuel little tn = encode_array env zcm little fuel false tn := by
  rcases h with h | h
  · rw [h]
  · funext buf off len sv n
    cases fuel <;> simp only [encode_array, h]

/-- The block of one member handles the leaf runs of the member. -/
theorem encodeMember_ok {L : Type} (env : CoreTypes L)
    (wbelow : String → Val L → Nat → Bool)
    (fbelow : String → Val L → Option (List (LeafRun L))) (little : Bool)
    (callee : Bool → String → Buf → Nat → Nat → Val L → Nat → Option (EncOut L))
    (zs : ZCMStruct) (off len : Nat) (hlen : len < 2 ^ 32) (fs : List (Val L)) (zm : ZCMMember)
    (hrank : zm.dimensions.length ≤ 16)
    (hcallee : ∀ sv n, wbelow zm.type.nameUnderscore sv n = true →
      ∃ P, fbelow zm.type.nameUnderscore sv = some P ∧
        ∀ buf off len, off < 2 ^ 32 → len < 2 ^ 32 →
          EncFnOK env buf off len P (callee little zm.type.nameUnderscore buf off len sv n))
    (hwf : wfMember env wbelow zs fs zm = true) :
    ∃ P, flattenMember fbelow zs fs zm = some P ∧
      EncOK env off len (encodeMember env little callee zs off len fs zm) P := by
  unfold wfMember at hwf
  cases hg : getField zs fs zm.membername with
  | none => rw [hg] at hwf; simp at hwf
  | some x =>
    rw [hg] at hwf
    simp only at hwf
    obtain ⟨P, hP, hok⟩ := arrayLoops_law (encOK_law env off len)
      (makeArraySize env zs zm fs) (wbelow zm.type.nameUnderscore)
      (fbelow zm.type.nameUnderscore) (encodeLeaf env little callee zs off len fs zm)
      (zm.dimensions.length - 1) 0 x (loopsCompile_member zm hrank) hwf
      (fun y e hs he0 he1 hy => by
        obtain ⟨P, hP, hfn⟩ := hcallee y e.toNat hy
        refine ⟨P, hP, ?_⟩
        simp only [Nat.zero_add] at hs
        have : encodeLeaf env little callee zs off len fs zm y =
            encodeStep (fun b o l => callee little zm.type.nameUnderscore b o l y e.toNat)
              off len := by
          funext s1
          simp only [encodeLeaf, hs, toU32_of_range e he0 he1]
        rw [this]
        exact encodeStep_ok env off len hlen _ P (fun b o l ho hl => hfn b o l ho hl))
    refine ⟨P, by simp only [flattenMember, hg]; exact hP, ?_⟩
    have : encodeMember env little callee zs off len fs zm =
        arrayLoops (makeArraySize env zs zm fs) (encodeLeaf env little callee zs off len fs zm)
          (zm.dimensions.length - 1) 0 x := by
      funext s
      simp only [encodeMember, hg]
    rw [this]; exact hok

/-- The generated `__S_encode_array` handles the leaf runs of a well-formed run of
records, if the functions it calls handle those of the members. -/
theorem encodeStructArray_wf_ok {L : Type} (env : CoreTypes L)
    (wbelow : String → Val L → Nat → Bool)
    (fbelow : String → Val L → Option (List (LeafRun L))) (little : Bool)
    (callee : Bool → String → Buf → Nat → Nat → Val L → Nat → Option (EncOut L))
    (zs : ZCMStruct)
    (hrank : ∀ zm, zm ∈ zs.members → zm.dimensions.length ≤ 16)
    (hcallee : ∀ zm, zm ∈ zs.members → ∀ sv n, wbelow zm.type.nameUnderscore sv n = true →
      ∃ P, fbelow zm.type.nameUnderscore sv = some P ∧
        ∀ buf off len, off < 2 ^ 32 → len < 2 ^ 32 →
          EncFnOK env buf off len P (callee little zm.type.nameUnderscore buf off len sv n))
    (sv : Val L) (n : Nat) (hwf : wfRecords env wbelow zs sv n = true) :
    ∃ P, flattenRecords fbelow zs sv = some P ∧
      ∀ buf off len, off < 2 ^ 32 → len < 2 ^ 32 →
        EncFnOK env buf off len P
          (encodeStructArray env little callee zs buf off len sv n) := by
  cases sv with
  | prims xs => simp [wfRecords] at hwf
  | record fs => simp [wfRecords] at hwf
  | arr rs =>
    simp only [wfRecords, Bool.and_eq_true, decide_eq_true_eq, List.all_eq_true] at hwf
    obtain ⟨hn, hall⟩ := hwf
    have key : ∀ off len, len < 2 ^ 32 →
        ∃ P, flattenRecords fbelow zs (Val.arr rs) = some P ∧
          ∀ buf, EncFnOK env buf off len P
            (encodeStructArray env little callee zs buf off len (Val.arr rs) n) := by
      intro off len hlen
      obtain ⟨P, hP, hok⟩ := forLoop_law (encOK_law env off len)
        (flattenRecord fbelow zs)
        (encodeElement env little callee zs off len (Val.arr rs)) rs 0
        (fun j r hr => by
          have hrwf := hall r (List.get?_mem hr)
          cases r with
          | prims xs => simp [wfRecord] at hrwf
          | arr xs => simp [wfRecord] at hrwf
          | record fs =>
            simp only [wfRecord, Bool.and_eq_true, decide_eq_true_eq, List.all_eq_true] at hrwf
            obtain ⟨_, hms⟩ := hrwf
            obtain ⟨P, hP, hok⟩ := forMembers_law (encOK_law env off len)
              (flattenMember fbelow zs fs)
              (encodeMember env little callee zs off len fs) zs.members
              (fun zm hzm => encodeMember_ok env wbelow fbelow little callee zs off len hlen
                fs zm (hrank zm hzm) (hcallee zm hzm) (hms zm hzm))
            refine ⟨P, hP, ?_⟩
            have : encodeElement env little callee zs off len (Val.arr rs) (0 + j) =
                forMembers (encodeMember env little callee zs off len fs) zs.members := by
              funext s
              simp only [encodeElement, Nat.zero_add, hr]
            rw [this]; exact hok)
      refine ⟨P, hP, ?_⟩
      intro buf
      rw [hn] at hok
      exact encodeStructArray_ok env little _ zs buf off len hlen (Val.arr rs) n P hok
    obtain ⟨P, hP, _⟩ := key 0 0 (by norm_num)
    refine ⟨P, hP, ?_⟩
    intro buf off len _ hlen
    obtain ⟨P1, hP1, h1⟩ := key off len hlen
    rw [hP] at hP1
    simp only [Option.some.injEq] at hP1
    subst hP1
    exact h1 buf

/-- The generated encoder of every type of a schema whose generated functions compile and
link handles the flattened field data of a well-formed run: with the fuel that shows the
run well-formed, it returns. -/
theorem encode_array_ok {L : Type} (env : CoreTypes L) (zcm : ZCMGen) (little : Bool)
    (hB : EncBounded env) (hS : EncSized env)
    (hl : zcm.loopVarsUsable = true) (hd : zcm.leafSymbolsDefined little = true) :
    ∀ (fuel : Nat) (tn : String) (sv : Val L) (n : Nat), wf env zcm fuel tn sv n = true →
      ∃ P, flatten zcm fuel tn sv = some P ∧
        ∀ buf off len, off < 2 ^ 32 → len < 2 ^ 32 →
          EncFnOK env buf off len P
            (encode_array env zcm little fuel false tn buf off len sv n) := by
  intro fuel
  induction fuel with
  | zero =>
    intro tn sv n hwf
    simp only [wf] at hwf
    simp only [flatten, encode_array]
    cases hfind : zcm.findStruct tn with
    | none => rw [hfind] at hwf; exact encodePrimArray_ok env hB hS tn sv n hwf
    | some zs => rw [hfind] at hwf; simp at hwf
  | succ fuel ih =>
    intro tn sv n hwf
    simp only [wf] at hwf
    simp only [flatten, encode_array]
    cases hfind : zcm.findStruct tn with
    | none => rw [hfind] at hwf; exact encodePrimArray_ok env hB hS tn sv n hwf
    | some zs =>
      rw [hfind] at hwf
      simp only [Bool.false_eq_true, if_false]
      refine encodeStructArray_wf_ok env (wf env zcm fuel) (flatten zcm fuel) little
        (encode_array env zcm little fuel) zs (loopVarsUsable_mem zcm hl tn zs hfind) ?_ sv n hwf
      intro zm hzm sv1 n1 hw1
      rw [encode_array_le env zcm little fuel _ (leafSymbolsDefined_mem zcm little hd tn zs hfind
        zm hzm)]
      exact ih _ sv1 n1 hw1

/-! ## The size functions -/

theorem sizeOK_law {L : Type} (env : CoreTypes L) :
    BlockLaw (SizeOK env (L := L)) where
  skip := by
    intro sz hsz
    simp only [skipBlock, planSize, Nat.add_zero, Nat.mod_eq_of_lt hsz]
  seq := by
    intro b1 b2 P1 P2 ok1 ok2 sz hsz
    simp only [seqBlock, ok1 sz hsz, ok2 _ (Nat.mod_lt _ (by norm_num)), planSize_append]
    congr 2
    omega

theorem sizeMember_ok {L : Type} (env : CoreTypes L)
    (wbelow : String → Val L → Nat → Bool)
    (fbelow : String → Val L → Option (List (LeafRun L)))
    (callee : String → Val L → Nat → Option Nat)
    (hcallee : ∀ tn sv n, wbelow tn sv n = true →
      ∃ P, fbelow tn sv = some P ∧ callee tn sv n = some (planSize env P % 2 ^ 32))
    (zs : ZCMStruct) (fs : List (Val L)) (zm : ZCMMember)
    (hrank : zm.dimensions.length ≤ 16)
    (hwf : wfMember env wbelow zs fs zm = true) :
    ∃ P, flattenMember fbelow zs fs zm = some P ∧ SizeOK env (sizeMember env callee zs fs zm) P := by
  unfold wfMember at hwf
  cases hg : getField zs fs zm.membername with
  | none => rw [hg] at hwf; simp at hwf
  | some x =>
    rw [hg] at hwf
    simp only at hwf
    obtain ⟨P, hP, hok⟩ := arrayLoops_law (sizeOK_law env)
      (makeArraySize env zs zm fs) (wbelow zm.type.nameUnderscore)
      (fbelow zm.type.nameUnderscore) (sizeLeaf env callee zs fs zm)
      (zm.dimensions.length - 1) 0 x (loopsCompile_member zm hrank) hwf
      (fun y e hs he0 he1 hy => by
        obtain ⟨P, hP, hfn⟩ := hcallee zm.type.nameUnderscore y e.toNat hy
        refine ⟨P, hP, ?_⟩
        simp only [Nat.zero_add] at hs
        intro sz _
        simp only [sizeLeaf, hs, toU32_of_range e he0 he1, hfn]
        congr 2
        omega)
    refine ⟨P, by simp only [flattenMember, hg]; exact hP, ?_⟩
    have : sizeMember env callee zs fs zm =
        arrayLoops (makeArraySize env zs zm fs) (sizeLeaf env callee zs fs zm)
          (zm.dimensions.length - 1) 0 x := by
      funext s
      simp only [sizeMember, hg]
    rw [this]; exact hok

theorem sizeStructArray_ok {L : Type} (env : CoreTypes L)
    (wbelow : String → Val L → Nat → Bool)
    (fbelow : String → Val L → Option (List (LeafRun L)))
    (callee : String → Val L → Nat → Option Nat)
    (hcallee : ∀ tn sv n, wbelow tn sv n = true →
      ∃ P, fbelow tn sv = some P ∧ callee tn sv n = some (planSize env P % 2 ^ 32))
    (zs : ZCMStruct) (hrank : ∀ zm, zm ∈ zs.members → zm.dimensions.length ≤ 16)
    (sv : Val L) (n : Nat) (hwf : wfRecords env wbelow zs sv n = true) :
    ∃ P, flattenRecords fbelow zs sv = some P ∧
      sizeStructArray env callee zs sv n = some (planSize env P % 2 ^ 32) := by
  cases sv with
  | prims xs => simp [wfRecords] at hwf
  | record fs => simp [wfRecords] at hwf
  | arr rs =>
    simp only [wfRecords, Bool.and_eq_true, decide_eq_true_eq, List.all_eq_true] at hwf
    obtain ⟨hn, hall⟩ := hwf
    obtain ⟨P, hP, hok⟩ := forLoop_law (sizeOK_law env)
      (flattenRecord fbelow zs) (sizeElement env callee zs (Val.arr rs)) rs 0
      (fun j r hr => by
        have hrwf := hall r (List.get?_mem hr)
        cases r with
        | prims xs => simp [wfRecord] at hrwf
        | arr xs => simp [wfRecord] at hrwf
        | record fs =>
          simp only [wfRecord, Bool.and_eq_true, decide_eq_true_eq, List.all_eq_true] at hrwf
          obtain ⟨_, hms⟩ := hrwf
          obtain ⟨P, hP, hok⟩ := forMembers_law (sizeOK_law env)
            (flattenMember fbelow zs fs) (sizeMember env callee zs fs) zs.members
            (fun zm hzm => sizeMember_ok env wbelow fbelow callee hcallee zs fs zm
              (hrank zm hzm) (hms zm hzm))
          refine ⟨P, hP, ?_⟩
          have : sizeElement env callee zs (Val.arr rs) (0 + j) =
              forMembers (sizeMember env callee zs fs) zs.members := by
            funext s
            simp only [sizeElement, Nat.zero_add, hr]
          rw [this]; exact hok)
    refine ⟨P, hP, ?_⟩
    rw [hn] at hok
    simp only [sizeStructArray, hok 0 (by norm_num), Nat.zero_add]

/-- The generated size function of every type of a schema with usable loop variables
returns, in `uint32_t`, the bytes of the flattened field data of a well-formed run. -/
theorem encoded_array_size_ok {L : Type} (env : CoreTypes L) (zcm : ZCMGen)
    (hl : zcm.loopVarsUsable = true) :
    ∀ (fuel : Nat) (tn : String) (sv : Val L) (n : Nat), wf env zcm fuel tn sv n = true →
      ∃ P, flatten zcm fuel tn sv = some P ∧
        encoded_array_size env zcm fuel tn sv n = some (planSize env P % 2 ^ 32) := by
  have hprim : ∀ (tn : String) (sv : Val L) (n : Nat), wfPrims env tn sv n = true →
      ∃ P, flattenPrims tn sv = some P ∧
        sizePrimArray env tn sv n = some (planSize env P % 2 ^ 32) := by
    intro tn sv n hwf
    cases sv with
    | arr xs => simp [wfPrims] at hwf
    | record fs => simp [wfPrims] at hwf
    | prims xs =>
      simp only [wfPrims, Bool.and_eq_true, decide_eq_true_eq] at hwf
      refine ⟨[⟨tn, xs, xs.length⟩], rfl, ?_⟩
      simp only [sizePrimArray, planSize, Nat.add_zero, hwf.1]
  intro fuel
  induction fuel with
  | zero =>
    intro tn sv n hwf
    simp only [wf] at hwf
    simp only [flatten, encoded_array_size]
    cases hfind : zcm.findStruct tn with
    | none => rw [hfind] at hwf; exact hprim tn sv n hwf
    | some zs => rw [hfind] at hwf; simp at hwf
  | succ fuel ih =>
    intro tn sv n hwf
    simp only [wf] at hwf
    simp only [flatten, encoded_array_size]
    cases hfind : zcm.findStruct tn with
    | none => rw [hfind] at hwf; exact hprim tn sv n hwf
    | some zs =>
      rw [hfind] at hwf
      exact sizeStructArray_ok env (wf env zcm fuel) (flatten zcm fuel)
        (encoded_array_size env zcm fuel) ih zs (loopVarsUsable_mem zcm hl tn zs hfind) sv n hwf

/-! ## The generated `S_encode` -/

theorem toInt64_range (n : Nat) : -(2 ^ 63) ≤ toInt64 n ∧ toInt64 n < 2 ^ 63 := by
  unfold toInt64
  have : n % 2 ^ 64 < 2 ^ 64 := Nat.mod_lt _ (by norm_num)
  split <;> omega

/-- A call of `__S_get_hash()` returns, whatever the statics hold. -/
theorem get_hash_some (zcm : ZCMGen) (tn : String) (st : HashState) :
    get_hash zcm tn st = some (hashOf zcm tn st, hashAfter zcm tn st) ∧
      -(2 ^ 63) ≤ hashOf zcm tn st ∧ hashOf zcm tn st < 2 ^ 63 := by
  have hex : ∃ h st1, get_hash zcm tn st = some (toInt64 h, st1) := by
    unfold get_hash
    by_cases hc : (st tn).computed = true
    · exact ⟨(st tn).hash, st, by simp only [hc, if_true]⟩
    · obtain ⟨r, hr⟩ := hash_recursive_run_total zcm tn []
      have h0 := hr 0
      simp only [Nat.add_zero] at h0
      refine ⟨toU64 (toInt64 r.value),
        fun n => if n = tn then ⟨true, toU64 (toInt64 r.value)⟩ else st n, ?_⟩
      simp only [hc, hash_recursive, h0, Option.map_some', if_true]
      rfl
  obtain ⟨h, st1, hg⟩ := hex
  simp only [hashOf, hashAfter, hg, true_and]
  exact toInt64_range h

theorem encode_eq {L : Type} (env : CoreTypes L) (zcm : ZCMGen) (little : Bool) (fuel : Nat)
    (tn : String) (st : HashState) (buf : Buf) (offset maxlen : Nat) (p : Val L) :
    encode env zcm little fuel tn st buf offset maxlen p =
      (encReturn (seqBlock
        (encodeStep (fun b o l =>
          some (encodePrim env "int64_t" b o l [env.ofInt (hashOf zcm tn st)] 1)) offset maxlen)
        (encodeStep (fun b o l => encode_array env zcm little fuel false tn b o l (Val.arr [p]) 1)
          offset maxlen) ⟨0, buf, []⟩)).map (fun out => (out, hashAfter zcm tn st)) := by
  unfold encode
  rw [(get_hash_some zcm tn st).1]
  simp only [seqBlock]
  cases h1 : encodeStep (fun b o l =>
      some (encodePrim env "int64_t" b o l [env.ofInt (hashOf zcm tn st)] 1)) offset maxlen
      ⟨0, buf, []⟩ with
  | none => rfl
  | some f =>
    cases f with
    | ret r s => rfl
    | next s =>
      simp only
      cases encReturn (encodeStep
          (fun b o l => encode_array env zcm little fuel false tn b o l (Val.arr [p]) 1)
          offset maxlen s) <;> rfl

/-- What `S_encode` does on a well-formed record, when the generated functions compile
and link: it returns; its result is negative, or
it is 8 plus the bytes of the field data, which then fit `maxlen` and an `int`; the leaf
calls are those of the fingerprint and of the flattened field data, each at the position
and with the remaining length the bytes written so far leave. -/
theorem encode_ok {L : Type} (env : CoreTypes L) (zcm : ZCMGen) (little : Bool)
    (hB : EncBounded env) (hS : EncSized env) (hH : HashLeaf env)
    (hl : zcm.loopVarsUsable = true) (hd : zcm.leafSymbolsDefined little = true)
    (fuel : Nat) (tn : String) (st : HashState) (buf : Buf) (offset maxlen : Nat) (p : Val L)
    (hmax : maxlen < 2 ^ 32) (hwf : wf env zcm fuel tn (Val.arr [p]) 1 = true) :
    ∃ P out, flatten zcm fuel tn (Val.arr [p]) = some P ∧
      encode env zcm little fuel tn st buf offset maxlen p = some (out, hashAfter zcm tn st) ∧
      EncFnOK env buf offset maxlen (⟨"int64_t", [env.ofInt (hashOf zcm tn st)], 1⟩ :: P)
        (some out) ∧
      planSize env (⟨"int64_t", [env.ofInt (hashOf zcm tn st)], 1⟩ :: P) = 8 + planSize env P ∧
      (0 ≤ out.ret → 8 + planSize env P < 2 ^ 31) := by
  obtain ⟨P, hP, hfn⟩ := encode_array_ok env zcm little hB hS hl hd fuel tn (Val.arr [p]) 1 hwf
  obtain ⟨_, hr0, hr1⟩ := get_hash_some zcm tn st
  have hsz : planSize env (⟨"int64_t", [env.ofInt (hashOf zcm tn st)], 1⟩ :: P)
      = 8 + planSize env P := by
    simp only [planSize, (hH (hashOf zcm tn st)).1]
  have hstep1 := encodeStep_ok env offset maxlen hmax
    (fun b o l => some (encodePrim env "int64_t" b o l [env.ofInt (hashOf zcm tn st)] 1))
    [⟨"int64_t", [env.ofInt (hashOf zcm tn st)], 1⟩]
    (fun b o l ho _ => encodePrim_ok env hB hS "int64_t" b o l ho _ 1 rfl
      (by simp only [List.all_cons, List.all_nil, Bool.and_true]
          exact ((hH (hashOf zcm tn st)).2 hr0 hr1).1))
  have hstep2 := encodeStep_ok env offset maxlen hmax
    (fun b o l => encode_array env zcm little fuel false tn b o l (Val.arr [p]) 1) P
    (fun b o l ho hl => hfn b o l ho hl)
  have hseq := (encOK_law env offset maxlen).seq _ _ _ _ hstep1 hstep2
  obtain ⟨⟨out, hout, hrest⟩, hsmall⟩ := encReturn_ok env buf offset maxlen hmax _ _ hseq
  refine ⟨P, out, hP, ?_, ⟨out, rfl, hrest⟩, hsz, ?_⟩
  · rw [encode_eq, hout]; rfl
  · intro h0
    have := hsmall out hout h0
    rw [show ([⟨"int64_t", [env.ofInt (hashOf zcm tn st)], 1⟩] : List (LeafRun L)) ++ P
      = ⟨"int64_t", [env.ofInt (hashOf zcm tn st)], 1⟩ :: P from rfl, hsz] at this
    exact this

/-! ## The integer primitives of the examples meet what is assumed -/

theorem intEnv_bounded : EncBounded intEnv := by
  intro tn buf off len xs n
  simp only [intEnv, intEncodeArray]
  by_cases h : len < primWidth tn * n
  · simp only [h, if_true]
    exact ⟨Or.inl (by norm_num), fun _ _ => trivial⟩
  · simp only [h, if_false]
    refine ⟨Or.inr (by exact_mod_cast Nat.le_of_not_lt h), ?_⟩
    intro i hi
    have : ¬ (off ≤ i ∧ i < off + primWidth tn * n) := by omega
    simp only [this, if_false]

theorem intEnv_sized : EncSized intEnv := by
  intro tn buf off len xs n
  simp only [intEnv, intEncodeArray]
  by_cases h : len < primWidth tn * n
  · simp only [h, if_true]
    exact ⟨fun h0 => absurd h0 (by norm_num), fun h1 _ => absurd h1 (by omega)⟩
  · simp only [h, if_false]
    exact ⟨fun _ => trivial, fun _ _ => by positivity⟩

theorem intEnv_hashLeaf : HashLeaf intEnv := by
  intro h
  refine ⟨by show primWidth "int64_t" * 1 = 8; decide, fun h0 h1 => ⟨?_, rfl⟩⟩
  simp only [intEnv, Bool.and_eq_true, decide_eq_true_eq]
  have : primWidth "int64_t" = 8 := by decide
  rw [this]
  norm_num
  omega

theorem encoded_size_ok {L : Type} (env : CoreTypes L) (zcm : ZCMGen)
    (hl : zcm.loopVarsUsable = true) (fuel : Nat) (tn : String)
    (p : Val L) (hwf : wf env zcm fuel tn (Val.arr [p]) 1 = true) :
    ∃ P, flatten zcm fuel tn (Val.arr [p]) = some P ∧
      encoded_size env zcm fuel tn p = some ((8 + planSize env P) % 2 ^ 32) := by
  obtain ⟨P, hP, hsz⟩ := encoded_array_size_ok env zcm hl fuel tn (Val.arr [p]) 1 hwf
  refine ⟨P, hP, ?_⟩
  simp only [encoded_size, hsz]
  congr 1
  omega

/-- C1, amended. For every struct of a schema whose generated functions compile and link
(no member has more than 16 axes: the loop of depth 15 would declare `int p;`; and under
`little-endian-encoding` no member has a struct type: `__T_encode_little_endian_array` is
defined for no struct) and every well-formed value, when the buffer is large enough and
the encoding is shorter than `2^31` bytes (the result is an `int`), the generated
`S_encode` first encodes the fingerprint returned by `__S_get_hash()` as one
`int64_t` at `offset` with length `maxlen`, then the field data in declaration order
directly after it, every leaf encoder being called with position `offset + pos` and
remaining length `maxlen - pos` for `pos` the bytes written so far, and returns 8 plus
the bytes of the fields. -/
theorem encode_fingerprint_then_members {L : Type} (env : CoreTypes L) (zcm : ZCMGen)
    (little : Bool) (fuel : Nat) (tn : String) (st : HashState) (buf : Buf) (offset maxlen : Nat) (p : Val L)
    (hB : EncBounded env) (hS : EncSized env) (hH : HashLeaf env)
    (hl : zcm.loopVarsUsable = true) (hd : zcm.leafSymbolsDefined little = true)
    (hoff : offset < 2 ^ 32) (hmax : maxlen < 2 ^ 32)
    (hwf : wf env zcm fuel tn (Val.arr [p]) 1 = true) :
    ∃ P, flatten zcm fuel tn (Val.arr [p]) = some P ∧
      (8 + planSize env P ≤ maxlen → 8 + planSize env P < 2 ^ 31 →
        ∃ out c0 rest,
          encode env zcm little fuel tn st buf offset maxlen p = some (out, hashAfter zcm tn st) ∧
          get_hash zcm tn st = some (hashOf zcm tn st, hashAfter zcm tn st) ∧
          out.calls = c0 :: rest ∧
          c0.run = ⟨"int64_t", [env.ofInt (hashOf zcm tn st)], 1⟩ ∧
          c0.offset = offset ∧ c0.maxlen = maxlen ∧ c0.ret = 8 ∧
          rest.map LeafCall.run = P ∧
          TraceOK offset maxlen 0 out.calls ∧
          (∀ c, c ∈ out.calls →
            c.ret = ((env.encodedArraySize c.type c.p c.elements : Nat) : Int)) ∧
          out.ret = ((8 + planSize env P : Nat) : Int)) := by
  obtain ⟨P, out, hP, henc, ⟨out1, hout1, _, htr, hneg, hpos⟩, hsz, _⟩ :=
    encode_ok env zcm little hB hS hH hl hd fuel tn st buf offset maxlen p hmax hwf
  simp only [Option.some.injEq] at hout1
  subst hout1
  refine ⟨P, hP, ?_⟩
  intro hfit hint
  have h0 : 0 ≤ out.ret := by
    by_contra hc
    exact hneg (by omega) ⟨by rw [hsz]; exact hfit, by rw [hsz]; exact hint⟩
  obtain ⟨hret, _, hmap, hrets, _⟩ := hpos h0
  cases hcalls : out.calls with
  | nil => rw [hcalls] at hmap; simp at hmap
  | cons c0 rest =>
    rw [hcalls] at hmap htr hrets
    simp only [List.map_cons, List.cons.injEq] at hmap
    have htr0 := htr
    simp only [TraceOK, Nat.add_zero] at htr0
    refine ⟨out, c0, rest, henc, (get_hash_some zcm tn st).1, hcalls, hmap.1,
      by rw [htr0.1]; exact Nat.mod_eq_of_lt hoff, htr0.2.1, ?_, hmap.2, by rw [hcalls]; exact htr,
      by rw [hcalls]; exact hrets, by rw [hret, hsz]⟩
    have := hrets c0 (List.mem_cons_self _ _)
    have e : c0.run = ⟨c0.type, c0.p, c0.elements⟩ := rfl
    rw [hmap.1] at e
    injection e with e1 e2 e3
    rw [this, ← e1, ← e2, ← e3, (hH _).1]
    rfl

theorem encode_fingerprint_then_members_witness :
    codecSchema.loopVarsUsable = true ∧ codecSchema.leafSymbolsDefined false = true ∧
    wf intEnv codecSchema 1 "blob_t" (Val.arr [blobV]) 1 = true ∧
    ∃ P, flatten codecSchema 1 "blob_t" (Val.arr [blobV]) = some P ∧
      (8 + planSize intEnv P ≤ 100 → 8 + planSize intEnv P < 2 ^ 31 →
        ∃ out c0 rest,
          encode intEnv codecSchema false 1 "blob_t" HashState.init zeroBuf 0 100 blobV
            = some (out, hashAfter codecSchema "blob_t" HashState.init) ∧
          get_hash codecSchema "blob_t" HashState.init
            = some (hashOf codecSchema "blob_t" HashState.init,
                hashAfter codecSchema "blob_t" HashState.init) ∧
          out.calls = c0 :: rest ∧
          c0.run = ⟨"int64_t", [intEnv.ofInt (hashOf codecSchema "blob_t" HashState.init)], 1⟩ ∧
          c0.offset = 0 ∧ c0.maxlen = 100 ∧ c0.ret = 8 ∧
          rest.map LeafCall.run = P ∧
          TraceOK 0 100 0 out.calls ∧
          (∀ c, c ∈ out.calls →
            c.ret = ((intEnv.encodedArraySize c.type c.p c.elements : Nat) : Int)) ∧
          out.ret = ((8 + planSize intEnv P : Nat) : Int)) :=
  ⟨by decide, by decide, by decide,
   encode_fingerprint_then_members intEnv codecSchema false 1 "blob_t" HashState.init zeroBuf
     0 100 blobV intEnv_bounded intEnv_sized intEnv_hashLeaf (by decide) (by decide)
     (by norm_num) (by norm_num) (by decide)⟩

/-- C5. Truncation safety. For every struct of a schema whose generated functions compile
and link (no member has more than 16 axes; under `little-endian-encoding` no member has a
struct type), well-formed value and `maxlen` smaller than `S_encoded_size(v)`, the
generated `S_encode` returns a negative result; at every leaf
encoder call the remaining length passed, added to the bytes already written, is exactly
`maxlen` (never more, never wrapped around), and no byte at or beyond `offset + maxlen`
is changed. The leaf encoders are assumed to fail with a negative result rather than
write past the length they are given, and to return what `encoded_array_size` reports. -/
theorem encode_truncation_safe {L : Type} (env : CoreTypes L) (zcm : ZCMGen)
    (little : Bool) (fuel : Nat) (tn : String) (st : HashState) (buf : Buf) (offset maxlen : Nat) (p : Val L)
    (hB : EncBounded env) (hS : EncSized env) (hH : HashLeaf env)
    (hl : zcm.loopVarsUsable = true) (hd : zcm.leafSymbolsDefined little = true)
    (hmax : maxlen < 2 ^ 32)
    (hwf : wf env zcm fuel tn (Val.arr [p]) 1 = true) :
    ∃ out size, encode env zcm little fuel tn st buf offset maxlen p = some (out, hashAfter zcm tn st) ∧
      encoded_size env zcm fuel tn p = some size ∧
      (maxlen < size → out.ret < 0) ∧
      TraceOK offset maxlen 0 out.calls ∧
      (∀ i, offset + maxlen ≤ i → out.buf i = buf i) := by
  obtain ⟨P, out, hP, henc, ⟨out1, hout1, hfr, htr, _, hpos⟩, hsz, _⟩ :=
    encode_ok env zcm little hB hS hH hl hd fuel tn st buf offset maxlen p hmax hwf
  simp only [Option.some.injEq] at hout1
  subst hout1
  obtain ⟨P1, hP1, hsize⟩ := encoded_size_ok env zcm hl fuel tn p hwf
  rw [hP] at hP1
  simp only [Option.some.injEq] at hP1
  subst hP1
  refine ⟨out, _, henc, hsize, ?_, htr, hfr⟩
  intro hlt
  by_contra hc
  obtain ⟨_, hle, _⟩ := hpos (by omega)
  rw [hsz] at hle
  have : (8 + planSize env P) % 2 ^ 32 ≤ 8 + planSize env P := Nat.mod_le _ _
  omega

theorem encode_truncation_safe_witness :
    codecSchema.loopVarsUsable = true ∧ codecSchema.leafSymbolsDefined false = true ∧
    wf intEnv codecSchema 1 "blob_t" (Val.arr [blobV]) 1 = true ∧
    ∃ out size, encode intEnv codecSchema false 1 "blob_t" HashState.init zeroBuf 0 14 blobV
        = some (out, hashAfter codecSchema "blob_t" HashState.init) ∧
      encoded_size intEnv codecSchema 1 "blob_t" blobV = some size ∧
      (14 < size → out.ret < 0) ∧
      TraceOK 0 14 0 out.calls ∧
      (∀ i, 0 + 14 ≤ i → out.buf i = zeroBuf i) :=
  ⟨by decide, by decide, by decide,
   encode_truncation_safe intEnv codecSchema false 1 "blob_t" HashState.init zeroBuf 0 14 blobV
     intEnv_bounded intEnv_sized intEnv_hashLeaf (by decide) (by decide) (by norm_num)
     (by decide)⟩

/-- C4, amended. Size exactness: for every struct of a schema whose generated functions
compile and link (no member has more than 16 axes; under `little-endian-encoding` no
member has a struct type) and every well-formed value whose encoding is shorter than
`2^31` bytes, `S_encoded_size(v)` (8 plus the leaf encoded sizes)
is the number `S_encode(v)` returns when given a buffer of at least that size, the leaf
encoders returning what `encoded_array_size` reports; for `{int32 x; int32 y}` it is 16
and for `{int32 n; int8 data[n]}` with `n = 3` it is 15. -/
theorem encoded_size_exact {L : Type} (env : CoreTypes L) (zcm : ZCMGen)
    (little : Bool) (fuel : Nat) (tn : String) (st : HashState) (buf : Buf) (offset maxlen : Nat) (p : Val L)
    (hB : EncBounded env) (hS : EncSized env) (hH : HashLeaf env)
    (hl : zcm.loopVarsUsable = true) (hd : zcm.leafSymbolsDefined little = true)
    (hmax : maxlen < 2 ^ 32)
    (hwf : wf env zcm fuel tn (Val.arr [p]) 1 = true) :
    (∃ P size, flatten zcm fuel tn (Val.arr [p]) = some P ∧
      encoded_size env zcm fuel tn p = some size ∧ size = (8 + planSize env P) % 2 ^ 32 ∧
      (8 + planSize env P < 2 ^ 31 → size ≤ maxlen →
        ∃ out, encode env zcm little fuel tn st buf offset maxlen p = some (out, hashAfter zcm tn st) ∧
          out.ret = ((size : Nat) : Int))) ∧
    encoded_size intEnv codecSchema 1 "point_t" pointV = some 16 ∧
    (encode intEnv codecSchema false 1 "point_t" HashState.init zeroBuf 0 16 pointV).map
      (fun r => r.1.ret) = some 16 ∧
    encoded_size intEnv codecSchema 1 "blob_t" blobV = some 15 ∧
    (encode intEnv codecSchema false 1 "blob_t" HashState.init zeroBuf 0 15 blobV).map
      (fun r => r.1.ret) = some 15 := by
  refine ⟨?_, by decide, by decide, by decide, by decide⟩
  obtain ⟨P, out, hP, henc, ⟨out1, hout1, _, _, hneg, hpos⟩, hsz, _⟩ :=
    encode_ok env zcm little hB hS hH hl hd fuel tn st buf offset maxlen p hmax hwf
  simp only [Option.some.injEq] at hout1
  subst hout1
  obtain ⟨P1, hP1, hsize⟩ := encoded_size_ok env zcm hl fuel tn p hwf
  rw [hP] at hP1
  simp only [Option.some.injEq] at hP1
  subst hP1
  refine ⟨P, _, hP, hsize, rfl, ?_⟩
  intro hint hfit
  have hmod : (8 + planSize env P) % 2 ^ 32 = 8 + planSize env P := Nat.mod_eq_of_lt (by omega)
  rw [hmod] at hfit ⊢
  have h0 : 0 ≤ out.ret := by
    by_contra hc
    exact hneg (by omega) ⟨by rw [hsz]; exact hfit, by rw [hsz]; exact hint⟩
  obtain ⟨hret, _⟩ := hpos h0
  exact ⟨out, henc, by rw [hret, hsz]⟩

theorem encoded_size_exact_witness :
    codecSchema.loopVarsUsable = true ∧ codecSchema.leafSymbolsDefined false = true ∧
    wf intEnv codecSchema 1 "blob_t" (Val.arr [blobV]) 1 = true ∧
    ((∃ P size, flatten codecSchema 1 "blob_t" (Val.arr [blobV]) = some P ∧
      encoded_size intEnv codecSchema 1 "blob_t" blobV = some size ∧
      size = (8 + planSize intEnv P) % 2 ^ 32 ∧
      (8 + planSize intEnv P < 2 ^ 31 → size ≤ 15 →
        ∃ out, encode intEnv codecSchema false 1 "blob_t" HashState.init zeroBuf 0 15 blobV
            = some (out, hashAfter codecSchema "blob_t" HashState.init) ∧
          out.ret = ((size : Nat) : Int))) ∧
    encoded_size intEnv codecSchema 1 "point_t" pointV = some 16 ∧
    (encode intEnv codecSchema false 1 "point_t" HashState.init zeroBuf 0 16 pointV).map
      (fun r => r.1.ret) = some 16 ∧
    encoded_size intEnv codecSchema 1 "blob_t" blobV = some 15 ∧
    (encode intEnv codecSchema false 1 "blob_t" HashState.init zeroBuf 0 15 blobV).map
      (fun r => r.1.ret) = some 15) :=
  ⟨by decide, by decide, by decide,
   encoded_size_exact intEnv codecSchema false 1 "blob_t" HashState.init zeroBuf 0 15 blobV
     intEnv_bounded intEnv_sized intEnv_hashLeaf (by decide) (by decide) (by norm_num)
     (by decide)⟩

/-! ## Schemas whose generated functions do not compile or link -/

/-- The value of `deep_t` is well-formed. -/
theorem deepV_wf : wf intEnv deepSchema 1 "deep_t" (Val.arr [deepV]) 1 = true := by
  decide

/-- The blocks of the 17 axes of `deep_t.cells` declare `int p;` at depth 15: with any
option and any fuel `deep_t_encode` has no behaviour. -/
theorem deep_encode_none (little : Bool) (fuel : Nat) :
    encode intEnv deepSchema little fuel "deep_t" HashState.init zeroBuf 0 100 deepV = none := by
  cases little <;> cases fuel <;> rfl

/-- Nor has `deep_t_encoded_size`. -/
theorem deep_size_none (fuel : Nat) :
    encoded_size intEnv deepSchema fuel "deep_t" deepV = none := by
  cases fuel <;> rfl

/-- The value of `outer_t` is well-formed. -/
theorem outerV_wf : wf intEnv pairSchema 2 "outer_t" (Val.arr [outerV]) 1 = true := by
  decide

/-- Under `little-endian-encoding` the encoder of `outer_t { inner_t i; }` names
`__inner_t_encode_little_endian_array`, which no file defines: with any fuel
`outer_t_encode` has no behaviour. -/
theorem outer_little_encode_none (fuel : Nat) :
    encode intEnv pairSchema true fuel "outer_t" HashState.init zeroBuf 0 100 outerV = none := by
  rcases fuel with _ | _ | fuel <;> rfl

/-- Without the option `outer_t_encode` writes the 12 bytes of the value, and
`outer_t_encoded_size` is 12 with or without it. -/
theorem outer_encode_plain :
    (encode intEnv pairSchema false 2 "outer_t" HashState.init zeroBuf 0 100 outerV).map
      (fun r => r.1.ret) = some 12 ∧
    encoded_size intEnv pairSchema 2 "outer_t" outerV = some 12 := by
  decide

/-! ## The large example -/

theorem bigValue_wf (n : Nat) (hn : (n : Int) < 2 ^ 31) :
    wf intEnv bigSchema 1 "big_t" (Val.arr [bigValue n]) 1 = true := by
  have hfind : bigSchema.findStruct "big_t" = some bigT := by decide
  have h8 : bigSchema.findStruct "int8_t" = none := by decide
  have h32 : bigSchema.findStruct "int32_t" = none := by decide
  have hw8 : primWidth "int8_t" = 1 := by decide
  have hw32 : primWidth "int32_t" = 4 := by decide
  have hrun : wf intEnv bigSchema 0 "int8_t" (Val.prims (List.replicate n (0 : Int)))
      ((n : Int)).toNat = true := by
    simp only [wf, h8, wfPrims, Bool.and_eq_true, decide_eq_true_eq, List.length_replicate,
      Int.toNat_ofNat, List.all_eq_true, true_and]
    intro x hx
    rw [List.eq_of_mem_replicate hx]
    simp only [intEnv, hw8]
    decide
  have hnn : wf intEnv bigSchema 0 "int32_t" (Val.prims [(n : Int)]) ((1 : Int)).toNat = true := by
    simp only [wf, h32, wfPrims, intEnv, hw32, List.all_cons, List.all_nil, Bool.and_true,
      Bool.and_eq_true, decide_eq_true_eq, List.length_singleton, Int.toNat_one, true_and]
    constructor <;> omega
  have hm1 : wfMember intEnv (wf intEnv bigSchema 0) bigT
      [Val.prims [(n : Int)], Val.prims (List.replicate n 0),
        Val.prims (List.replicate n 0)] (scalar "int32_t" "n") = true := by
    have hg : getField bigT [Val.prims [(n : Int)], Val.prims (List.replicate n 0),
        Val.prims (List.replicate n 0)] (scalar "int32_t" "n").membername
        = some (Val.prims [(n : Int)]) := rfl
    have hs : makeArraySize intEnv bigT (scalar "int32_t" "n")
        [Val.prims [(n : Int)], Val.prims (List.replicate n 0),
          Val.prims (List.replicate n 0)] 0 = some 1 := rfl
    simp only [wfMember, hg, wfLoops, hs]
    simp only [Bool.and_eq_true, decide_eq_true_eq]
    exact ⟨⟨by norm_num, by norm_num⟩, hnn⟩
  have hm2 : ∀ name, name = "a" ∨ name = "b" →
      wfMember intEnv (wf intEnv bigSchema 0) bigT
      [Val.prims [(n : Int)], Val.prims (List.replicate n 0),
        Val.prims (List.replicate n 0)]
      (array "int8_t" name [⟨ZCMDimensionMode.ZCM_VAR, "n"⟩]) = true := by
    intro name hname
    have hg : getField bigT [Val.prims [(n : Int)], Val.prims (List.replicate n 0),
        Val.prims (List.replicate n 0)]
        (array "int8_t" name [⟨ZCMDimensionMode.ZCM_VAR, "n"⟩]).membername
        = some (Val.prims (List.replicate n 0)) := by
      rcases hname with rfl | rfl <;> rfl
    have hs : makeArraySize intEnv bigT (array "int8_t" name [⟨ZCMDimensionMode.ZCM_VAR, "n"⟩])
        [Val.prims [(n : Int)], Val.prims (List.replicate n 0),
          Val.prims (List.replicate n 0)] 0 = some (n : Int) := rfl
    simp only [wfMember, hg, wfLoops, hs]
    simp only [Bool.and_eq_true, decide_eq_true_eq]
    exact ⟨⟨by omega, hn⟩, hrun⟩
  have hmem : bigT.members = [scalar "int32_t" "n",
      array "int8_t" "a" [⟨ZCMDimensionMode.ZCM_VAR, "n"⟩],
      array "int8_t" "b" [⟨ZCMDimensionMode.ZCM_VAR, "n"⟩]] := rfl
  rw [wf]
  simp only [hfind, wfRecords, wfRecord, bigValue, List.length_singleton, decide_True,
    Bool.true_and, List.all_cons, List.all_nil, Bool.and_true, List.length_cons, List.length_nil,
    hmem, hm1, hm2 "a" (Or.inl rfl), hm2 "b" (Or.inr rfl)]

theorem bigValue_flatten (n : Nat) :
    flatten (L := Int) bigSchema 1 "big_t" (Val.arr [bigValue n]) =
      some [⟨"int32_t", [(n : Int)], 1⟩,
        ⟨"int8_t", List.replicate n 0, (List.replicate n (0 : Int)).length⟩,
        ⟨"int8_t", List.replicate n 0, (List.replicate n (0 : Int)).length⟩] := rfl

theorem bigValue_size (n : Nat) :
    planSize intEnv [⟨"int32_t", [(n : Int)], 1⟩,
        ⟨"int8_t", List.replicate n 0, (List.replicate n (0 : Int)).length⟩,
        ⟨"int8_t", List.replicate n 0, (List.replicate n (0 : Int)).length⟩]
      = 4 + n + n := by
  have h1 : primWidth "int32_t" = 4 := by decide
  have h2 : primWidth "int8_t" = 1 := by decide
  simp only [planSize, intEnv, List.length_replicate, h1, h2]
  omega

/-- `S_encode` of a value of `big_t` with `2^31` bytes or more does not return a byte
count, whatever the buffer. -/
theorem bigValue_encode_negative (n maxlen : Nat) (hn : (n : Int) < 2 ^ 31)
    (hbig : 2 ^ 31 ≤ 8 + (4 + n + n)) (hmax : maxlen < 2 ^ 32) :
    ∃ out st, encode intEnv bigSchema false 1 "big_t" HashState.init zeroBuf 0 maxlen (bigValue n)
        = some (out, st) ∧ out.ret < 0 := by
  obtain ⟨P, out, hP, henc, _, _, hsmall⟩ :=
    encode_ok intEnv bigSchema false intEnv_bounded intEnv_sized intEnv_hashLeaf
      (by decide) (by decide) 1 "big_t"
      HashState.init zeroBuf 0 maxlen (bigValue n) hmax (bigValue_wf n hn)
  rw [bigValue_flatten] at hP
  simp only [Option.some.injEq] at hP
  subst hP
  rw [bigValue_size] at hsmall
  refine ⟨out, _, henc, ?_⟩
  by_contra hc
  have := hsmall (by omega)
  omega

theorem bigValue_encoded_size (n : Nat) (hn : (n : Int) < 2 ^ 31) :
    encoded_size intEnv bigSchema 1 "big_t" (bigValue n) = some ((8 + (4 + n + n)) % 2 ^ 32) := by
  obtain ⟨P, hP, hsize⟩ := encoded_size_ok intEnv bigSchema (by decide) 1 "big_t" (bigValue n) (bigValue_wf n hn)
  rw [bigValue_flatten] at hP
  simp only [Option.some.injEq] at hP
  subst hP
  rw [hsize, bigValue_size]

/-- C1, counterexample. The value `{n: 2^30, a: 2^30 bytes, b: 2^30 bytes}` of
`big_t { int32_t n; int8_t a[n]; int8_t b[n]; }` is well-formed and its encoding takes
`8 + 4 + 2^31` bytes; with a buffer of `2^32 - 1` bytes, which is large enough, the
generated `S_encode` returns a negative `int` and not 8 plus the bytes of the fields.
For `deep_t`, whose member has 17 axes, the loop of depth 15 declares `int p;` around the
leaf statement that reads `p[element]`: `deep_t_encode` does not compile and returns
nothing for the well-formed value of `deep_t`. For `outer_t { inner_t i; }` under
`little-endian-encoding` the leaf statement names `__inner_t_encode_little_endian_array`,
which no file defines: `outer_t_encode` does not link and returns nothing, while without
the option it writes the 12 bytes of the value. -/
theorem encode_large_value_negative :
    wf intEnv bigSchema 1 "big_t" (Val.arr [bigV]) 1 = true ∧
    (∃ P, flatten (L := Int) bigSchema 1 "big_t" (Val.arr [bigV]) = some P ∧
      8 + planSize intEnv P = 8 + (4 + bigN + bigN) ∧ 8 + (4 + bigN + bigN) ≤ 2 ^ 32 - 1) ∧
    (∃ out st, encode intEnv bigSchema false 1 "big_t" HashState.init zeroBuf 0 (2 ^ 32 - 1) bigV
        = some (out, st) ∧ out.ret < 0) ∧
    thinCells.dimensions.length = 17 ∧
    wf intEnv deepSchema 1 "deep_t" (Val.arr [deepV]) 1 = true ∧
    (∀ little fuel,
      encode intEnv deepSchema little fuel "deep_t" HashState.init zeroBuf 0 100 deepV = none) ∧
    wf intEnv pairSchema 2 "outer_t" (Val.arr [outerV]) 1 = true ∧
    (∀ fuel,
      encode intEnv pairSchema true fuel "outer_t" HashState.init zeroBuf 0 100 outerV = none) ∧
    (encode intEnv pairSchema false 2 "outer_t" HashState.init zeroBuf 0 100 outerV).map
      (fun r => r.1.ret) = some 12 :=
  ⟨bigValue_wf bigN (by decide),
   ⟨_, bigValue_flatten bigN, by rw [bigValue_size], by decide⟩,
   bigValue_encode_negative bigN (2 ^ 32 - 1) (by decide) (by decide) (by norm_num),
   by decide, deepV_wf, deep_encode_none, outerV_wf, outer_little_encode_none,
   outer_encode_plain.1⟩

/-- C4, counterexample. For the value `{n: 2^30, a: 2^30 bytes, b: 2^30 bytes}` of `big_t`
`S_encoded_size` is `2^31 + 12`, and `S_encode` given a buffer of exactly that size
returns a negative `int`, not the size. For `deep_t`, whose member has 17 axes, neither
`deep_t_encoded_size` nor `deep_t_encode` compiles (the loop of depth 15 declares
`int p;`): there are no two numbers to compare. For `outer_t { inner_t i; }` under
`little-endian-encoding`, `outer_t_encoded_size` is 12 but `outer_t_encode` names the
undefined `__inner_t_encode_little_endian_array` and returns nothing. -/
theorem encoded_size_large_value_differs :
    wf intEnv bigSchema 1 "big_t" (Val.arr [bigV]) 1 = true ∧
    encoded_size intEnv bigSchema 1 "big_t" bigV = some ((8 + (4 + bigN + bigN)) % 2 ^ 32) ∧
    (8 + (4 + bigN + bigN)) % 2 ^ 32 = 2 ^ 31 + 12 ∧
    (∃ out st, encode intEnv bigSchema false 1 "big_t" HashState.init zeroBuf 0 (2 ^ 31 + 12)
        bigV = some (out, st) ∧ out.ret < 0) ∧
    wf intEnv deepSchema 1 "deep_t" (Val.arr [deepV]) 1 = true ∧
    (∀ fuel, encoded_size intEnv deepSchema fuel "deep_t" deepV = none) ∧
    (∀ little fuel,
      encode intEnv deepSchema little fuel "deep_t" HashState.init zeroBuf 0 100 deepV = none) ∧
    wf intEnv pairSchema 2 "outer_t" (Val.arr [outerV]) 1 = true ∧
    encoded_size intEnv pairSchema 2 "outer_t" outerV = some 12 ∧
    (∀ fuel,
      encode intEnv pairSchema true fuel "outer_t" HashState.init zeroBuf 0 100 outerV
        = none) := by
  obtain ⟨out, st, henc, hneg⟩ :=
    bigValue_encode_negative bigN (2 ^ 31 + 12) (by decide) (by decide) (by norm_num)
  exact ⟨bigValue_wf bigN (by decide), bigValue_encoded_size bigN (by decide), by decide,
    ⟨out, st, henc, hneg⟩, deepV_wf, deep_size_none, deep_encode_none, outerV_wf,
    outer_encode_plain.2, outer_little_encode_none⟩

/-! ## The decoder: storage and loops -/

theorem fit_length {L : Type} (n : Nat) (xs : List (Val L)) : (fit n xs).length = n := by
  simp [fit]

theorem bindAll_cons_some {α β : Type} {f : α → Option (List β)} {x : α} {rest : List α}
    {P : List β} (h : bindAll f (x :: rest) = some P) :
    ∃ P1 P2, f x = some P1 ∧ bindAll f rest = some P2 ∧ P = P1 ++ P2 := by
  simp only [bindAll] at h
  cases h1 : f x with
  | none => rw [h1] at h; simp at h
  | some P1 =>
    rw [h1] at h
    cases h2 : bindAll f rest with
    | none => rw [h2] at h; simp at h
    | some P2 =>
      rw [h2] at h
      simp only [Option.some.injEq] at h
      exact ⟨P1, P2, rfl, rfl, h.symm⟩

theorem decPre_append {L : Type} {env : CoreTypes L} {buf : Buf} {offset maxlen : Nat}
    {P1 P2 : List (LeafRun L)} {s : DecSt} (h : DecPre env buf offset maxlen (P1 ++ P2) s) :
    DecPre env buf offset maxlen P1 s ∧
      ∀ ms, DecPre env buf offset maxlen P2 ⟨s.pos + planSize env P1, ms⟩ := by
  obtain ⟨hl, h1, h2, h3⟩ := h
  rw [layout_append] at hl
  rw [planSize_append] at h1 h2 h3
  refine ⟨⟨hl.1, by omega, by omega, by omega⟩, fun ms => ⟨?_, by simp only; omega,
    by simp only; omega, by simp only; omega⟩⟩
  simp only
  rw [← Nat.add_assoc]
  exact hl.2

/-- A loop over the elements of an array decodes the elements one after the other. -/
theorem dec_list_loop {L : Type} (env : CoreTypes L) (buf : Buf) (offset maxlen : Nat)
    (inner : Val L × DecSt → Option (Flow (Val L × DecSt)))
    (f : Val L → Option (List (LeafRun L))) :
    ∀ (vs : List (Val L)) (P : List (LeafRun L)) (done xs : List (Val L)) (s : DecSt),
      bindAll f vs = some P →
      (∀ v, v ∈ vs → ∀ Pv, f v = some Pv → DecOK env buf offset maxlen inner Pv v) →
      xs.length = vs.length → DecPre env buf offset maxlen P s →
      ∃ ms, forLoop (onElement inner) done.length vs.length (done ++ xs, s)
        = some (Flow.next (done ++ vs, ⟨s.pos + planSize env P, s.mallocs ++ ms⟩)) := by
  intro vs
  induction vs with
  | nil =>
    intro P done xs s hP _ hlen _
    simp only [bindAll, Option.some.injEq] at hP
    subst hP
    have : xs = [] := List.length_eq_zero.mp hlen
    subst this
    exact ⟨[], by simp [forLoop, planSize]⟩
  | cons v vs ih =>
    intro P done xs s hP hin hlen hpre
    obtain ⟨P1, P2, hf1, hf2, hPeq⟩ := bindAll_cons_some hP
    subst hPeq
    cases xs with
    | nil => simp at hlen
    | cons x xs =>
      obtain ⟨hpre1, hpre2⟩ := decPre_append hpre
      obtain ⟨ms1, h1⟩ := hin v (List.mem_cons_self _ _) P1 hf1 x s hpre1
      have hget : (done ++ x :: xs).get? done.length = some x := by
        rw [List.get?_eq_getElem?, List.getElem?_append_right (Nat.le_refl _)]
        simp
      have hset : (done ++ x :: xs).set done.length v = (done ++ [v]) ++ xs := by
        simp
      obtain ⟨ms2, h2⟩ := ih P2 (done ++ [v]) xs ⟨s.pos + planSize env P1, s.mallocs ++ ms1⟩ hf2
        (fun w hw => hin w (List.mem_cons_of_mem _ hw)) (by simpa using hlen) (hpre2 _)
      refine ⟨ms1 ++ ms2, ?_⟩
      simp only [List.length_cons, forLoop, onElement, hget, h1, hset]
      simp only [List.length_append, List.length_singleton] at h2
      rw [h2]
      simp only [planSize_append, List.append_assoc, List.singleton_append, Nat.add_assoc]

/-- The decoder loops around a leaf statement store the member, when the memory holds the
leaf runs of a member of the shape its sizes say. -/
theorem decodeLoops_ok {L : Type} (env : CoreTypes L) (buf : Buf) (offset maxlen : Nat)
    (size : Nat → Option Int) (mallocs : Bool) (wleaf : Val L → Nat → Bool)
    (fleaf : Val L → Option (List (LeafRun L)))
    (leaf : Val L × DecSt → Option (Flow (Val L × DecSt))) :
    ∀ (k d : Nat) (v : Val L), loopsCompile k d = true → wfLoops size wleaf k d v = true →
      (∀ x e, size (d + k) = some e → 0 ≤ e → e < 2 ^ 31 → wleaf x e.toNat = true →
        ∀ Px, fleaf x = some Px → DecOK env buf offset maxlen leaf Px x) →
      ∀ P, flatLoops fleaf k v = some P →
        DecOK env buf offset maxlen (decodeLoops size mallocs leaf k d) P v := by
  intro k
  induction k with
  | zero =>
    intro d v _ hwf hleaf P hP old s hpre
    simp only [wfLoops] at hwf
    cases hs : size d with
    | none => rw [hs] at hwf; simp at hwf
    | some e =>
      rw [hs] at hwf
      simp only [Bool.and_eq_true, decide_eq_true_eq] at hwf
      have hok := hleaf v e (by simpa using hs) hwf.1.1 hwf.1.2 hwf.2 P (by simpa [flatLoops] using hP)
      cases mallocs with
      | false =>
        obtain ⟨ms, h⟩ := hok old s hpre
        exact ⟨ms, by simp only [decodeLoops, Bool.false_eq_true, if_false, h]⟩
      | true =>
        obtain ⟨ms, h⟩ := hok junk ⟨s.pos, s.mallocs ++ [e]⟩ hpre
        refine ⟨[e] ++ ms, ?_⟩
        simp only [decodeLoops, if_true, hs, logMalloc, h, List.append_assoc]
  | succ k ih =>
    intro d v hc hwf hleaf P hP old s hpre
    have hc1 : loopsCompile k (d + 1) = true := by
      simp only [loopsCompile, Bool.and_eq_true] at hc
      exact hc.2
    cases v with
    | prims xs => simp [wfLoops] at hwf
    | record fs => simp [wfLoops] at hwf
    | arr vs =>
      simp only [wfLoops] at hwf
      cases hs : size d with
      | none => rw [hs] at hwf; simp at hwf
      | some e =>
        rw [hs] at hwf
        simp only [Bool.and_eq_true, decide_eq_true_eq, List.all_eq_true] at hwf
        obtain ⟨⟨⟨he0, he1⟩, hlen⟩, hall⟩ := hwf
        simp only [flatLoops] at hP
        have hpre1 : DecPre env buf offset maxlen P (logMalloc mallocs e s) := by
          cases mallocs <;> exact hpre
        obtain ⟨ms, h⟩ := dec_list_loop env buf offset maxlen
          (decodeLoops size mallocs leaf k (d + 1)) (flatLoops fleaf k) vs P []
          (loopStorage mallocs e old) (logMalloc mallocs e s) hP
          (fun w hw Pw hPw => ih (d + 1) w hc1 (hall w hw)
            (fun y e1 hs1 => hleaf y e1 (by rwa [show d + (k + 1) = d + 1 + k by omega])) Pw hPw)
          (by rw [loopStorage, fit_length, hlen]) hpre1
        simp only [List.length_nil, List.nil_append] at h
        cases mallocs with
        | false =>
          refine ⟨ms, ?_⟩
          simp only [decodeLoops, hc, ↓reduceIte, hs, ← hlen, h]
          rfl
        | true =>
          refine ⟨[e] ++ ms, ?_⟩
          simp only [decodeLoops, hc, ↓reduceIte, hs, ← hlen, h]
          simp only [logMalloc, if_true, List.append_assoc]

/-- The statement pair around a callee that reads `P` into `v` is a block that does. -/
theorem decodeStep_ok {L : Type} (env : CoreTypes L) (buf : Buf) (offset maxlen : Nat)
    (hmax : maxlen < 2 ^ 32) (callee : Nat → Nat → Val L → Option (DecOut L))
    (P : List (LeafRun L)) (v : Val L) (hcallee : DecFnOK env buf callee P v) :
    DecOK env buf offset maxlen
      (fun t => decodeStep (fun o l => callee o l t.1) offset maxlen t.2) P v := by
  intro old s hpre
  obtain ⟨hl, h1, h2, h3⟩ := hpre
  have ho : (offset + s.pos) % 2 ^ 32 = offset + s.pos := Nat.mod_eq_of_lt (by omega)
  have hlen : (maxlen + 2 ^ 32 - s.pos) % 2 ^ 32 = maxlen - s.pos := by omega
  obtain ⟨ms, h⟩ := hcallee (offset + s.pos) (maxlen - s.pos) old hl (by omega) (by omega)
    (by omega) (by omega)
  refine ⟨ms, ?_⟩
  simp only [decodeStep, ho, hlen, h]
  have hnn : ¬ ((planSize env P : Nat) : Int) < 0 := by omega
  simp only [hnn, if_false, toU32_natCast]
  congr 4
  omega

/-- A call of a leaf decoder of `zcm_coretypes.h` reads the run the memory holds. -/
theorem decodePrim_ok {L : Type} (env : CoreTypes L) (buf : Buf) (tn : String) (xs : List L)
    (n : Nat) :
    DecFnOK env buf (fun off len _ => some (decodePrim env tn buf off len n))
      [⟨tn, xs, n⟩] (Val.prims xs) := by
  intro off len old hl hle hlen _ _
  simp only [Layout, and_true] at hl
  simp only [planSize, Nat.add_zero] at hle ⊢
  have := hl len hle hlen
  simp only at this
  exact ⟨[], by simp only [decodePrim, this]⟩

/-! ## The decoder: members, records, functions -/

theorem fieldIndex_append_left {pre : List ZCMMember} {name : String} {j : Nat}
    (h : fieldIndex pre name = some j) (rest : List ZCMMember) :
    fieldIndex (pre ++ rest) name = some j ∧ j < pre.length := by
  induction pre generalizing j with
  | nil => simp [fieldIndex] at h
  | cons a pre ih =>
    simp only [fieldIndex] at h
    show fieldIndex (a :: (pre ++ rest)) name = some j ∧ j < (a :: pre).length
    simp only [fieldIndex, List.length_cons]
    by_cases hn : a.membername = name
    · simp only [hn, if_true, Option.some.injEq] at h ⊢
      exact ⟨h, by omega⟩
    · simp only [hn, if_false] at h ⊢
      cases hr : fieldIndex pre name with
      | none => rw [hr] at h; simp at h
      | some i =>
        rw [hr] at h
        simp only [Option.some.injEq] at h
        obtain ⟨h1, h2⟩ := ih hr
        rw [h1]
        exact ⟨by simp only [Option.some.injEq]; exact h, by omega⟩

theorem fieldIndex_middle (pre : List ZCMMember) (zm : ZCMMember) (rest : List ZCMMember)
    (hnd : ((pre ++ zm :: rest).map (fun m => m.membername)).Nodup) :
    fieldIndex (pre ++ zm :: rest) zm.membername = some pre.length := by
  induction pre with
  | nil => simp [fieldIndex]
  | cons a pre ih =>
    simp only [List.cons_append, List.map_cons, List.nodup_cons] at hnd
    have hne : a.membername ≠ zm.membername := by
      intro heq
      apply hnd.1
      rw [heq]
      exact List.mem_map.mpr ⟨zm, by simp, rfl⟩
    show fieldIndex (a :: (pre ++ zm :: rest)) zm.membername = some (a :: pre).length
    simp only [fieldIndex, hne, if_false, ih hnd.2, List.length_cons]

/-- The sizes of a member read from a record that agrees with `fs` on the members declared
before it are the sizes read from `fs`. -/
theorem makeArraySize_agree {L : Type} (env : CoreTypes L) (zs : ZCMStruct)
    (pre rest : List ZCMMember) (zm : ZCMMember) (hmem : zs.members = pre ++ rest)
    (hdims : dimsBefore pre zm = true) (cur fs : List (Val L))
    (hagree : ∀ i, i < pre.length → cur.get? i = fs.get? i) :
    makeArraySize env zs zm cur = makeArraySize env zs zm fs := by
  funext d
  simp only [makeArraySize]
  by_cases h0 : zm.dimensions.length = 0
  · simp only [h0, if_true]
  · simp only [h0, if_false]
    cases hd : zm.dimensions.get? d with
    | none => rfl
    | some zd =>
      simp only
      cases hm : zd.mode with
      | ZCM_CONST => rfl
      | ZCM_VAR =>
        simp only [dimsBefore, List.all_eq_true, Bool.or_eq_true, decide_eq_true_eq] at hdims
        have := hdims zd (List.get?_mem hd)
        rw [hm] at this
        simp only [false_or, reduceCtorEq] at this
        obtain ⟨j, hj⟩ := Option.isSome_iff_exists.mp this
        obtain ⟨h1, h2⟩ := fieldIndex_append_left hj rest
        simp only [readInt, getField, hmem, h1, hagree j h2]

/-- The block of one member stores the member, when the members declared before it are
stored. -/
theorem decodeMember_ok {L : Type} (env : CoreTypes L) (buf : Buf)
    (wbelow : String → Val L → Nat → Bool)
    (fbelow : String → Val L → Option (List (LeafRun L)))
    (little : Bool)
    (callee : Bool → String → Nat → Nat → Val L → Nat → Option (DecOut L))
    (zs : ZCMStruct)
    (hrank : ∀ zm, zm ∈ zs.members → zm.dimensions.length ≤ 16)
    (hcallee : ∀ zm, zm ∈ zs.members → ∀ sv n P, wbelow zm.type.nameUnderscore sv n = true →
      fbelow zm.type.nameUnderscore sv = some P →
      DecFnOK env buf (fun o l old => callee little zm.type.nameUnderscore o l old n) P sv)
    (offset maxlen : Nat) (hmax : maxlen < 2 ^ 32)
    (hnd : (zs.members.map (fun m => m.membername)).Nodup)
    (fs : List (Val L)) (hfs : fs.length = zs.members.length)
    (pre rest : List ZCMMember) (zm : ZCMMember) (hmem : zs.members = pre ++ zm :: rest)
    (hdims : dimsBefore pre zm = true)
    (hwf : wfMember env wbelow zs fs zm = true)
    (P : List (LeafRun L)) (hP : flattenMember fbelow zs fs zm = some P)
    (cur : List (Val L)) (hcur : cur.length = fs.length)
    (hagree : ∀ i, i < pre.length → cur.get? i = fs.get? i)
    (s : DecSt) (hpre : DecPre env buf offset maxlen P s) :
    ∃ ms cur1, decodeMember env little callee zs offset maxlen zm (cur, s)
        = some (Flow.next (cur1, ⟨s.pos + planSize env P, s.mallocs ++ ms⟩)) ∧
      cur1.length = fs.length ∧ ∀ i, i < (pre ++ [zm]).length → cur1.get? i = fs.get? i := by
  have hidx : fieldIndex zs.members zm.membername = some pre.length := by
    rw [hmem]; exact fieldIndex_middle pre zm rest (by rw [← hmem]; exact hnd)
  have hzm : zm ∈ zs.members := by rw [hmem]; simp
  have hsz := makeArraySize_agree env zs pre (zm :: rest) zm hmem hdims cur fs hagree
  unfold wfMember at hwf
  unfold flattenMember at hP
  simp only [getField, hidx] at hwf hP
  cases hx : fs.get? pre.length with
  | none => rw [hx] at hwf; simp at hwf
  | some x =>
    rw [hx] at hwf hP
    simp only at hwf hP
    have hok := decodeLoops_ok env buf offset maxlen (makeArraySize env zs zm fs)
      (!zm.isConstantSizeArray) (wbelow zm.type.nameUnderscore)
      (fbelow zm.type.nameUnderscore) (decodeLeaf env little callee zs offset maxlen cur zm)
      (zm.dimensions.length - 1) 0 x (loopsCompile_member zm (hrank zm hzm)) hwf
      (fun y e hs he0 he1 hy Py hPy => by
        simp only [Nat.zero_add] at hs
        have hfn := hcallee zm hzm y e.toNat Py hy hPy
        intro old s1 hpre1
        have := decodeStep_ok env buf offset maxlen hmax _ Py y hfn old s1 hpre1
        simp only [decodeLeaf, hsz, hs, toU32_of_range e he0 he1]
        exact this) P hP
    obtain ⟨ms, h⟩ := hok ((cur.get? pre.length).getD junk) s hpre
    have hlt : pre.length < cur.length := by
      rw [hcur, hfs, hmem]; simp
    refine ⟨ms, cur.set pre.length x, ?_, by simp [hcur], ?_⟩
    · simp only [decodeMember, hidx, hsz, h]
    · intro i hi
      simp only [List.length_append, List.length_singleton] at hi
      by_cases hip : i = pre.length
      · subst hip
        rw [hx]
        simp [List.getElem?_set, hlt]
      · rw [List.get?_eq_getElem?, List.getElem?_set_ne (Ne.symm hip), ← List.get?_eq_getElem?]
        exact hagree i (by omega)

/-- The member blocks of a record, from any member on, store the remaining members. -/
theorem decodeMembers_ok {L : Type} (env : CoreTypes L) (buf : Buf)
    (wbelow : String → Val L → Nat → Bool)
    (fbelow : String → Val L → Option (List (LeafRun L)))
    (little : Bool)
    (callee : Bool → String → Nat → Nat → Val L → Nat → Option (DecOut L))
    (zs : ZCMStruct)
    (hrank : ∀ zm, zm ∈ zs.members → zm.dimensions.length ≤ 16)
    (hcallee : ∀ zm, zm ∈ zs.members → ∀ sv n P, wbelow zm.type.nameUnderscore sv n = true →
      fbelow zm.type.nameUnderscore sv = some P →
      DecFnOK env buf (fun o l old => callee little zm.type.nameUnderscore o l old n) P sv)
    (offset maxlen : Nat) (hmax : maxlen < 2 ^ 32)
    (hnd : (zs.members.map (fun m => m.membername)).Nodup)
    (fs : List (Val L)) (hfs : fs.length = zs.members.length) :
    ∀ (rest pre : List ZCMMember), zs.members = pre ++ rest → extentsBefore pre rest = true →
      (∀ zm, zm ∈ rest → wfMember env wbelow zs fs zm = true) →
      ∀ (P : List (LeafRun L)), bindAll (flattenMember fbelow zs fs) rest = some P →
      ∀ (cur : List (Val L)), cur.length = fs.length →
      (∀ i, i < pre.length → cur.get? i = fs.get? i) →
      ∀ (s : DecSt), DecPre env buf offset maxlen P s →
      ∃ ms, forMembers (decodeMember env little callee zs offset maxlen) rest (cur, s)
        = some (Flow.next (fs, ⟨s.pos + planSize env P, s.mallocs ++ ms⟩)) := by
  intro rest
  induction rest with
  | nil =>
    intro pre hmem _ _ P hP cur hcur hagree s _
    simp only [bindAll, Option.some.injEq] at hP
    subst hP
    have hpl : pre.length = fs.length := by rw [hfs, hmem]; simp
    have : cur = fs := by
      apply List.ext_get? 
      intro i
      by_cases hi : i < pre.length
      · exact hagree i hi
      · rw [List.get?_eq_none.mpr (by omega), List.get?_eq_none.mpr (by omega)]
    subst this
    exact ⟨[], by simp [forMembers, planSize]⟩
  | cons zm rest ih =>
    intro pre hmem hext hwf P hP cur hcur hagree s hpre
    obtain ⟨P1, P2, hf1, hf2, hPeq⟩ := bindAll_cons_some hP
    subst hPeq
    simp only [extentsBefore, Bool.and_eq_true] at hext
    obtain ⟨hpre1, hpre2⟩ := decPre_append hpre
    obtain ⟨ms1, cur1, h1, hlen1, hag1⟩ := decodeMember_ok env buf wbelow fbelow little callee
      zs hrank hcallee offset maxlen hmax hnd fs hfs pre rest zm hmem hext.1 (hwf zm (List.mem_cons_self _ _))
      P1 hf1 cur hcur hagree s hpre1
    obtain ⟨ms2, h2⟩ := ih (pre ++ [zm]) (by rw [hmem]; simp) hext.2
      (fun m hm => hwf m (List.mem_cons_of_mem _ hm)) P2 hf2 cur1 hlen1 hag1
      ⟨s.pos + planSize env P1, s.mallocs ++ ms1⟩ (hpre2 _)
    refine ⟨ms1 ++ ms2, ?_⟩
    simp only [forMembers, h1, h2, planSize_append, List.append_assoc, Nat.add_assoc]

/-- The body of the element loop stores a well-formed record. -/
theorem decodeElement_ok {L : Type} (env : CoreTypes L) (buf : Buf)
    (wbelow : String → Val L → Nat → Bool)
    (fbelow : String → Val L → Option (List (LeafRun L)))
    (little : Bool)
    (callee : Bool → String → Nat → Nat → Val L → Nat → Option (DecOut L))
    (zs : ZCMStruct)
    (hrank : ∀ zm, zm ∈ zs.members → zm.dimensions.length ≤ 16)
    (hcallee : ∀ zm, zm ∈ zs.members → ∀ sv n P, wbelow zm.type.nameUnderscore sv n = true →
      fbelow zm.type.nameUnderscore sv = some P →
      DecFnOK env buf (fun o l old => callee little zm.type.nameUnderscore o l old n) P sv)
    (hzs : zs.sizesFirst = true) (offset maxlen : Nat) (hmax : maxlen < 2 ^ 32)
    (r : Val L) (hwf : wfRecord env wbelow zs r = true)
    (P : List (LeafRun L)) (hP : flattenRecord fbelow zs r = some P) :
    DecOK env buf offset maxlen (decodeElement env little callee zs offset maxlen) P r := by
  cases r with
  | prims xs => simp [wfRecord] at hwf
  | arr xs => simp [wfRecord] at hwf
  | record fs =>
    simp only [wfRecord, Bool.and_eq_true, decide_eq_true_eq, List.all_eq_true] at hwf
    simp only [ZCMStruct.sizesFirst, Bool.and_eq_true, decide_eq_true_eq] at hzs
    simp only [flattenRecord] at hP
    intro old s hpre
    obtain ⟨ms, h⟩ := decodeMembers_ok env buf wbelow fbelow little callee zs hrank hcallee
      offset maxlen hmax
      hzs.1 fs hwf.1 zs.members [] rfl hzs.2 hwf.2 P hP
      (fit zs.members.length (fieldsOf old)) (by rw [fit_length, hwf.1])
      (fun i hi => by simp at hi) s hpre
    exact ⟨ms, by simp only [decodeElement, h]⟩

/-- The generated `__S_decode_array` stores a well-formed run of records, if the functions
it calls store the members. -/
theorem decodeStructArray_ok {L : Type} (env : CoreTypes L) (buf : Buf)
    (wbelow : String → Val L → Nat → Bool)
    (fbelow : String → Val L → Option (List (LeafRun L)))
    (little : Bool)
    (callee : Bool → String → Nat → Nat → Val L → Nat → Option (DecOut L))
    (zs : ZCMStruct)
    (hrank : ∀ zm, zm ∈ zs.members → zm.dimensions.length ≤ 16)
    (hcallee : ∀ zm, zm ∈ zs.members → ∀ sv n P, wbelow zm.type.nameUnderscore sv n = true →
      fbelow zm.type.nameUnderscore sv = some P →
      DecFnOK env buf (fun o l old => callee little zm.type.nameUnderscore o l old n) P sv)
    (hzs : zs.sizesFirst = true)
    (sv : Val L) (n : Nat) (hwf : wfRecords env wbelow zs sv n = true)
    (P : List (LeafRun L)) (hP : flattenRecords fbelow zs sv = some P) :
    DecFnOK env buf (fun o l old => decodeStructArray env little callee zs o l old n) P sv := by
  cases sv with
  | prims xs => simp [wfRecords] at hwf
  | record fs => simp [wfRecords] at hwf
  | arr rs =>
    simp only [wfRecords, Bool.and_eq_true, decide_eq_true_eq, List.all_eq_true] at hwf
    obtain ⟨hn, hall⟩ := hwf
    simp only [flattenRecords] at hP
    intro off len old hl hle hlen hoff hint
    obtain ⟨ms, h⟩ := dec_list_loop env buf off len (decodeElement env little callee zs off len)
      (flattenRecord fbelow zs) rs P [] (fit n (elemsOf old)) ⟨0, []⟩ hP
      (fun r hr Pr hPr => decodeElement_ok env buf wbelow fbelow little callee zs hrank hcallee
        hzs off len
        hlen r (hall r hr) Pr hPr)
      (by rw [fit_length, hn])
      ⟨by simpa using hl, by simpa using hle, by simpa using hoff, by simpa using hint⟩
    simp only [List.length_nil, List.nil_append, hn, Nat.zero_add] at h
    refine ⟨ms, ?_⟩
    simp only [decodeStructArray, h, toInt32_small _ hint]

/-- A defined leaf symbol of the decoder is the function without infix. -/
theorem decode_array_le {L : Type} (env : CoreTypes L) (zcm : ZCMGen) (little : Bool)
    (buf : Buf) (fuel : Nat) (tn : String) (h : little = false ∨ zcm.findStruct tn = none) :
    decode_array env zcm little buf fuel little tn
      = decode_array env zcm little buf fuel false tn := by
  rcases h with h | h
  · rw [h]
  · funext off len sv n
    cases fuel <;> simp only [decode_array, h]

/-- The generated decoder of every type of a schema whose generated functions compile and
link stores a well-formed run from the memory that holds its flattened field data: with
the fuel that shows the run well-formed, it returns. -/
theorem decode_array_ok {L : Type} (env : CoreTypes L) (zcm : ZCMGen) (little : Bool)
    (buf : Buf) (hzcm : zcm.sizesFirst = true)
    (hl : zcm.loopVarsUsable = true) (hd : zcm.leafSymbolsDefined little = true) :
    ∀ (fuel : Nat) (tn : String) (sv : Val L) (n : Nat) (P : List (LeafRun L)),
      wf env zcm fuel tn sv n = true → flatten zcm fuel tn sv = some P →
      DecFnOK env buf (fun o l old => decode_array env zcm little buf fuel false tn o l old n)
        P sv := by
  have prim : ∀ (tn : String) (sv : Val L) (n : Nat) (P : List (LeafRun L)),
      wfPrims env tn sv n = true → flattenPrims tn sv = some P →
      DecFnOK env buf (fun o l _ => some (decodePrim env tn buf o l n)) P sv := by
    intro tn sv n P hwf hP
    cases sv with
    | arr xs => simp [wfPrims] at hwf
    | record fs => simp [wfPrims] at hwf
    | prims xs =>
      simp only [wfPrims, Bool.and_eq_true, decide_eq_true_eq] at hwf
      simp only [flattenPrims, Option.some.injEq] at hP
      subst hP
      rw [← hwf.1]
      exact decodePrim_ok env buf tn xs xs.length
  intro fuel
  induction fuel with
  | zero =>
    intro tn sv n P hwf hP
    simp only [wf] at hwf
    simp only [flatten] at hP
    simp only [decode_array]
    cases hfind : zcm.findStruct tn with
    | none => rw [hfind] at hwf hP; exact prim tn sv n P hwf hP
    | some zs => rw [hfind] at hwf; simp at hwf
  | succ fuel ih =>
    intro tn sv n P hwf hP
    simp only [wf] at hwf
    simp only [flatten] at hP
    simp only [decode_array]
    cases hfind : zcm.findStruct tn with
    | none => rw [hfind] at hwf hP; exact prim tn sv n P hwf hP
    | some zs =>
      rw [hfind] at hwf hP
      have hzs : zs.sizesFirst = true := by
        simp only [ZCMGen.sizesFirst, List.all_eq_true] at hzcm
        exact hzcm zs (findStruct_some hfind).1
      simp only [Bool.false_eq_true, if_false]
      refine decodeStructArray_ok env buf (wf env zcm fuel) (flatten zcm fuel) little
        (decode_array env zcm little buf fuel) zs (loopVarsUsable_mem zcm hl tn zs hfind) ?_
        hzs sv n hwf P hP
      intro zm hzm sv1 n1 P1 hw1 hP1
      rw [decode_array_le env zcm little buf fuel _
        (leafSymbolsDefined_mem zcm little hd tn zs hfind zm hzm)]
      exact ih _ sv1 n1 P1 hw1 hP1

/-! ## The generated `S_decode` -/

/-- What `S_decode` does on memory that holds a fingerprint equal to `__S_get_hash()` and
then the field data of a well-formed record, when the generated functions compile and
link: it returns 8 plus the bytes of the field data and has stored the record. -/
theorem decode_ok {L : Type} (env : CoreTypes L) (zcm : ZCMGen) (little : Bool)
    (hH : HashLeaf env) (hzcm : zcm.sizesFirst = true)
    (hlv : zcm.loopVarsUsable = true) (hdef : zcm.leafSymbolsDefined little = true)
    (fuel : Nat) (tn : String) (st : HashState) (B : Buf)
    (offset maxlen : Nat) (p q : Val L) (P : List (LeafRun L))
    (hwf : wf env zcm fuel tn (Val.arr [p]) 1 = true)
    (hP : flatten zcm fuel tn (Val.arr [p]) = some P)
    (hlay : Layout env B offset (⟨"int64_t", [env.ofInt (hashOf zcm tn st)], 1⟩ :: P))
    (hfit : 8 + planSize env P ≤ maxlen) (hmax : maxlen < 2 ^ 32)
    (hoff : offset + 8 + planSize env P < 2 ^ 32) (hint : 8 + planSize env P < 2 ^ 31) :
    ∃ ms, decode env zcm little fuel tn st B offset maxlen q
      = some (⟨((8 + planSize env P : Nat) : Int), p, ms⟩, hashAfter zcm tn st) := by
  obtain ⟨hg, hr0, hr1⟩ := get_hash_some zcm tn st
  obtain ⟨hsz8, hval⟩ := hH (hashOf zcm tn st)
  have has := (hval hr0 hr1).2
  obtain ⟨hd, hl⟩ := hlay
  simp only [hsz8] at hl
  have hread := hd maxlen (by simp only [hsz8]; omega) hmax
  simp only [hsz8] at hread
  have hfn := decode_array_ok env zcm little B hzcm hlv hdef fuel tn (Val.arr [p]) 1 P hwf hP
  obtain ⟨ms, hms⟩ := decodeStep_ok env B offset maxlen hmax _ P (Val.arr [p]) hfn
    (Val.arr [q]) ⟨8, []⟩ ⟨hl, hfit, by simp only; omega, hint⟩
  refine ⟨ms, ?_⟩
  have ho : (offset + 0) % 2 ^ 32 = offset := Nat.mod_eq_of_lt (by omega)
  have hm : (maxlen + 2 ^ 32 - 0) % 2 ^ 32 = maxlen := by omega
  have h8 : (0 + toU32 ((8 : Nat) : Int)) % 2 ^ 32 = 8 := by
    rw [toU32_natCast]; norm_num
  have hn : ¬ (((8 : Nat) : Int) < 0) := by omega
  dsimp only at hms
  simp only [decode, hg, ho, hm, hread, hn, if_false, has, ne_eq, not_true_eq_false, h8, hms,
    List.nil_append, toInt32_small _ hint]

theorem beNat_congr (f g : Nat → Nat) :
    ∀ w, (∀ k, k < w → f k = g k) → beNat f w = beNat g w := by
  intro w
  induction w with
  | zero => intro _; rfl
  | succ w ih =>
    intro h
    simp only [beNat]
    rw [ih (fun k hk => h k (by omega)), h w (by omega)]

theorem beNat_bytes (u w : Nat) :
    ∀ m, m ≤ w → beNat (fun k => (u / 256 ^ (w - 1 - k)) % 256) m = (u / 256 ^ (w - m)) % 256 ^ m := by
  intro m
  induction m with
  | zero => intro _; simp [beNat, Nat.mod_one]
  | succ m ih =>
    intro hm
    simp only [beNat]
    rw [ih (by omega)]
    have e1 : w - m = (w - 1 - m) + 1 := by omega
    have e2 : w - (m + 1) = w - 1 - m := by omega
    rw [e1, e2, pow_succ, ← Nat.div_div_eq_div_mul, pow_succ, Nat.mul_comm (256 ^ m) 256,
      Nat.mod_mul]
    ring

theorem primWidth_pos (tn : String) : 0 < primWidth tn := by
  unfold primWidth
  split_ifs <;> norm_num

theorem signedOf_byteOf (w : Nat) (hw : 0 < w) (x : Int)
    (h0 : -(2 ^ (8 * w - 1)) ≤ x) (h1 : x < 2 ^ (8 * w - 1)) :
    signedOf w (beNat (byteOf w x) w) = x := by
  have hb : beNat (byteOf w x) w = (x % (256 : Int) ^ w).toNat := by
    have := beNat_bytes (x % (256 : Int) ^ w).toNat w w (Nat.le_refl _)
    simp only [Nat.sub_self, pow_zero, Nat.div_one] at this
    have hlt : (x % (256 : Int) ^ w).toNat < 256 ^ w := by
      have hpos : (0 : Int) < (256 : Int) ^ w := by positivity
      have h2 := Int.emod_lt_of_pos x hpos
      have h3 := Int.emod_nonneg x (ne_of_gt hpos)
      have : ((x % (256 : Int) ^ w).toNat : Int) < ((256 ^ w : Nat) : Int) := by
        rw [Int.toNat_of_nonneg h3]; push_cast; exact h2
      exact_mod_cast this
    rw [Nat.mod_eq_of_lt hlt] at this
    exact this
  rw [hb]
  have hM : (256 : Int) ^ w = 2 * 2 ^ (8 * w - 1) := by
    have : (256 : Int) = 2 ^ 8 := by norm_num
    rw [this, ← pow_mul, ← pow_succ']
    congr 1
    omega
  have hMn : (256 : Nat) ^ w = 2 * 2 ^ (8 * w - 1) := by
    have : (256 : Nat) = 2 ^ 8 := by norm_num
    rw [this, ← pow_mul, ← pow_succ']
    congr 1
    omega
  have hH : (0 : Int) < 2 ^ (8 * w - 1) := by positivity
  unfold signedOf
  by_cases hx : 0 ≤ x
  · have he : x % (256 : Int) ^ w = x := Int.emod_eq_of_lt hx (by rw [hM]; omega)
    rw [he]
    have hlt : 2 * x.toNat < 256 ^ w := by
      have : ((2 * x.toNat : Nat) : Int) < ((256 ^ w : Nat) : Int) := by
        push_cast
        rw [Int.toNat_of_nonneg hx, hM]; omega
      exact_mod_cast this
    rw [if_pos hlt, Int.toNat_of_nonneg hx]
  · have he : x % (256 : Int) ^ w = x + (256 : Int) ^ w := by
      rw [← Int.add_emod_self]
      exact Int.emod_eq_of_lt (by rw [hM]; omega) (by omega)
    rw [he]
    have hnn : 0 ≤ x + (256 : Int) ^ w := by rw [hM]; omega
    have hge : ¬ 2 * (x + (256 : Int) ^ w).toNat < 256 ^ w := by
      intro hc
      have : ((2 * (x + (256 : Int) ^ w).toNat : Nat) : Int) < ((256 ^ w : Nat) : Int) := by
        exact_mod_cast hc
      push_cast at this
      rw [Int.toNat_of_nonneg hnn, hM] at this
      omega
    rw [if_neg hge, Int.toNat_of_nonneg hnn]
    ring

/-- The fixed-width integers of the examples round-trip. -/
theorem intEnv_roundTrip : RoundTrip intEnv := by
  intro tn buf off len xs n hn hvalid henc
  have hw := primWidth_pos tn
  simp only [intEnv, intEncodeArray] at henc ⊢
  by_cases hlen : len < primWidth tn * n
  · simp only [hlen, if_true] at henc
    omega
  · simp only [hlen, if_false]
    refine ⟨?_, ?_⟩
    · intro i hi
      have : ¬ (off ≤ i ∧ i < off + primWidth tn * n) := by omega
      simp only [this, if_false]
    · intro B hB dlen hdl _
      simp only at hdl ⊢
      simp only [intDecodeArray, Nat.not_lt.mpr hdl, if_false, Prod.mk.injEq, true_and]
      apply List.ext_getElem
      · simp [hn]
      · intro j h1 h2
        simp only [List.getElem_map, List.getElem_range]
        have hj : j < n := by rw [← hn]; exact h2
        have hjw : j * primWidth tn + primWidth tn ≤ primWidth tn * n := by
          have := Nat.mul_le_mul_left (primWidth tn) (Nat.succ_le_of_lt hj)
          rw [Nat.mul_succ, Nat.mul_comm (primWidth tn) j] at this
          exact this
        have hbytes : ∀ k, k < primWidth tn →
            B (off + j * primWidth tn + k) = byteOf (primWidth tn) xs[j] k := by
          intro k hk
          rw [hB _ (by omega) (by omega)]
          have hin : off ≤ off + j * primWidth tn + k ∧
              off + j * primWidth tn + k < off + primWidth tn * n := ⟨by omega, by omega⟩
          simp only [hin, and_self, if_true]
          have e : off + j * primWidth tn + k - off = k + primWidth tn * j := by
            rw [Nat.mul_comm]; omega
          rw [e, Nat.add_mul_div_left _ _ hw, Nat.add_mul_mod_self_left, Nat.div_eq_of_lt hk,
            Nat.mod_eq_of_lt hk, Nat.zero_add, List.getD_eq_getElem _ _ h2]
        rw [beNat_congr _ (byteOf (primWidth tn) xs[j]) (primWidth tn) hbytes]
        have hv := List.all_eq_true.mp hvalid xs[j] (List.getElem_mem h2)
        simp only [intEnv, Bool.and_eq_true, decide_eq_true_eq] at hv
        exact signedOf_byteOf (primWidth tn) hw xs[j] hv.1 hv.2

/-- C2. For every struct, whatever the option `little-endian-encoding`, and every memory
whose leading `int64_t` decodes to a value
different from what `__S_get_hash()` returns, the generated `S_decode` returns the
negative result `-1` at once: the record behind `p` is as it was, nothing was allocated,
and `__S_decode_array` is not reached (the function returns with no fuel for it at all),
whatever the rest of the memory holds. -/
theorem decode_rejects_mismatch {L : Type} (env : CoreTypes L) (zcm : ZCMGen)
    (little : Bool) (fuel : Nat) (tn : String) (st : HashState) (buf : Buf) (offset maxlen : Nat) (p : Val L)
    (thislen : Int) (x : L) (hoff : offset < 2 ^ 32) (hmax : maxlen < 2 ^ 32)
    (hread : env.decodeArray "int64_t" buf offset maxlen 1 = (thislen, [x]))
    (hlen : 0 ≤ thislen) (hne : env.asInt x ≠ hashOf zcm tn st) :
    decode env zcm little fuel tn st buf offset maxlen p
      = some (⟨-1, p, []⟩, hashAfter zcm tn st) ∧
    decode env zcm little 0 tn st buf offset maxlen p
      = some (⟨-1, p, []⟩, hashAfter zcm tn st) := by
  have ho : (offset + 0) % 2 ^ 32 = offset := Nat.mod_eq_of_lt (by omega)
  have hm : (maxlen + 2 ^ 32 - 0) % 2 ^ 32 = maxlen := by omega
  have hn : ¬ thislen < 0 := by omega
  have key : ∀ f, decode env zcm little f tn st buf offset maxlen p
      = some (⟨-1, p, []⟩, hashAfter zcm tn st) := by
    intro f
    simp only [decode, (get_hash_some zcm tn st).1, ho, hm, hread, hn, if_false, ne_eq, hne,
      not_false_eq_true, if_true]
  exact ⟨key fuel, key 0⟩

theorem decode_rejects_mismatch_witness :
    (0 : Nat) < 2 ^ 32 ∧ (100 : Nat) < 2 ^ 32 ∧
    intEnv.decodeArray "int64_t" zeroBuf 0 100 1 = (8, [0]) ∧
    intEnv.asInt 0 ≠ hashOf codecSchema "blob_t" HashState.init ∧
    decode intEnv codecSchema false 1 "blob_t" HashState.init zeroBuf 0 100 blobV
      = some (⟨-1, blobV, []⟩, hashAfter codecSchema "blob_t" HashState.init) ∧
    decode intEnv codecSchema false 0 "blob_t" HashState.init zeroBuf 0 100 blobV
      = some (⟨-1, blobV, []⟩, hashAfter codecSchema "blob_t" HashState.init) :=
  ⟨by norm_num, by norm_num, by decide, by decide,
   decode_rejects_mismatch intEnv codecSchema false 1 "blob_t" HashState.init zeroBuf 0 100 blobV 8 0
     (by norm_num) (by norm_num) (by decide) (by norm_num) (by decide)⟩

/-- C3, counterexample. Struct `late_t { int8_t data[n]; int32_t n; }` declares the size
member after the array it measures. The value `{data: [1, 2, 3], n: 3}` has its size
member equal to the length of its array and `S_encode` writes it in 15 bytes; `S_decode`
run on these bytes into a zeroed record reads the extent of `data` from the record
before `n` is decoded: it returns 12, not 15, and the field data of the record it leaves
is an empty `data` and `n = 0x01020300`, not that of the value encoded. For `deep_t`,
whose member has 17 axes (rank above 16), the loop of depth 15 declares `int p;` around
the leaf statement that reads `p[element]`: encoder and decoder do not compile and there
are no bytes to decode. For `outer_t { inner_t i; }`, a nested struct leaf type, under
`little-endian-encoding` the leaf statements name
`__inner_t_encode_little_endian_array` and `__inner_t_decode_little_endian_array`, which
no file defines: there are no bytes either, while without the option the value is
written in 12 bytes. -/
theorem decode_late_extent_differs :
    wf intEnv codecSchema 1 "late_t" (Val.arr [lateV]) 1 = true ∧
    (encode intEnv codecSchema false 1 "late_t" HashState.init zeroBuf 0 100 lateV).map
      (fun r => r.1.ret) = some 15 ∧
    ((encode intEnv codecSchema false 1 "late_t" HashState.init zeroBuf 0 100 lateV).bind
      (fun r => decode intEnv codecSchema false 1 "late_t" HashState.init r.1.buf 0 100 lateZero)).map
      (fun r => (r.1.ret, flatten codecSchema 1 "late_t" (Val.arr [r.1.p])))
      = some (12, some [⟨"int8_t", [], 0⟩, ⟨"int32_t", [16909056], 1⟩]) ∧
    flatten codecSchema 1 "late_t" (Val.arr [lateV])
      = some [⟨"int8_t", [1, 2, 3], 3⟩, ⟨"int32_t", [3], 1⟩] ∧
    wf intEnv deepSchema 1 "deep_t" (Val.arr [deepV]) 1 = true ∧
    (∀ little fuel,
      encode intEnv deepSchema little fuel "deep_t" HashState.init zeroBuf 0 100 deepV = none) ∧
    (∀ little fuel o l,
      decode_array intEnv deepSchema little zeroBuf fuel false "deep_t" o l (Val.arr [deepV]) 1
        = none) ∧
    wf intEnv pairSchema 2 "outer_t" (Val.arr [outerV]) 1 = true ∧
    (∀ fuel,
      encode intEnv pairSchema true fuel "outer_t" HashState.init zeroBuf 0 100 outerV = none) ∧
    (∀ fuel o l,
      decode_array intEnv pairSchema true zeroBuf fuel false "outer_t" o l (Val.arr [outerV]) 1
        = none) ∧
    (encode intEnv pairSchema false 2 "outer_t" HashState.init zeroBuf 0 100 outerV).map
      (fun r => r.1.ret) = some 12 := by
  refine ⟨by decide, by decide, by decide, by decide, deepV_wf, deep_encode_none, ?_, outerV_wf,
    outer_little_encode_none, ?_, outer_encode_plain.1⟩
  · intro little fuel o l
    cases little <;> cases fuel <;> rfl
  · intro fuel o l
    rcases fuel with _ | _ | fuel <;> rfl

/-- C3, amended. Round trip, for schemas in which the size member of every `ZCM_VAR` axis
is declared before the array it measures (and no struct has two members of one name) and
whose generated functions compile and link (no member has more than 16 axes: the loop of
depth 15 would declare `int p;`; under `little-endian-encoding` no member has a struct
type: the symbols `__T_encode_little_endian_array`, `__T_decode_little_endian_array` are
defined for no struct): for every struct (members of up to 16 axes, any mix of
`ZCM_CONST` and `ZCM_VAR` axes, nested struct leaf types when `little-endian-encoding` is
off) and every value whose size members equal its actual array lengths,
`S_encode` returns, with a result that is not negative when the buffer is large enough
and the encoding shorter than `2^31` bytes; and when its result is not negative,
`S_decode` run at the same offset on any memory holding the bytes written, into any
record and with any length that covers them, returns that same number of bytes and
leaves the value that was encoded. The primitive leaf codecs are assumed to round-trip,
and the fingerprint statics to hold only what `__T_get_hash` put there. -/
theorem decode_inverts_encode {L : Type} (env : CoreTypes L) (zcm : ZCMGen)
    (little : Bool) (fuel : Nat) (tn : String) (st st' : HashState) (buf : Buf) (offset maxlen : Nat) (p : Val L)
    (hB : EncBounded env) (hS : EncSized env) (hH : HashLeaf env) (hR : RoundTrip env)
    (hzcm : zcm.sizesFirst = true)
    (hl : zcm.loopVarsUsable = true) (hd : zcm.leafSymbolsDefined little = true)
    (hst : HashState.Sound zcm st) (hst' : HashState.Sound zcm st')
    (hmax : offset + maxlen < 2 ^ 32)
    (hwf : wf env zcm fuel tn (Val.arr [p]) 1 = true) :
    ∃ P out, flatten zcm fuel tn (Val.arr [p]) = some P ∧
      encode env zcm little fuel tn st buf offset maxlen p
        = some (out, hashAfter zcm tn st) ∧
      (8 + planSize env P ≤ maxlen → 8 + planSize env P < 2 ^ 31 →
        out.ret = ((8 + planSize env P : Nat) : Int)) ∧
      (0 ≤ out.ret → ∀ (B : Buf) (maxlen' : Nat) (q : Val L),
        (∀ i, offset ≤ i → i < offset + out.ret.toNat → B i = out.buf i) →
        out.ret.toNat ≤ maxlen' → maxlen' < 2 ^ 32 →
        ∃ ms, decode env zcm little fuel tn st' B offset maxlen' q
          = some (⟨out.ret, p, ms⟩, hashAfter zcm tn st')) := by
  obtain ⟨P, out, hP, henc, ⟨out1, hout1, _, _, hneg, hpos⟩, hsz, hsmall⟩ :=
    encode_ok env zcm little hB hS hH hl hd fuel tn st buf offset maxlen p (by omega) hwf
  simp only [Option.some.injEq] at hout1
  subst hout1
  refine ⟨P, out, hP, henc, ?_, ?_⟩
  · intro hfit hint
    have h0 : 0 ≤ out.ret := by
      by_contra hc
      exact hneg (by omega) ⟨by rw [hsz]; exact hfit, by rw [hsz]; exact hint⟩
    rw [(hpos h0).1, hsz]
  · intro h0 B maxlen' q hB' hfit' hmax'
    obtain ⟨hret, hle, _, _, hrt⟩ := hpos h0
    obtain ⟨_, hwr⟩ := hrt hR hmax
    rw [hsz] at hret hle
    have hrn : out.ret.toNat = 8 + planSize env P := by rw [hret]; omega
    rw [hrn] at hB' hfit'
    have hhash : hashOf zcm tn st = hashOf zcm tn st' := by
      obtain ⟨h1, s1, e1, g1, _⟩ := get_hash_step zcm tn st hst
      obtain ⟨h2, s2, e2, g2, _⟩ := get_hash_step zcm tn st' hst'
      rw [e1] at e2
      simp only [Option.some.injEq] at e2
      subst e2
      simp only [hashOf, g1, g2]
    have hlay := hwr B (by rw [hsz]; exact hB')
    rw [hhash] at hlay
    obtain ⟨ms, hdec⟩ := decode_ok env zcm little hH hzcm hl hd fuel tn st' B offset maxlen' p q P hwf hP hlay
      hfit' hmax' (by omega) (hsmall h0)
    exact ⟨ms, by rw [hdec, hret]⟩

theorem decode_inverts_encode_witness :
    wireSchema.sizesFirst = true ∧ wireSchema.loopVarsUsable = true ∧
    wireSchema.leafSymbolsDefined false = true ∧ (0 : Nat) + 100 < 2 ^ 32 ∧
    wf intEnv wireSchema 1 "blob_t" (Val.arr [blobV]) 1 = true ∧
    ∃ P out, flatten wireSchema 1 "blob_t" (Val.arr [blobV]) = some P ∧
      encode intEnv wireSchema false 1 "blob_t" HashState.init zeroBuf 0 100 blobV
        = some (out, hashAfter wireSchema "blob_t" HashState.init) ∧
      (8 + planSize intEnv P ≤ 100 → 8 + planSize intEnv P < 2 ^ 31 →
        out.ret = ((8 + planSize intEnv P : Nat) : Int)) ∧
      (0 ≤ out.ret → ∀ (B : Buf) (maxlen' : Nat) (q : Val Int),
        (∀ i, 0 ≤ i → i < 0 + out.ret.toNat → B i = out.buf i) →
        out.ret.toNat ≤ maxlen' → maxlen' < 2 ^ 32 →
        ∃ ms, decode intEnv wireSchema false 1 "blob_t" HashState.init B 0 maxlen' q
          = some (⟨out.ret, blobV, ms⟩, hashAfter wireSchema "blob_t" HashState.init)) :=
  ⟨by decide, by decide, by decide, by norm_num, by decide,
   decode_inverts_encode intEnv wireSchema false 1 "blob_t" HashState.init HashState.init
     zeroBuf 0 100 blobV intEnv_bounded intEnv_sized intEnv_hashLeaf intEnv_roundTrip
     (by decide) (by decide) (by decide)
     (sound_init wireSchema) (sound_init wireSchema) (by norm_num) (by decide)⟩

/-- C18. For every struct `S` (C name `tn`) and every chain `p` that does not contain
`S`, the generated `__S_hash_recursive(p)` returns (with fuel for as many nested calls as
the schema has structs, and with any more) the 1-bit left rotation of the wrapping 64-bit
sum of the stored base constant `zs.hash` and one addend per member of `S`, in declaration
order: the call list has one entry per member, primitive-typed or not, repeated types
repeated, each on the chain `p` extended by `S`, and each addend is what the member type's
`hash_recursive` returns on that chain. -/
theorem hash_recursive_sums_members (zcm : ZCMGen) (tn : String) (zs : ZCMStruct)
    (p : List String) (hfind : zcm.findStruct tn = some zs) (hp : tn ∉ p) :
    ∃ r hs, (∀ k, hash_recursive_run zcm (zcm.structs.length + k) tn p = some r) ∧
      r.calls = zs.members.map (fun zm => (zm.type.nameUnderscore, tn :: p)) ∧
      List.Forall₂ (fun zm h => ∀ k,
        hash_recursive zcm (zcm.structs.length + k) zm.type.nameUnderscore (tn :: p) = some h)
        zs.members hs ∧
      r.value = rotl1 (wrapSum hs (zs.hash % 2 ^ 64)) := by
  obtain ⟨r, hr⟩ := hash_recursive_run_total zcm tn p
  obtain ⟨hcalls, hs, hfa, hval⟩ := hash_recursive_run_inv hfind hp (hr 1)
  refine ⟨r, hs, hr, hcalls, ?_, ?_⟩
  · refine forall2_imp_of_mem hfa ?_
    intro zm h _ hh k
    unfold hash_recursive at hh ⊢
    cases hrun : hash_recursive_run zcm zcm.structs.length zm.type.nameUnderscore (tn :: p) with
    | none => rw [hrun] at hh; simp at hh
    | some r1 =>
      rw [hrun] at hh
      rw [hash_recursive_run_add zcm _ _ _ r1 hrun k]
      exact hh
  · rw [hval]
    exact hashMix_rotl1_aux _ (wrapSum_lt hs _ (Nat.mod_lt _ (by norm_num)))

theorem hash_recursive_sums_members_witness :
    hashSchema.findStruct "node_t" = some nodeT ∧ "node_t" ∉ ["outer_t"] ∧
    ∃ r hs, (∀ k, hash_recursive_run hashSchema (hashSchema.structs.length + k) "node_t"
        ["outer_t"] = some r) ∧
      r.calls = nodeT.members.map (fun zm => (zm.type.nameUnderscore, "node_t" :: ["outer_t"])) ∧
      List.Forall₂ (fun zm h => ∀ k,
        hash_recursive hashSchema (hashSchema.structs.length + k) zm.type.nameUnderscore
          ("node_t" :: ["outer_t"]) = some h) nodeT.members hs ∧
      r.value = rotl1 (wrapSum hs (nodeT.hash % 2 ^ 64)) :=
  ⟨by decide, by decide,
   hash_recursive_sums_members hashSchema "node_t" nodeT ["outer_t"] (by decide) (by decide)⟩

/-! ## `emitC` and the regeneration gate -/

/-- The loop of `emitC` treats the artifacts of the structs one after the other, each
behind the gate. -/
theorem emitCLoop_eq (gopt : GetOpt) (w : World) :
    ∀ l : List ZCMStruct, emitCLoop gopt w l = runArtifacts w (artifactsWithLines gopt l) := by
  intro l
  induction l with
  | nil => rfl
  | cons zs rest ih =>
    have hcons : artifactsWithLines gopt (zs :: rest) =
        (zs.zcmfile, (artifactNames gopt zs).1, emitStructHeaderLines gopt zs) ::
        (zs.zcmfile, (artifactNames gopt zs).2, emitStructSourceLines gopt zs) ::
          artifactsWithLines gopt rest := by
      simp [artifactsWithLines]
    rw [hcons]
    simp only [emitCLoop, runArtifacts, ih]
    by_cases hq : w.needsGeneration zs.zcmfile (artifactNames gopt zs).1 = true <;>
    by_cases hg : w.good (artifactNames gopt zs).1 = true <;>
    by_cases cq : w.needsGeneration zs.zcmfile (artifactNames gopt zs).2 = true <;>
    by_cases cg : w.good (artifactNames gopt zs).2 = true <;>
    simp [gatedArtifact, emitStructHeader, emitStructSource, hq, hg, cq, cg]

/-- What a run of gated artifacts does: it asks about the artifacts in order, each once,
up to the first emitter that does not open; it does emission work only on a path it
asked about and was told to generate; it returns 0 or, right after the emitter that did
not open, `-1`. -/
theorem runArtifacts_spec (w : World) :
    ∀ l : List (String × String × List Line),
      ((runArtifacts w l).2.filterMap EmitEvent.query <+: l.map (fun a => (a.1, a.2.1))) ∧
      ((runArtifacts w l).1 = 0 →
        (runArtifacts w l).2.filterMap EmitEvent.query = l.map (fun a => (a.1, a.2.1))) ∧
      (∀ e, e ∈ (runArtifacts w l).2 → ∀ p, e.work = some p →
        ∃ z, EmitEvent.needsGeneration z p ∈ (runArtifacts w l).2 ∧
          w.needsGeneration z p = true) ∧
      ((runArtifacts w l).1 = 0 ∨
        ((runArtifacts w l).1 = -1 ∧ ∃ p, w.good p = false ∧
          (runArtifacts w l).2.getLast? = some (EmitEvent.openEmitter p))) ∧
      ((∀ p, w.good p = true) → (runArtifacts w l).1 = 0) := by
  intro l
  induction l with
  | nil =>
    refine ⟨by simp [runArtifacts], fun _ => by simp [runArtifacts], ?_, Or.inl rfl, fun _ => rfl⟩
    intro e he
    simp [runArtifacts] at he
  | cons a rest ih =>
    obtain ⟨ih1, ih2, ih3, ih4, ih5⟩ := ih
    obtain ⟨z, p, lines⟩ := a
    by_cases hq : w.needsGeneration z p = true
    · by_cases hg : w.good p = true
      · have hrun : runArtifacts w ((z, p, lines) :: rest) =
            ((runArtifacts w rest).1,
             [EmitEvent.needsGeneration z p, EmitEvent.makeDirsForFile p,
               EmitEvent.openEmitter p, EmitEvent.write p lines] ++ (runArtifacts w rest).2) := by
          simp [runArtifacts, gatedArtifact, hq, hg]
        rw [hrun]
        refine ⟨?_, ?_, ?_, ?_, ?_⟩
        · simpa [EmitEvent.query, List.prefix_cons_inj] using ih1
        · intro h0
          simpa [EmitEvent.query] using ih2 h0
        · intro e he q hw
          simp only [List.cons_append, List.nil_append, List.mem_cons] at he
          rcases he with rfl | rfl | rfl | rfl | he
          · simp [EmitEvent.work] at hw
          · simp only [EmitEvent.work, Option.some.injEq] at hw
            subst hw
            exact ⟨z, by simp, hq⟩
          · simp only [EmitEvent.work, Option.some.injEq] at hw
            subst hw
            exact ⟨z, by simp, hq⟩
          · simp only [EmitEvent.work, Option.some.injEq] at hw
            subst hw
            exact ⟨z, by simp, hq⟩
          · obtain ⟨z1, hz1, hz2⟩ := ih3 e he q hw
            exact ⟨z1, by simp [hz1], hz2⟩
        · rcases ih4 with h0 | ⟨h1, q, hq1, hq2⟩
          · exact Or.inl h0
          · refine Or.inr ⟨h1, q, hq1, ?_⟩
            simp only
            rw [List.getLast?_append, hq2]
            rfl
        · exact ih5
      · have hrun : runArtifacts w ((z, p, lines) :: rest) =
            (-1, [EmitEvent.needsGeneration z p, EmitEvent.makeDirsForFile p,
               EmitEvent.openEmitter p]) := by
          simp [runArtifacts, gatedArtifact, hq, hg]
        rw [hrun]
        refine ⟨?_, ?_, ?_, ?_, ?_⟩
        · simp [EmitEvent.query, List.prefix_cons_inj]
        · intro h0
          simp at h0
        · intro e he q hw
          simp only [List.mem_cons, List.mem_singleton, List.not_mem_nil, or_false] at he
          rcases he with rfl | rfl | rfl
          · simp [EmitEvent.work] at hw
          · simp only [EmitEvent.work, Option.some.injEq] at hw
            subst hw
            exact ⟨z, by simp, hq⟩
          · simp only [EmitEvent.work, Option.some.injEq] at hw
            subst hw
            exact ⟨z, by simp, hq⟩
        · exact Or.inr ⟨rfl, p, by simpa using hg, by simp⟩
        · intro hall
          exact absurd (hall p) hg
    · have hrun : runArtifacts w ((z, p, lines) :: rest) =
          ((runArtifacts w rest).1,
           [EmitEvent.needsGeneration z p] ++ (runArtifacts w rest).2) := by
        simp [runArtifacts, gatedArtifact, hq]
      rw [hrun]
      refine ⟨?_, ?_, ?_, ?_, ?_⟩
      · simpa [EmitEvent.query, List.prefix_cons_inj] using ih1
      · intro h0
        simpa [EmitEvent.query] using ih2 h0
      · intro e he q hw
        simp only [List.cons_append, List.nil_append, List.mem_cons] at he
        rcases he with rfl | he
        · simp [EmitEvent.work] at hw
        · obtain ⟨z1, hz1, hz2⟩ := ih3 e he q hw
          exact ⟨z1, by simp [hz1], hz2⟩
      · rcases ih4 with h0 | ⟨h1, q, hq1, hq2⟩
        · exact Or.inl h0
        · refine Or.inr ⟨h1, q, hq1, ?_⟩
          simp only
          rw [List.getLast?_append, hq2]
          rfl
      · exact ih5

theorem artifacts_eq (gopt : GetOpt) (zcm : ZCMGen) :
    (artifactsWithLines gopt zcm.structs).map (fun a => (a.1, a.2.1)) = artifacts gopt zcm := by
  simp [artifactsWithLines, artifacts, List.map_flatMap]

/-- C14. The function `emitC` consults `needsGeneration` once per output artifact, for
the header and then the source of each struct in schema order (all of them when it
returns 0, those up to the failure otherwise); it makes a directory, opens an emitter or
writes only for a path it has asked about and been told to generate, so an artifact whose
predicate is false gets no emission work at all; and it returns 0 unless an emitter fails
to open, in which case that is the last thing it does and it returns the error `-1`. -/
theorem emitC_consults_gate (gopt : GetOpt) (w : World) (zcm : ZCMGen) :
    emitC gopt w zcm = runArtifacts w (artifactsWithLines gopt zcm.structs) ∧
    ((emitC gopt w zcm).2.filterMap EmitEvent.query <+: artifacts gopt zcm) ∧
    ((emitC gopt w zcm).1 = 0 →
      (emitC gopt w zcm).2.filterMap EmitEvent.query = artifacts gopt zcm) ∧
    (∀ e, e ∈ (emitC gopt w zcm).2 → ∀ p, e.work = some p →
      ∃ z, EmitEvent.needsGeneration z p ∈ (emitC gopt w zcm).2 ∧
        w.needsGeneration z p = true) ∧
    (∀ p, (∀ z, w.needsGeneration z p = false) →
      ∀ e, e ∈ (emitC gopt w zcm).2 → e.work ≠ some p) ∧
    ((emitC gopt w zcm).1 = 0 ∨
      ((emitC gopt w zcm).1 = -1 ∧ ∃ p, w.good p = false ∧
        (emitC gopt w zcm).2.getLast? = some (EmitEvent.openEmitter p))) ∧
    ((∀ p, w.good p = true) → (emitC gopt w zcm).1 = 0) := by
  have heq : emitC gopt w zcm = runArtifacts w (artifactsWithLines gopt zcm.structs) :=
    emitCLoop_eq gopt w zcm.structs
  obtain ⟨h1, h2, h3, h4, h5⟩ := runArtifacts_spec w (artifactsWithLines gopt zcm.structs)
  rw [artifacts_eq] at h1 h2
  rw [heq]
  refine ⟨rfl, h1, h2, h3, ?_, h4, h5⟩
  intro p hp e he hw
  obtain ⟨z, _, hz⟩ := h3 e he p hw
  rw [hp z] at hz
  exact Bool.false_ne_true hz

/-- C15, at the failing input. With `c-hpath = inc` and `c-cpath = src`, the struct
`point_t` has its source artifact named `inc/point_t.c`: `emitC` asks about, makes the
directory for, opens and writes that path, and `getFilepathsC` reports it; the option
`c-cpath` has no effect on either. -/
theorem source_artifact_under_hpath :
    getFilepathsC (pathOpts "inc" "src") ⟨[pointT]⟩ = ["inc/point_t.h", "inc/point_t.c"] ∧
    (emitC (pathOpts "inc" "src") ⟨fun _ _ => true, fun _ => true⟩ ⟨[pointT]⟩).2.filterMap
      EmitEvent.work
      = ["inc/point_t.h", "inc/point_t.h", "inc/point_t.h",
         "inc/point_t.c", "inc/point_t.c", "inc/point_t.c"] ∧
    getFilepathsC (pathOpts "inc" "elsewhere") ⟨[pointT]⟩
      = getFilepathsC (pathOpts "inc" "src") ⟨[pointT]⟩ := by
  refine ⟨by decide, ?_, by decide⟩
  rw [show emitC (pathOpts "inc" "src") ⟨fun _ _ => true, fun _ => true⟩ ⟨[pointT]⟩
    = runArtifacts ⟨fun _ _ => true, fun _ => true⟩
        (artifactsWithLines (pathOpts "inc" "src") [pointT]) from emitCLoop_eq _ _ _]
  simp only [artifactsWithLines, List.flatMap_cons, List.flatMap_nil, List.append_nil,
    List.cons_append, List.nil_append, runArtifacts, gatedArtifact, if_true, ne_eq,
    not_true_eq_false, if_false, List.filterMap_cons, List.filterMap_nil,
    EmitEvent.work, List.filterMap_append, List.singleton_append]
  decide

theorem flatMap_range_succ_left {α : Type} (f : Nat → List α) (k : Nat) :
    (List.range (k + 1)).flatMap f = f 0 ++ (List.range k).flatMap (fun i => f (i + 1)) := by
  rw [List.range_succ_eq_map, List.flatMap_cons, List.flatMap_map]

theorem flatMap_range_succ_right {α : Type} (f : Nat → List α) (k : Nat) :
    (List.range (k + 1)).flatMap f = (List.range k).flatMap f ++ f k := by
  rw [List.range_succ, List.flatMap_append]
  simp

theorem flatMap_range_congr {α : Type} (f g : Nat → List α) (k : Nat)
    (h : ∀ i, i < k → f i = g i) : (List.range k).flatMap f = (List.range k).flatMap g := by
  induction k with
  | zero => rfl
  | succ k ih =>
    rw [flatMap_range_succ_right, flatMap_range_succ_right, ih (fun i hi => h i (by omega)),
      h k (by omega)]

/-- Openings from depth `d` on, a leaf, and closings in the opposite order are a
nesting. -/
theorem nest_eq (pre post : Nat → List Line) (zm : ZCMMember) (leaf : List Line) (n : Nat) :
    ∀ k d, d + k + 1 = n →
      (List.range k).flatMap (fun i => pre (d + i) ++ loopOpen zm (d + i)) ++ pre (d + k) ++ leaf
        ++ (List.range k).flatMap (fun i => post (n - 1 - i) ++ loopClose (n - i)) ++ post d
      = nest pre post zm leaf k d := by
  intro k
  induction k with
  | zero =>
    intro d _
    simp [nest]
  | succ k ih =>
    intro d hd
    have ih1 := ih (d + 1) (by omega)
    rw [flatMap_range_succ_left, flatMap_range_succ_right
      (fun i => post (n - 1 - i) ++ loopClose (n - i))]
    have e1 : n - 1 - k = d + 1 := by omega
    have e2 : n - k = 2 + d := by omega
    have e3 : (fun i => pre (d + (i + 1)) ++ loopOpen zm (d + (i + 1)))
        = (fun i => pre (d + 1 + i) ++ loopOpen zm (d + 1 + i)) := by
      funext i
      rw [show d + (i + 1) = d + 1 + i by omega]
    have e4 : d + (k + 1) = d + 1 + k := by omega
    simp only [nest, ← ih1, e1, e2, e3, e4, Nat.add_zero, List.append_assoc]

/-- The lines of `emitCArrayLoopsStart`, a leaf and the lines of `emitCArrayLoopsEnd`
are a nesting: with `FLAG_EMIT_MALLOCS` every depth is preceded by its allocation, with
`FLAG_EMIT_FREES` every depth is followed by its guarded release. -/
theorem loops_nest (zm : ZCMMember) (nm nm1 : String) (fl fl1 : Nat) (leaf : List Line)
    (hn : zm.dimensions.length ≠ 0) :
    emitCArrayLoopsStart zm nm fl ++ leaf ++ emitCArrayLoopsEnd zm nm1 fl1
      = nest (if hasFlag fl FLAG_EMIT_MALLOCS then allocAt zm nm else noLines)
          (if hasFlag fl1 FLAG_EMIT_FREES then releaseAt zm else noLines) zm leaf
          (zm.dimensions.length - 1) 0 := by
  rw [← nest_eq _ _ zm leaf zm.dimensions.length (zm.dimensions.length - 1) 0 (by omega)]
  simp only [emitCArrayLoopsStart, emitCArrayLoopsEnd, hn, if_false, Nat.zero_add]
  have hs : (List.range (zm.dimensions.length - 1)).flatMap (fun i =>
        (if hasFlag fl FLAG_EMIT_MALLOCS = true then
          [mallocLine zm nm (2 + i) i (zm.dimensions.length - 1 - i)] else []) ++ loopOpen zm i)
      = (List.range (zm.dimensions.length - 1)).flatMap (fun i =>
        (if hasFlag fl FLAG_EMIT_MALLOCS = true then allocAt zm nm else noLines) i
          ++ loopOpen zm i) := by
    apply flatMap_range_congr
    intro i _
    by_cases hf : hasFlag fl FLAG_EMIT_MALLOCS = true <;> simp [hf, allocAt, noLines]
  have he : (List.range (zm.dimensions.length - 1)).flatMap (fun i =>
        (if hasFlag fl1 FLAG_EMIT_FREES = true then
          [freeLine zm (zm.dimensions.length - i + 1) (zm.dimensions.length - 1 - i)] else [])
          ++ loopClose (zm.dimensions.length - i))
      = (List.range (zm.dimensions.length - 1)).flatMap (fun i =>
        (if hasFlag fl1 FLAG_EMIT_FREES = true then releaseAt zm else noLines)
          (zm.dimensions.length - 1 - i) ++ loopClose (zm.dimensions.length - i)) := by
    apply flatMap_range_congr
    intro i hi
    have : zm.dimensions.length - i + 1 = 2 + (zm.dimensions.length - 1 - i) := by omega
    by_cases hf : hasFlag fl1 FLAG_EMIT_FREES = true <;> simp [hf, releaseAt, noLines, this]
  have hl : (if hasFlag fl FLAG_EMIT_MALLOCS = true then
        [mallocLine zm nm (2 + zm.dimensions.length - 1) (zm.dimensions.length - 1) 0] else [])
      = (if hasFlag fl FLAG_EMIT_MALLOCS = true then allocAt zm nm else noLines)
          (zm.dimensions.length - 1) := by
    have : 2 + zm.dimensions.length - 1 = 2 + (zm.dimensions.length - 1) := by omega
    by_cases hf : hasFlag fl FLAG_EMIT_MALLOCS = true <;> simp [hf, allocAt, noLines, this]
  have hf0 : (if hasFlag fl1 FLAG_EMIT_FREES = true then [freeLine zm 2 0] else [])
      = (if hasFlag fl1 FLAG_EMIT_FREES = true then releaseAt zm else noLines) 0 := by
    by_cases hf : hasFlag fl1 FLAG_EMIT_FREES = true <;> simp [hf, releaseAt, noLines]
  rw [hs, he, hl, hf0]
  simp only [List.append_assoc]

/-- A member that is not a constant-size array has an axis. -/
theorem dims_ne_zero_of_variable (zm : ZCMMember) (h : zm.isConstantSizeArray = false) :
    zm.dimensions.length ≠ 0 := by
  intro h0
  have : zm.dimensions = [] := List.length_eq_zero.mp h0
  simp [ZCMMember.isConstantSizeArray, this] at h

/-- Without flags a scalar has no loop lines at all. -/
theorem loops_scalar (zm : ZCMMember) (nm : String) (fl : Nat) (h0 : zm.dimensions.length = 0) :
    emitCArrayLoopsStart zm nm fl = [] ∧ emitCArrayLoopsEnd zm nm fl = [] := by
  simp [emitCArrayLoopsStart, emitCArrayLoopsEnd, h0]

theorem freeLine_ne_brace (zm : ZCMMember) (indent d : Nat) :
    ((freeLine zm indent d).text != "\x7d") = true := by
  simp only [freeLine, bne_iff_ne, ne_eq]
  intro h
  have := congrArg String.data h
  simp [String.data_append] at this

/-- The guarded releases of `emitCArrayLoopsEnd`, in the order printed. -/
theorem frees_order (zm : ZCMMember) :
    ∀ m : Nat,
      ((List.range m).flatMap (fun i =>
          [freeLine zm (2 + (m - i)) (m - i)] ++ loopClose (m + 1 - i))
        ++ [freeLine zm 2 0]).filter (fun l => l.text != "\x7d")
      = (List.range (m + 1)).reverse.map (fun d => freeLine zm (2 + d) d) := by
  intro m
  induction m with
  | zero =>
    simp [freeLine_ne_brace, List.range_succ]
  | succ m ih =>
    rw [flatMap_range_succ_left, List.range_succ (m + 1), List.reverse_append]
    have e : (fun i => [freeLine zm (2 + (m + 1 - (i + 1))) (m + 1 - (i + 1))]
          ++ loopClose (m + 1 + 1 - (i + 1)))
        = (fun i => [freeLine zm (2 + (m - i)) (m - i)] ++ loopClose (m + 1 - i)) := by
      funext i
      rw [show m + 1 - (i + 1) = m - i by omega, show m + 1 + 1 - (i + 1) = m + 1 - i by omega]
    rw [e]
    simp only [Nat.sub_zero, List.append_assoc, List.filter_append, List.reverse_cons,
      List.reverse_nil, List.nil_append, List.map_append, List.map_cons, List.map_nil,
      List.singleton_append]
    rw [← ih]
    simp [List.filter_cons, freeLine_ne_brace, loopClose, List.filter_append]

theorem hasFlag_none (f : Nat) : hasFlag FLAG_NONE f = false := by
  simp [hasFlag, FLAG_NONE]

theorem hasFlag_frees : hasFlag FLAG_EMIT_FREES FLAG_EMIT_FREES = true := by decide

theorem hasFlag_mallocs : hasFlag FLAG_EMIT_MALLOCS FLAG_EMIT_MALLOCS = true := by decide

/-- The member block of the cleanup, as a nesting. -/
theorem cleanup_member_nest (zm : ZCMMember) (hn : zm.dimensions.length ≠ 0) :
    emitCDecodeArrayCleanupMember zm
      = nest noLines (if zm.isConstantSizeArray then noLines else releaseAt zm) zm
          (cleanupLeafLines zm) (zm.dimensions.length - 1) 0 ++ [⟨0, ""⟩] := by
  unfold emitCDecodeArrayCleanupMember
  rw [loops_nest zm "p" "p" _ _ _ hn, hasFlag_none]
  cases hc : zm.isConstantSizeArray
  · simp [hasFlag_frees]
  · simp [hasFlag_none]

/-- The member block of the decoder, as a nesting. -/
theorem decode_member_nest (gopt : GetOpt) (zm : ZCMMember) (hn : zm.dimensions.length ≠ 0) :
    emitCDecodeArrayMember gopt zm
      = nest (if zm.isConstantSizeArray then noLines else allocAt zm "p") noLines zm
          (decodeLeafLines gopt zm) (zm.dimensions.length - 1) 0 ++ [⟨0, ""⟩] := by
  unfold emitCDecodeArrayMember
  rw [loops_nest zm "p" "p" _ _ _ hn, hasFlag_none]
  cases hc : zm.isConstantSizeArray
  · simp [hasFlag_mallocs]
  · simp [hasFlag_none]

/-- The member block of the clone, as a nesting. -/
theorem clone_member_nest (zm : ZCMMember) (hn : zm.dimensions.length ≠ 0) :
    emitCCloneArrayMember zm
      = nest (if zm.isConstantSizeArray then noLines else allocAt zm "q") noLines zm
          (cloneLeafLines zm) (zm.dimensions.length - 1) 0 ++ [⟨0, ""⟩] := by
  unfold emitCCloneArrayMember
  rw [loops_nest zm "q" "p" _ _ _ hn, hasFlag_none]
  cases hc : zm.isConstantSizeArray
  · simp [hasFlag_mallocs]
  · simp [hasFlag_none]

/-- C19. For every variable-shaped member (of `n >= 1` axes) the block the cleanup prints
is a nesting in which every depth `d` is followed by one guarded release
`if (accessor_d) free(accessor_d);`: for the last depth right after the leaf cleanup call,
for a depth with a loop right after the two braces that close this loop, and in both
cases still inside the loops of the depths before `d`. The releases printed by
`emitCArrayLoopsEnd` under `FLAG_EMIT_FREES` are therefore exactly one per depth, in the
order `n-1, ..., 0`. -/
theorem release_pass_inner_first (zm : ZCMMember) (hv : zm.isConstantSizeArray = false) :
    emitCDecodeArrayCleanupMember zm
      = nest noLines (releaseAt zm) zm (cleanupLeafLines zm) (zm.dimensions.length - 1) 0
          ++ [⟨0, ""⟩] ∧
    (emitCArrayLoopsEnd zm "p" FLAG_EMIT_FREES).filter (fun l => l.text != "\x7d")
      = (List.range zm.dimensions.length).reverse.map (fun d => freeLine zm (2 + d) d) ∧
    (∀ d, releaseAt zm d = [⟨2 + d, "if (" ++ makeAccessor zm "p" d ++ ") free("
        ++ makeAccessor zm "p" d ++ ");"⟩]) := by
  have hn := dims_ne_zero_of_variable zm hv
  refine ⟨?_, ?_, fun d => rfl⟩
  · rw [cleanup_member_nest zm hn, hv]
    rfl
  · have hlen : zm.dimensions.length = (zm.dimensions.length - 1) + 1 := by omega
    rw [hlen, ← frees_order zm (zm.dimensions.length - 1)]
    simp only [emitCArrayLoopsEnd, hn, if_false, hasFlag_frees, if_true, ← hlen]
    congr 2
    apply flatMap_range_congr
    intro i hi
    have e1 : zm.dimensions.length - i + 1 = 2 + (zm.dimensions.length - 1 - i) := by omega
    have e2 : zm.dimensions.length - 1 + 1 - i = zm.dimensions.length - i := by omega
    first
      | (rw [e1, e2])
      | (rw [e1])

theorem release_pass_inner_first_witness :
    gridCells.isConstantSizeArray = false ∧
    emitCDecodeArrayCleanupMember gridCells
      = nest noLines (releaseAt gridCells) gridCells (cleanupLeafLines gridCells)
          (gridCells.dimensions.length - 1) 0 ++ [⟨0, ""⟩] ∧
    (emitCArrayLoopsEnd gridCells "p" FLAG_EMIT_FREES).filter (fun l => l.text != "\x7d")
      = (List.range gridCells.dimensions.length).reverse.map
          (fun d => freeLine gridCells (2 + d) d) ∧
    (∀ d, releaseAt gridCells d = [⟨2 + d, "if (" ++ makeAccessor gridCells "p" d ++ ") free("
        ++ makeAccessor gridCells "p" d ++ ");"⟩]) :=
  ⟨by decide, release_pass_inner_first gridCells (by decide)⟩

/-- Without flags `emitCArrayLoopsStart` prints the loop openings only and
`emitCArrayLoopsEnd` the closing braces only, two lines per loop each. -/
theorem loops_plain (zm : ZCMMember) (nm : String) :
    emitCArrayLoopsStart zm nm FLAG_NONE
      = (List.range (zm.dimensions.length - 1)).flatMap (loopOpen zm) ∧
    emitCArrayLoopsEnd zm nm FLAG_NONE
      = (List.range (zm.dimensions.length - 1)).flatMap
          (fun i => loopClose (zm.dimensions.length - i)) := by
  by_cases hn : zm.dimensions.length = 0
  · simp [emitCArrayLoopsStart, emitCArrayLoopsEnd, hn]
  · simp [emitCArrayLoopsStart, emitCArrayLoopsEnd, hn, hasFlag_none]

theorem length_flatMap_two {α : Type} (f : Nat → List α) (h : ∀ i, (f i).length = 2) :
    ∀ k, ((List.range k).flatMap f).length = 2 * k := by
  intro k
  induction k with
  | zero => rfl
  | succ k ih =>
    rw [flatMap_range_succ_right, List.length_append, ih, h]
    omega

/-- A scalar's member blocks are the leaf statement alone. -/
theorem member_blocks_scalar (gopt : GetOpt) (zm : ZCMMember) (h0 : zm.dimensions.length = 0) :
    emitCDecodeArrayMember gopt zm = decodeLeafLines gopt zm ++ [⟨0, ""⟩] ∧
    emitCCloneArrayMember zm = cloneLeafLines zm ++ [⟨0, ""⟩] ∧
    emitCDecodeArrayCleanupMember zm = cleanupLeafLines zm ++ [⟨0, ""⟩] := by
  simp [emitCDecodeArrayMember, emitCCloneArrayMember, emitCDecodeArrayCleanupMember,
    emitCArrayLoopsStart, emitCArrayLoopsEnd, h0]

/-- C20. Allocation and release correspond for every member. For a scalar or
constant-shaped member the blocks of decode, clone and cleanup are a nesting of loops
around the leaf statement with no allocation and no release at any depth. For a
variable-shaped member the block of decode has, at every depth `d` of the nesting
(inside the loops of the depths before it, before the loop of depth `d` opens), exactly
the allocation that assigns `makeAccessor(zm, "p", d)`, and the block of cleanup has at
every depth the guarded release of the same expression `makeAccessor(zm, "p", d)`.
Without flags `emitCArrayLoopsStart` prints two opening lines per loop and
`emitCArrayLoopsEnd` two closing braces per loop, as many as were opened. -/
theorem alloc_release_correspond (gopt : GetOpt) (zm : ZCMMember) :
    (zm.isConstantSizeArray = true →
      emitCDecodeArrayMember gopt zm
        = nest noLines noLines zm (decodeLeafLines gopt zm) (zm.dimensions.length - 1) 0
            ++ [⟨0, ""⟩] ∧
      emitCCloneArrayMember zm
        = nest noLines noLines zm (cloneLeafLines zm) (zm.dimensions.length - 1) 0
            ++ [⟨0, ""⟩] ∧
      emitCDecodeArrayCleanupMember zm
        = nest noLines noLines zm (cleanupLeafLines zm) (zm.dimensions.length - 1) 0
            ++ [⟨0, ""⟩]) ∧
    (zm.isConstantSizeArray = false →
      emitCDecodeArrayMember gopt zm
        = nest (allocAt zm "p") noLines zm (decodeLeafLines gopt zm)
            (zm.dimensions.length - 1) 0 ++ [⟨0, ""⟩] ∧
      emitCDecodeArrayCleanupMember zm
        = nest noLines (releaseAt zm) zm (cleanupLeafLines zm)
            (zm.dimensions.length - 1) 0 ++ [⟨0, ""⟩] ∧
      ∀ d, allocAt zm "p" d = [⟨2 + d, makeAccessor zm "p" d ++ " = ("
            ++ mapTypeName zm.type.fullname
            ++ String.mk (List.replicate (zm.dimensions.length - 1 - d) '*')
            ++ "*) zcm_malloc(sizeof(" ++ mapTypeName zm.type.fullname
            ++ String.mk (List.replicate (zm.dimensions.length - 1 - d) '*') ++ ") * "
            ++ makeArraySizeExpr zm "p" d ++ ");"⟩] ∧
          releaseAt zm d = [⟨2 + d, "if (" ++ makeAccessor zm "p" d ++ ") free("
            ++ makeAccessor zm "p" d ++ ");"⟩]) ∧
    emitCArrayLoopsStart zm "p" FLAG_NONE
      = (List.range (zm.dimensions.length - 1)).flatMap (loopOpen zm) ∧
    emitCArrayLoopsEnd zm "p" FLAG_NONE
      = (List.range (zm.dimensions.length - 1)).flatMap
          (fun i => loopClose (zm.dimensions.length - i)) ∧
    (emitCArrayLoopsStart zm "p" FLAG_NONE).length = 2 * (zm.dimensions.length - 1) ∧
    (emitCArrayLoopsEnd zm "p" FLAG_NONE).length = 2 * (zm.dimensions.length - 1) := by
  obtain ⟨hs, he⟩ := loops_plain zm "p"
  refine ⟨?_, ?_, hs, he, ?_, ?_⟩
  · intro hc
    by_cases hn : zm.dimensions.length = 0
    · obtain ⟨h1, h2, h3⟩ := member_blocks_scalar gopt zm hn
      rw [h1, h2, h3, hn]
      simp [nest, noLines]
    · rw [decode_member_nest gopt zm hn, clone_member_nest zm hn, cleanup_member_nest zm hn, hc]
      simp
  · intro hv
    have hn := dims_ne_zero_of_variable zm hv
    rw [decode_member_nest gopt zm hn, cleanup_member_nest zm hn, hv]
    exact ⟨by simp, by simp, fun d => ⟨rfl, rfl⟩⟩
  · rw [hs]
    exact length_flatMap_two (loopOpen zm) (fun i => rfl) _
  · rw [he]
    exact length_flatMap_two (fun i => loopClose (zm.dimensions.length - i)) (fun i => rfl) _

/-- C17, counterexample. For the member `int8_t data[n]` the clone prints the allocation
`q[element].data = (int8_t*) zcm_malloc(sizeof(int8_t) * q[element].n);`: its size is
read from the copy `q`, not from the source `p` from which the leaf call on the next line
takes the extent, and the two extent expressions differ. -/
theorem clone_alloc_reads_copy :
    emitCCloneArrayMember blobData
      = [⟨2, "q[element].data = (int8_t*) zcm_malloc(sizeof(int8_t) * q[element].n);"⟩,
         ⟨2, "n += __int8_t_clone_array(p[element].data, q[element].data, p[element].n);"⟩,
         ⟨0, ""⟩] ∧
    makeArraySizeExpr blobData "q" 0 = "q[element].n" ∧
    makeArraySizeExpr blobData "p" 0 = "p[element].n" ∧
    emitCCloneArrayMember blobData
      ≠ [⟨2, "q[element].data = (int8_t*) zcm_malloc(sizeof(int8_t) * p[element].n);"⟩,
         ⟨2, "n += __int8_t_clone_array(p[element].data, q[element].data, p[element].n);"⟩,
         ⟨0, ""⟩] := by
  decide

theorem append_left_ne (a b s : String) (h : a.data.head? ≠ b.data.head?)
    (ha : a.data ≠ []) (hb : b.data ≠ []) : a ++ s ≠ b ++ s := by
  intro he
  have hd := congrArg String.data he
  simp only [String.data_append] at hd
  cases hda : a.data with
  | nil => exact ha hda
  | cons x xs =>
    cases hdb : b.data with
    | nil => exact hb hdb
    | cons y ys =>
      rw [hda, hdb] at hd h
      simp only [List.cons_append, List.cons.injEq] at hd
      simp only [List.head?_cons, ne_eq, Option.some.injEq] at h
      exact h hd.1

/-- C17, amended. In the generated clone, for every variable-shaped member, the block is
a nesting in which the storage of the copy at every depth `d` is allocated, before the
loop of that depth opens, with the size `makeArraySize(zm, "q", d)`: the extent
expression of axis `d` applied to the copy `q` that is being built. The loop of depth `d`
is bounded by `makeArraySize(zm, "p", d)`, the extent read from the source, which is the
expression encode, decode, size and cleanup use. For a `ZCM_CONST` axis the two are the
same size token; for a `ZCM_VAR` axis the allocation reads `q[element].<size>` and the
loop `p[element].<size>`, two different expressions. -/
theorem clone_alloc_sized_from_copy (zm : ZCMMember) (hv : zm.isConstantSizeArray = false) :
    emitCCloneArrayMember zm
      = nest (allocAt zm "q") noLines zm (cloneLeafLines zm) (zm.dimensions.length - 1) 0
          ++ [⟨0, ""⟩] ∧
    (∀ d, allocAt zm "q" d = [⟨2 + d, makeAccessor zm "q" d ++ " = ("
          ++ mapTypeName zm.type.fullname
          ++ String.mk (List.replicate (zm.dimensions.length - 1 - d) '*')
          ++ "*) zcm_malloc(sizeof(" ++ mapTypeName zm.type.fullname
          ++ String.mk (List.replicate (zm.dimensions.length - 1 - d) '*') ++ ") * "
          ++ makeArraySizeExpr zm "q" d ++ ");"⟩]) ∧
    (∀ d, loopOpen zm d = [⟨2 + d, "\x7b int " ++ loopVar d ++ ";"⟩,
        ⟨2 + d, "for (" ++ loopVar d ++ " = 0; " ++ loopVar d ++ " < "
          ++ makeArraySizeExpr zm "p" d ++ "; ++" ++ loopVar d ++ ") \x7b"⟩]) ∧
    (∀ d zd, zm.dimensions.get? d = some zd →
      (zd.mode = ZCMDimensionMode.ZCM_CONST →
        makeArraySizeExpr zm "q" d = zd.size ∧ makeArraySizeExpr zm "p" d = zd.size) ∧
      (zd.mode = ZCMDimensionMode.ZCM_VAR →
        makeArraySizeExpr zm "q" d = "q[element]." ++ zd.size ∧
        makeArraySizeExpr zm "p" d = "p[element]." ++ zd.size ∧
        makeArraySizeExpr zm "q" d ≠ makeArraySizeExpr zm "p" d)) := by
  have hn := dims_ne_zero_of_variable zm hv
  refine ⟨?_, fun d => rfl, fun d => rfl, ?_⟩
  · rw [clone_member_nest zm hn, hv]
    rfl
  · intro d zd hd
    refine ⟨fun hm => ?_, fun hm => ?_⟩
    · simp only [makeArraySizeExpr, hn, if_false, hd, hm, and_self]
    · have hq : makeArraySizeExpr zm "q" d = "q[element]." ++ zd.size := by
        simp only [makeArraySizeExpr, hn, if_false, hd, hm]
        rw [show ("q" ++ "[element]." : String) = "q[element]." by decide]
      have hp : makeArraySizeExpr zm "p" d = "p[element]." ++ zd.size := by
        simp only [makeArraySizeExpr, hn, if_false, hd, hm]
        rw [show ("p" ++ "[element]." : String) = "p[element]." by decide]
      refine ⟨hq, hp, ?_⟩
      rw [hq, hp]
      exact append_left_ne _ _ _ (by decide) (by decide) (by decide)

theorem clone_alloc_sized_from_copy_witness :
    blobData.isConstantSizeArray = false ∧
    emitCCloneArrayMember blobData
      = nest (allocAt blobData "q") noLines blobData (cloneLeafLines blobData)
          (blobData.dimensions.length - 1) 0 ++ [⟨0, ""⟩] ∧
    makeArraySizeExpr blobData "q" 0 ≠ makeArraySizeExpr blobData "p" 0 :=
  ⟨by decide, (clone_alloc_sized_from_copy blobData (by decide)).1,
   ((clone_alloc_sized_from_copy blobData (by decide)).2.2.2 0
      ⟨ZCMDimensionMode.ZCM_VAR, "n"⟩ rfl).2 rfl |>.2.2⟩

/-- The accessor of depth `k` of an array member applies the brackets of the loop
variables of the depths before `k`, in order. -/
theorem makeAccessor_brackets (zm : ZCMMember) (nm : String) (hn : zm.dimensions.length ≠ 0) :
    ∀ k, makeAccessor zm nm k = nm ++ "[element]." ++ zm.membername ++ brackets k := by
  intro k
  simp only [makeAccessor, hn, if_false]
  induction k with
  | zero => simp [brackets]
  | succ k ih =>
    rw [List.range_succ, List.foldl_append, ih]
    simp only [List.foldl_cons, List.foldl_nil, brackets, String.append_assoc]

/-- The loop variables of the first 26 depths are the letters `a` to `z`. -/
theorem loopVar_letter :
    ∀ d, d < 26 → (loopVar d).data = [Char.ofNat (97 + d)] ∧
      (Char.ofNat (97 + d)).toNat = 97 + d ∧ (Char.ofNat (97 + d)).isLower = true := by
  decide

theorem loopVar_injective (d e : Nat) (hd : d < 26) (he : e < 26) (h : loopVar d = loopVar e) :
    d = e := by
  obtain ⟨h1, h2, _⟩ := loopVar_letter d hd
  obtain ⟨h3, h4, _⟩ := loopVar_letter e he
  rw [h] at h1
  rw [h3] at h1
  simp only [List.cons.injEq, and_true] at h1
  have := congrArg Char.toNat h1
  omega

theorem loopVar_not_in_scope : ∀ d, d ≤ 12 → loopVar d ∉ scopeNames := by
  decide

/-- C21, counterexample. The member `int8_t cells[2]...[2]` with 17 axes has loops of the
depths 0 to 15. The loop of depth 15 declares `int p;`, the name of the parameter `p` of
every generated array function, and the loop of depth 13 declares `int n;`, the name of
the counter of the clone. The variable of depth 26 is the character after `z`, an opening
brace and no letter, and the variables of the depths 0 and 256 are the same. -/
theorem loop_variable_shadows_parameter :
    deepCells.dimensions.length = 17 ∧
    (⟨17, "\x7b int p;"⟩ : Line) ∈ emitCArrayLoopsStart deepCells "p" FLAG_NONE ∧
    (⟨15, "\x7b int n;"⟩ : Line) ∈ emitCArrayLoopsStart deepCells "q" FLAG_NONE ∧
    loopVar 15 ∈ scopeNames ∧ loopVar 13 ∈ scopeNames ∧
    loopVar 26 = "\x7b" ∧ loopVar 0 = loopVar 256 := by
  decide

/-- C21, amended. For every member with `n` axes, `1 <= n <= 14`, the loop that
`emitCArrayLoopsStart` prints for the depth `d` (`0 <= d <= n-2`) declares the iteration
variable `loopVar d`: the `d`-th lowercase letter counted from `a`, which differs from the
variable of every other depth of the member and from the identifiers in scope in the
generated function (`p`, `q`, `n`, `element`). For a member with any number of axes the
accessor of depth `k` applies exactly the index brackets of the variables of the depths
`0, ..., k-1`, in that order. -/
theorem loop_variables_fresh (zm : ZCMMember) (nm : String) (fl d : Nat)
    (hn : 1 ≤ zm.dimensions.length) (h14 : zm.dimensions.length ≤ 14)
    (hd : d + 2 ≤ zm.dimensions.length) :
    (∀ l, l ∈ loopOpen zm d → l ∈ emitCArrayLoopsStart zm nm fl) ∧
    loopOpen zm d = [⟨2 + d, "\x7b int " ++ loopVar d ++ ";"⟩,
      ⟨2 + d, "for (" ++ loopVar d ++ " = 0; " ++ loopVar d ++ " < "
        ++ makeArraySizeExpr zm "p" d ++ "; ++" ++ loopVar d ++ ") \x7b"⟩] ∧
    (loopVar d).data = [Char.ofNat ('a'.toNat + d)] ∧
    (Char.ofNat ('a'.toNat + d)).isLower = true ∧
    (∀ e, e + 2 ≤ zm.dimensions.length → e ≠ d → loopVar e ≠ loopVar d) ∧
    loopVar d ∉ scopeNames ∧
    (∀ k m, makeAccessor zm m k = m ++ "[element]." ++ zm.membername ++ brackets k) := by
  have hn0 : zm.dimensions.length ≠ 0 := by omega
  obtain ⟨h1, _, h3⟩ := loopVar_letter d (by omega)
  refine ⟨?_, rfl, h1, h3, ?_, loopVar_not_in_scope d (by omega),
    fun k m => makeAccessor_brackets zm m hn0 k⟩
  · intro l hl
    simp only [emitCArrayLoopsStart, hn0, if_false, List.mem_append, List.mem_flatMap,
      List.mem_range]
    exact Or.inl ⟨d, by omega, Or.inr hl⟩
  · intro e he hne heq
    exact hne (loopVar_injective e d (by omega) (by omega) heq)

theorem loop_variables_fresh_witness :
    1 ≤ gridCells.dimensions.length ∧ gridCells.dimensions.length ≤ 14 ∧
    0 + 2 ≤ gridCells.dimensions.length ∧
    (∀ l, l ∈ loopOpen gridCells 0 → l ∈ emitCArrayLoopsStart gridCells "p" FLAG_NONE) ∧
    loopOpen gridCells 0 = [⟨2 + 0, "\x7b int " ++ loopVar 0 ++ ";"⟩,
      ⟨2 + 0, "for (" ++ loopVar 0 ++ " = 0; " ++ loopVar 0 ++ " < "
        ++ makeArraySizeExpr gridCells "p" 0 ++ "; ++" ++ loopVar 0 ++ ") \x7b"⟩] ∧
    (loopVar 0).data = [Char.ofNat ('a'.toNat + 0)] ∧
    (Char.ofNat ('a'.toNat + 0)).isLower = true ∧
    (∀ e, e + 2 ≤ gridCells.dimensions.length → e ≠ 0 → loopVar e ≠ loopVar 0) ∧
    loopVar 0 ∉ scopeNames ∧
    (∀ k m, makeAccessor gridCells m k = m ++ "[element]." ++ gridCells.membername
      ++ brackets k) :=
  ⟨by decide, by decide, by decide,
   loop_variables_fresh gridCells "p" FLAG_NONE 0 (by decide) (by decide) (by decide)⟩

/-- C13, at the failing input. A `blob_t` message `{n: 3, data: [1, 2, 3]}` of 15 bytes
arrives cut to 13 bytes. In the handler stub `S_decode` reads the fingerprint and `n`,
allocates the 3 elements of `data`, fails on the missing bytes and returns `-1`; the stub
returns at once: the user handler is not called, and neither is `S_decode_cleanup`, so
the allocation made by the decoder is never released. On the whole message the stub
calls the decoder, the handler and the cleanup, in this order. -/
theorem handler_stub_skips_cleanup_on_error :
    ((encode intEnv codecSchema false 1 "blob_t" HashState.init zeroBuf 0 15 blobV).bind (fun r =>
      handler_stub intEnv codecSchema false 1 "blob_t" HashState.init blobZero r.1.buf 13)).map
        Prod.fst = some [StubEvent.decode (-1) [3]] ∧
    ((encode intEnv codecSchema false 1 "blob_t" HashState.init zeroBuf 0 15 blobV).bind (fun r =>
      handler_stub intEnv codecSchema false 1 "blob_t" HashState.init blobZero r.1.buf 15)).map
        Prod.fst = some [StubEvent.decode 15 [3], StubEvent.user_handler,
          StubEvent.decode_cleanup] := by
  decide

/-- Where `malloc` returns null, `S_publish` returns `-1` having called neither `S_encode`
nor `zcm_publish`. -/
theorem publish_null_returns {L : Type} (env : CoreTypes L) (zcm : ZCMGen) (little : Bool)
    (fuel : Nat) (tn : String) (st : HashState) (malloc : Nat → Option Buf)
    (zcm_publish : Buf → Nat → Int) (p : Val L) (size : Nat)
    (hsize : encoded_size env zcm fuel tn p = some size) (hnull : malloc size = none) :
    publish env zcm little fuel tn st malloc zcm_publish p
      = some (-1, [PublishEvent.malloc size], st) := by
  simp only [publish, hsize, hnull]

/-- The allocating blocks of decode and clone, for every variable-shaped member: under
`FLAG_EMIT_MALLOCS` every line of `emitCArrayLoopsStart` is an allocation statement or one
of the two lines that open a loop, and the member block is these lines, the leaf
statement, the closing braces and an empty line. No line tests the result of
`zcm_malloc`. -/
theorem alloc_blocks_lines (gopt : GetOpt) (zm : ZCMMember) (nm : String)
    (hv : zm.isConstantSizeArray = false) :
    (∀ l, l ∈ emitCArrayLoopsStart zm nm FLAG_EMIT_MALLOCS →
      (∃ d, l = mallocLine zm nm (2 + d) d (zm.dimensions.length - 1 - d)) ∨
      (∃ d, l ∈ loopOpen zm d)) ∧
    emitCDecodeArrayMember gopt zm
      = emitCArrayLoopsStart zm "p" FLAG_EMIT_MALLOCS ++ decodeLeafLines gopt zm
          ++ emitCArrayLoopsEnd zm "p" FLAG_NONE ++ [⟨0, ""⟩] ∧
    emitCCloneArrayMember zm
      = emitCArrayLoopsStart zm "q" FLAG_EMIT_MALLOCS ++ cloneLeafLines zm
          ++ emitCArrayLoopsEnd zm "p" FLAG_NONE ++ [⟨0, ""⟩] ∧
    (∀ l, l ∈ emitCArrayLoopsEnd zm "p" FLAG_NONE → l.text = "\x7d") := by
  have hn := dims_ne_zero_of_variable zm hv
  refine ⟨?_, ?_, ?_, ?_⟩
  · intro l hl
    simp only [emitCArrayLoopsStart, hn, if_false, hasFlag_mallocs, if_true, List.mem_append,
      List.mem_flatMap, List.mem_range, List.mem_singleton] at hl
    rcases hl with ⟨i, _, hi | hi⟩ | hl
    · exact Or.inl ⟨i, hi⟩
    · exact Or.inr ⟨i, hi⟩
    · refine Or.inl ⟨zm.dimensions.length - 1, ?_⟩
      rw [hl, show 2 + zm.dimensions.length - 1 = 2 + (zm.dimensions.length - 1) by omega,
        Nat.sub_self]
  · simp only [emitCDecodeArrayMember, hv, Bool.false_eq_true, if_false]
  · simp only [emitCCloneArrayMember, hv, Bool.false_eq_true, if_false]
  · intro l hl
    rw [(loops_plain zm "p").2] at hl
    simp only [List.mem_flatMap, List.mem_range, loopClose, List.mem_cons, List.mem_singleton,
      List.not_mem_nil, or_false, or_self] at hl
    obtain ⟨i, _, hi⟩ := hl
    rw [hi]

/-- C12, at the failing input: the code generated for `blob_t { int32_t n; int8_t data[n]; }`.
The decoder block of `data` assigns the result of `zcm_malloc` to `p[element].data` and
hands it to the leaf decoder on the next line; the clone block does the same with
`q[element].data`; `blob_t_copy` passes the result of `malloc` to `__blob_t_clone_array`
on the next line; `blob_t_subscribe` stores through the result of `malloc` on the next
lines. None of them tests the result. The sibling `blob_t_publish` does: it prints
`if (!buf) return -1;` after its `malloc`, and run where `malloc` returns null it returns
`-1` having encoded and published nothing. -/
theorem allocation_results_unchecked :
    emitCDecodeArrayMember (pathOpts "." ".") blobData
      = [⟨2, "p[element].data = (int8_t*) zcm_malloc(sizeof(int8_t) * p[element].n);"⟩,
         ⟨2, "thislen = __int8_t_decode_array(buf, offset + pos, maxlen - pos, "
              ++ "p[element].data, p[element].n);"⟩,
         ⟨2, "if (thislen < 0) return thislen; else pos += thislen;"⟩,
         ⟨0, ""⟩] ∧
    emitCCloneArrayMember blobData
      = [⟨2, "q[element].data = (int8_t*) zcm_malloc(sizeof(int8_t) * q[element].n);"⟩,
         ⟨2, "n += __int8_t_clone_array(p[element].data, q[element].data, p[element].n);"⟩,
         ⟨0, ""⟩] ∧
    emitCCopy blobT
      = [⟨0, "blob_t* blob_t_copy(const blob_t* p)"⟩,
         ⟨0, "\x7b"⟩,
         ⟨1, "blob_t* q = (blob_t*) malloc(sizeof(blob_t));"⟩,
         ⟨1, "__blob_t_clone_array(p, q, 1);"⟩,
         ⟨1, "return q;"⟩,
         ⟨0, "\x7d"⟩,
         ⟨0, ""⟩] ∧
    ((emitCStructSubscribe blobT).drop 30).take 6
      = [⟨0, "    blob_t_subscription_t* n = (blob_t_subscription_t*)"⟩,
         ⟨0, "                       malloc(sizeof(blob_t_subscription_t));"⟩,
         ⟨0, "    n->user_handler = f;"⟩,
         ⟨0, "    n->userdata = userdata;"⟩,
         ⟨0, "    n->z_sub = zcm_subscribe (zcm, channel,"⟩,
         ⟨0, "                              blob_t_handler_stub, n);"⟩] ∧
    ((emitCStructPublish blobT).drop 3).take 2
      = [⟨0, "      uint8_t* buf = (uint8_t*) malloc (max_data_size);"⟩,
         ⟨0, "      if (!buf) return -1;"⟩] ∧
    encoded_size intEnv codecSchema 1 "blob_t" blobV = some 15 ∧
    (publish intEnv codecSchema false 1 "blob_t" HashState.init (fun _ => none) (fun _ _ => 0)
      blobV).map (fun r => (r.1, r.2.1)) = some (-1, [PublishEvent.malloc 15]) := by
  decide

/-! ## Schemas whose generated functions do not compile or link -/

/-- Under `little-endian-encoding` the leaf symbols of a struct type are undefined. -/
theorem leaf_symbol_undefined {L : Type} (env : CoreTypes L) (zcm : ZCMGen) (little : Bool)
    (fuel : Nat) (tn : String) (zs : ZCMStruct) (h : zcm.findStruct tn = some zs) (buf : Buf)
    (off len : Nat) (p : Val L) (n : Nat) :
    encode_array env zcm little fuel true tn buf off len p n = none ∧
    decode_array env zcm little buf fuel true tn off len p n = none := by
  cases fuel <;> simp [encode_array, decode_array, h]

/-- The two ways the generated functions have no behaviour. The loop of depth 15 declares
`int p;`, so the blocks of a member of 17 axes do not compile: `deep_t` has no encoder, no
size function and no decoder. With `little-endian-encoding` the leaf statement of
`outer_t { inner_t i; }` names `__inner_t_encode_little_endian_array`, which no file
defines, while without the option `outer_t` encodes in 12 bytes. -/
theorem unbuilt_schemas :
    loopVar 15 = "p" ∧ loopsCompile 15 0 = true ∧ loopsCompile 16 0 = false ∧
    deepSchema.loopVarsUsable = false ∧
    (encode intEnv deepSchema false 1 "deep_t" HashState.init zeroBuf 0 100
      deepV).isNone = true ∧
    encoded_size intEnv deepSchema 1 "deep_t" deepV = none ∧
    pairSchema.leafSymbolsDefined true = false ∧
    pairSchema.leafSymbolsDefined false = true ∧
    (encode intEnv pairSchema true 2 "outer_t" HashState.init zeroBuf 0 100 outerV).isNone
      = true ∧
    (encode intEnv pairSchema false 2 "outer_t" HashState.init zeroBuf 0 100 outerV).map
      (fun r => r.1.ret) = some 12 := by
  decide

/-! ## The cleanup on zeroed storage -/

theorem quiet_nil : Quiet (some ⟨false, []⟩) :=
  ⟨[], rfl, fun _ h => absurd h (List.not_mem_nil _)⟩

theorem thenDo_quiet {a b : Option CleanupOut} (ha : Quiet a) (hb : Quiet b) :
    Quiet (thenDo a b) := by
  obtain ⟨ea, rfl, hea⟩ := ha
  obtain ⟨eb, rfl, heb⟩ := hb
  refine ⟨ea ++ eb, ?_, ?_⟩
  · simp [thenDo]
  · intro e he
    rcases List.mem_append.mp he with h | h
    · exact hea e h
    · exact heb e h

theorem forCount_quiet (body : Nat → Option CleanupOut) (k : Nat) :
    ∀ i, (∀ a, i ≤ a → a < i + k → Quiet (body a)) → Quiet (forCount body i k) := by
  induction k with
  | zero => intro i _; exact quiet_nil
  | succ k ih =>
    intro i h
    rw [forCount]
    refine thenDo_quiet (h i (Nat.le_refl _) (by omega)) (ih (i + 1) ?_)
    intro a h1 h2
    exact h a (by omega) (by omega)

theorem membersDo_quiet (block : ZCMMember → Option CleanupOut) (ms : List ZCMMember)
    (h : ∀ zm, zm ∈ ms → Quiet (block zm)) : Quiet (membersDo block ms) := by
  induction ms with
  | nil => exact quiet_nil
  | cons zm rest ih =>
    rw [membersDo]
    exact thenDo_quiet (h zm (List.mem_cons_self _ _))
      (ih (fun m hm => h m (List.mem_cons_of_mem _ hm)))

theorem freeGuard_false {L : Type} (member : String) (d : Nat) (acc : Option (Mem L)) :
    freeGuard false member d acc = some ⟨false, []⟩ := by
  simp [freeGuard]

theorem freeGuard_null {L : Type} (frees : Bool) (member : String) (d : Nat) :
    freeGuard frees member d (some (Mem.null : Mem L)) = some ⟨false, []⟩ := by
  cases frees <;> simp [freeGuard]

theorem index_replicate {L : Type} (n : Nat) (m : Mem L) (a : Nat) (ha : a < n) :
    Mem.index (some (Mem.arr (List.replicate n m))) a = some m := by
  simp [Mem.index, List.getElem?_replicate, ha]

/-- The storage of each member of a zeroed record is where the layout puts it. -/
theorem zeroFields_get {L : Type} (f : ZCMMember → Option (Mem L)) :
    ∀ (ms : List ZCMMember) (fs : List (Mem L)), zeroFields f ms = some fs →
      ∀ (i : Nat) (zm : ZCMMember), ms.get? i = some zm →
        ∃ m, fs.get? i = some m ∧ f zm = some m := by
  intro ms
  induction ms with
  | nil => intro fs _ i zm h; simp at h
  | cons a rest ih =>
    intro fs h i zm hi
    rw [zeroFields] at h
    cases hfa : f a with
    | none => rw [hfa] at h; simp at h
    | some m =>
      rw [hfa] at h
      cases hr : zeroFields f rest with
      | none => rw [hr] at h; simp at h
      | some ms =>
        rw [hr] at h
        simp only [Option.some.injEq] at h
        subst h
        cases i with
        | zero =>
          simp only [List.get?_cons_zero, Option.some.injEq] at hi
          subst hi
          exact ⟨m, rfl, hfa⟩
        | succ j =>
          simp only [List.get?_cons_succ] at hi
          exact ih ms hr j zm hi

/-- A member of a struct without repeated names is found at its position. -/
theorem fieldIndex_of_mem (ms : List ZCMMember)
    (hnd : (ms.map (fun m => m.membername)).Nodup) (zm : ZCMMember) (hm : zm ∈ ms) :
    ∃ i, fieldIndex ms zm.membername = some i ∧ ms.get? i = some zm := by
  obtain ⟨pre, rest, rfl⟩ := List.append_of_mem hm
  refine ⟨pre.length, fieldIndex_middle pre zm rest hnd, ?_⟩
  rw [List.get?_eq_getElem?, List.getElem?_append_right (Nat.le_refl _)]
  simp

/-- The cleanup of zero elements does nothing, for a primitive and, given one unit of
fuel, for a struct. -/
theorem cleanup_array_zero {L : Type} (env : CoreTypes L) (zcm : ZCMGen) (g : Nat)
    (tn : String) (p : Mem L) (hg : 1 ≤ g) : Quiet (cleanup_array env zcm g tn p 0) := by
  obtain ⟨g, rfl⟩ : ∃ k, g = k + 1 := ⟨g - 1, by omega⟩
  rw [cleanup_array]
  cases zcm.findStruct tn with
  | none => exact ⟨_, rfl, fun e he => ⟨tn, 0, by simpa using he⟩⟩
  | some zs => exact quiet_nil

/-- The cleanup of a primitive type is a call of `zcm_coretypes.h`. -/
theorem cleanup_array_prim {L : Type} (env : CoreTypes L) (zcm : ZCMGen) (g : Nat)
    (tn : String) (p : Mem L) (n : Nat) (h : zcm.findStruct tn = none) :
    Quiet (cleanup_array env zcm g tn p n) := by
  cases g with
  | zero =>
    rw [cleanup_array, h]
    exact ⟨_, rfl, fun e he => ⟨tn, n, by simpa using he⟩⟩
  | succ g =>
    rw [cleanup_array, h]
    exact ⟨_, rfl, fun e he => ⟨tn, n, by simpa using he⟩⟩

/-- The extents of a constant-shaped member do not depend on the record. -/
theorem memArraySize_const {L : Type} (env : CoreTypes L) (zs : ZCMStruct) (zm : ZCMMember)
    (hc : zm.isConstantSizeArray = true) (r : List (Mem L)) (d : Nat) :
    memArraySize env zs zm r d = memArraySize env zs zm [] d := by
  unfold memArraySize
  by_cases hl : zm.dimensions.length = 0
  · simp only [hl, if_true]
  · simp only [hl, if_false]
    cases hd : zm.dimensions.get? d with
    | none => rfl
    | some zd =>
      have hmem : zd ∈ zm.dimensions := List.get?_mem hd
      have hmode : zd.mode = ZCMDimensionMode.ZCM_CONST := by
        simp only [ZCMMember.isConstantSizeArray, List.all_eq_true, decide_eq_true_eq] at hc
        exact hc zd hmem
      simp only [hmode]

theorem toU32_le_toNat (e : Int) (he : 0 ≤ e) : toU32 e ≤ e.toNat := by
  unfold toU32
  have h1 : (2 : Int) ^ 32 = 4294967296 := by norm_num
  rw [h1]
  omega

/-- The loops of the cleanup over the zeroed inline storage of a constant-shaped member
index inside the storage and release nothing. -/
theorem cleanupLoops_zero_const {L : Type} (size : Nat → Option Int) (name : String)
    (leaf : Option (Mem L) → Option CleanupOut) (leafRun : Nat → Option (Mem L)) (last : Nat)
    (hleaf : ∀ e m, size last = some e → 0 ≤ e → leafRun e.toNat = some m →
      Quiet (leaf (some m))) :
    ∀ k d m, loopsCompile k d = true → k + d = last → zeroLoops size leafRun k d = some m →
      Quiet (cleanupLoops size false name leaf k d (some m)) := by
  intro k
  induction k with
  | zero =>
    intro d m _ hkd h
    have hd : d = last := by omega
    subst hd
    rw [zeroLoops] at h
    rw [cleanupLoops, freeGuard_false]
    refine thenDo_quiet ?_ quiet_nil
    cases hs : size d with
    | none => rw [hs] at h; simp at h
    | some e =>
      rw [hs] at h
      by_cases he : e < 0
      · simp [he] at h
      · simp only [he, if_false] at h
        exact hleaf e m hs (by omega) h
  | succ k ih =>
    intro d m hc hkd h
    have hc1 : loopsCompile k (d + 1) = true := by
      simp only [loopsCompile, Bool.and_eq_true] at hc
      exact hc.2
    rw [zeroLoops] at h
    rw [cleanupLoops, freeGuard_false]
    simp only [hc, ↓reduceIte]
    cases hs : size d with
    | none => rw [hs] at h; simp at h
    | some e =>
      rw [hs] at h
      by_cases he : e < 0
      · simp [he] at h
      · simp only [he, if_false] at h
        cases hin : zeroLoops size leafRun k (d + 1) with
        | none => rw [hin] at h; simp at h
        | some m1 =>
          rw [hin] at h
          simp only [Option.some.injEq] at h
          subst h
          refine thenDo_quiet (forCount_quiet _ _ 0 ?_) quiet_nil
          intro a _ ha
          rw [index_replicate _ _ _ (by omega)]
          exact ih (d + 1) m1 hc1 (by omega) hin

/-- The zeroed storage of a scalar member of primitive type is one zero. -/
theorem zeroMember_scalar {L : Type} (env : CoreTypes L) (zcm : ZCMGen)
    (below : String → Option (Mem L)) (zs : ZCMStruct) (sm : ZCMMember)
    (hd : sm.dimensions = []) (hp : zcm.findStruct sm.type.nameUnderscore = none) :
    zeroMember env zcm below zs sm = some (Mem.prims [env.ofInt 0]) := by
  simp [zeroMember, ZCMMember.isConstantSizeArray, hd, zeroLoops, memArraySize, zeroElems, hp]

/-- What `leadingVar` says of a variable-shaped member. -/
theorem leadingVar_var (zcm : ZCMGen) (zs : ZCMStruct) (zm : ZCMMember)
    (h : leadingVar zcm zs zm = true) (hv : zm.isConstantSizeArray = false) :
    ∃ zd j sm, zm.dimensions.get? 0 = some zd ∧ zd.mode = ZCMDimensionMode.ZCM_VAR ∧
      fieldIndex zs.members zd.size = some j ∧ zs.members.get? j = some sm ∧
      sm.dimensions = [] ∧ zcm.findStruct sm.type.nameUnderscore = none := by
  unfold leadingVar at h
  rw [hv, Bool.false_or] at h
  cases hh : zm.dimensions.head? with
  | none => rw [hh] at h; simp at h
  | some zd =>
    rw [hh] at h
    simp only [Bool.and_eq_true, decide_eq_true_eq] at h
    obtain ⟨hmode, h⟩ := h
    cases hj : fieldIndex zs.members zd.size with
    | none => rw [hj] at h; simp at h
    | some j =>
      rw [hj] at h
      dsimp only at h
      cases hsm : zs.members.get? j with
      | none => rw [hsm] at h; simp at h
      | some sm =>
        rw [hsm] at h
        simp only [Bool.and_eq_true, List.isEmpty_iff, Option.isNone_iff_eq_none] at h
        refine ⟨zd, j, sm, ?_, hmode, hj, hsm, h.1, h.2⟩
        cases hdims : zm.dimensions with
        | nil => rw [hdims] at hh; simp at hh
        | cons a rest =>
          rw [hdims] at hh
          simp only [List.head?_cons, Option.some.injEq] at hh
          simp [hh]

/-- The block of the cleanup for one member, run on the zeroed record, is quiet: inline
storage is indexed inside its extent, and a null handle is guarded by a loop of zero
turns. -/
theorem cleanupMember_zero {L : Type} (env : CoreTypes L) (zcm : ZCMGen)
    (hz : env.asInt (env.ofInt 0) = 0) (zs : ZCMStruct)
    (hnd : (zs.members.map (fun m => m.membername)).Nodup)
    (hrank : ∀ zm, zm ∈ zs.members → zm.dimensions.length ≤ 16)
    (hlv : ∀ zm, zm ∈ zs.members → leadingVar zcm zs zm = true)
    (below : String → Option (Mem L)) (callee : String → Mem L → Nat → Option CleanupOut)
    (hcal0 : ∀ tn p, Quiet (callee tn p 0))
    (hcalp : ∀ tn p n, zcm.findStruct tn = none → Quiet (callee tn p n))
    (hcals : ∀ tn r n c, below tn = some r → c ≤ n →
      Quiet (callee tn (Mem.arr (List.replicate n r)) c))
    (fs : List (Mem L))
    (hfs : zeroFields (zeroMember env zcm below zs) zs.members = some fs)
    (zm : ZCMMember) (hm : zm ∈ zs.members) :
    Quiet (cleanupMember env callee zs fs zm) := by
  obtain ⟨i, hi, hget⟩ := fieldIndex_of_mem zs.members hnd zm hm
  obtain ⟨m, hfm, hzm⟩ := zeroFields_get _ _ _ hfs i zm hget
  unfold cleanupMember
  rw [hi]
  simp only [hfm]
  cases hc : zm.isConstantSizeArray with
  | true =>
    simp only [zeroMember, hc, if_true] at hzm
    simp only [Bool.not_true]
    have hsize : memArraySize env zs zm fs = memArraySize env zs zm [] :=
      funext (fun d => memArraySize_const env zs zm hc fs d)
    rw [← hsize] at hzm
    refine cleanupLoops_zero_const _ _ _ _ (zm.dimensions.length - 1) ?_ _ _ _
      (loopsCompile_member zm (hrank zm hm)) (by omega) hzm
    intro e m1 he hnn hrun
    unfold cleanupLeaf
    rw [he]
    simp only []
    unfold zeroElems at hrun
    cases hf : zcm.findStruct zm.type.nameUnderscore with
    | none => exact hcalp _ _ _ hf
    | some zs1 =>
      rw [hf] at hrun
      simp only [] at hrun
      cases hb : below zm.type.nameUnderscore with
      | none => rw [hb] at hrun; simp at hrun
      | some r =>
        rw [hb] at hrun
        simp only [Option.some.injEq] at hrun
        subst hrun
        exact hcals _ r _ _ hb (toU32_le_toNat e hnn)
  | false =>
    simp only [zeroMember, hc, Bool.false_eq_true, if_false, Option.some.injEq] at hzm
    subst hzm
    simp only [Bool.not_false]
    obtain ⟨zd, j, sm, hd0, hmode, hj, hsm, hsd, hsp⟩ := leadingVar_var zcm zs zm (hlv zm hm) hc
    obtain ⟨ms, hfj, hzs⟩ := zeroFields_get _ _ _ hfs j sm hsm
    rw [zeroMember_scalar env zcm below zs sm hsd hsp, Option.some.injEq] at hzs
    subst hzs
    have hlen : zm.dimensions.length ≠ 0 := by
      intro h0
      rw [List.length_eq_zero] at h0
      rw [h0] at hd0
      simp at hd0
    have hsize0 : memArraySize env zs zm fs 0 = some 0 := by
      simp only [memArraySize, hlen, if_false, hd0, hmode, memReadInt, hj, hfj, hz]
    cases hk : zm.dimensions.length - 1 with
    | zero =>
      rw [cleanupLoops, freeGuard_null]
      refine thenDo_quiet ?_ quiet_nil
      unfold cleanupLeaf
      rw [hk, hsize0]
      exact hcal0 _ _
    | succ k =>
      have hc := loopsCompile_member zm (hrank zm hm)
      rw [hk] at hc
      rw [cleanupLoops, freeGuard_null]
      simp only [hc, ↓reduceIte, hsize0]
      exact thenDo_quiet quiet_nil quiet_nil

/-- On a schema whose members have at most 16 axes and whose variable-shaped members all
have a `ZCM_VAR` leading axis, the cleanup of a run of zeroed records is quiet. -/
theorem cleanup_array_zero_quiet {L : Type} (env : CoreTypes L) (zcm : ZCMGen)
    (hz : env.asInt (env.ofInt 0) = 0) (hl : zcm.loopVarsUsable = true)
    (hs : zcm.leadingVar = true) :
    ∀ (f : Nat) (tn : String) (z : Mem L), zeroMem env zcm f tn = some z →
      ∀ g, f + 1 ≤ g → ∀ n c, c ≤ n →
        Quiet (cleanup_array env zcm g tn (Mem.arr (List.replicate n z)) c) := by
  intro f
  induction f with
  | zero => intro tn z h; simp [zeroMem] at h
  | succ f ih =>
    intro tn z h g hg n c hc
    obtain ⟨g, rfl⟩ : ∃ k, g = k + 1 := ⟨g - 1, by omega⟩
    rw [zeroMem] at h
    rw [cleanup_array]
    cases hfind : zcm.findStruct tn with
    | none => rw [hfind] at h; simp at h
    | some zs =>
      rw [hfind] at h
      simp only [] at h ⊢
      cases hfs : zeroFields (zeroMember env zcm (zeroMem env zcm f) zs) zs.members with
      | none => rw [hfs] at h; simp at h
      | some fs =>
        rw [hfs] at h
        simp only [Option.some.injEq] at h
        subst h
        have hzs : zs ∈ zcm.structs := List.mem_of_find?_eq_some hfind
        have hs1 := hs
        simp only [ZCMGen.leadingVar, List.all_eq_true, Bool.and_eq_true,
          decide_eq_true_eq] at hs1
        obtain ⟨hnd, hlv⟩ := hs1 zs hzs
        unfold cleanupStructArray
        refine forCount_quiet _ _ 0 ?_
        intro a _ ha
        rw [index_replicate _ _ _ (by omega)]
        simp only []
        refine membersDo_quiet _ _ (fun zm hm => ?_)
        refine cleanupMember_zero env zcm hz zs hnd (loopVarsUsable_mem zcm hl tn zs hfind)
          hlv (zeroMem env zcm f)
          (cleanup_array env zcm g) ?_ ?_ ?_ fs hfs zm hm
        · intro tn1 p
          exact cleanup_array_zero env zcm g tn1 p (by omega)
        · intro tn1 p n1 hp
          exact cleanup_array_prim env zcm g tn1 p n1 hp
        · intro tn1 r n1 c1 hb hc1
          exact ih tn1 r hb g (by omega) n1 c1 hc1

/-- C11, counterexample. The struct `grid_t { int32_t n; int8_t cells[3][n]; }` has the
variable-shaped member `cells` with a `ZCM_CONST` leading axis. Zeroed, `n` is `0` and the
handle `cells` is null. `grid_t_decode_cleanup` cleans `n`, then enters the loop
`for (a = 0; a < 3; ++a)` of `cells` and evaluates `p[element].cells[a]`, an index through
the null handle: it faults there, whatever the fuel, and returns nothing. For `deep_t`,
whose constant-shaped member has 17 axes, the loop of depth 15 declares `int p;` around
the leaf statement that reads `p[element]`: `deep_t_decode_cleanup` does not compile and
returns nothing for the zeroed `deep_t`. -/
theorem cleanup_zero_indexes_null :
    zeroMem intEnv gridSchema 1 "grid_t" = some gridZero ∧
    (∀ g, decode_cleanup intEnv gridSchema (g + 1) "grid_t" gridZero
      = some ⟨true, [CleanupEvent.leaf "int32_t" 1]⟩) ∧
    (CleanupOut.mk true [CleanupEvent.leaf "int32_t" 1]).ret = none ∧
    thinCells.dimensions.length = 17 ∧ deepSchema.leadingVar = true ∧
    zeroMem intEnv deepSchema 1 "deep_t" = some deepZero ∧
    (∀ g, decode_cleanup intEnv deepSchema g "deep_t" deepZero = none) := by
  refine ⟨rfl, ?_, rfl, by decide, by decide, rfl, ?_⟩
  · intro g
    cases g <;> rfl
  · intro g
    cases g <;> rfl

/-- C11, amended. In a schema where no member has more than 16 axes (the cleanup of a
member of 17 axes reads `p[element]` inside the block that declares `int p;` and does not
compile) and every variable-shaped member has a `ZCM_VAR` leading axis (and no struct
repeats a member name), for every struct type that has a zeroed value
`z`, `S_decode_cleanup` applied to `z` runs to its end with any fuel above that of the
value: it never indexes through a null handle, it runs no `free` (every guard it reaches
finds a null handle and skips), all it does is call cleanups of `zcm_coretypes.h`, and it
returns 0. -/
theorem cleanup_of_zero_value_is_quiet {L : Type} (env : CoreTypes L) (zcm : ZCMGen)
    (f : Nat) (tn : String) (z : Mem L)
    (hz : env.asInt (env.ofInt 0) = 0) (hl : zcm.loopVarsUsable = true)
    (hs : zcm.leadingVar = true)
    (hzero : zeroMem env zcm f tn = some z) :
    ∀ g, f + 1 ≤ g →
      ∃ evs, decode_cleanup env zcm g tn z = some ⟨false, evs⟩ ∧
        (CleanupOut.mk false evs).ret = some 0 ∧
        (∀ t d, CleanupEvent.free t d ∉ evs) ∧
        ∀ e, e ∈ evs → ∃ t n, e = CleanupEvent.leaf t n := by
  intro g hg
  obtain ⟨evs, h1, h2⟩ := cleanup_array_zero_quiet env zcm hz hl hs f tn z hzero g hg 1 1
    (Nat.le_refl _)
  refine ⟨evs, h1, rfl, ?_, h2⟩
  intro t d hmem
  obtain ⟨t1, n1, he⟩ := h2 _ hmem
  cases he

theorem cleanup_of_zero_value_is_quiet_witness :
    intEnv.asInt (intEnv.ofInt 0) = 0 ∧ tableSchema.loopVarsUsable = true ∧
    tableSchema.leadingVar = true ∧
    zeroMem intEnv tableSchema 2 "table_t" = some tableZero ∧
    ∃ evs, decode_cleanup intEnv tableSchema 3 "table_t" tableZero = some ⟨false, evs⟩ ∧
      (CleanupOut.mk false evs).ret = some 0 ∧
      (∀ t d, CleanupEvent.free t d ∉ evs) ∧
      ∀ e, e ∈ evs → ∃ t n, e = CleanupEvent.leaf t n :=
  ⟨rfl, by decide, by decide, rfl,
   cleanup_of_zero_value_is_quiet intEnv tableSchema 2 "table_t" tableZero rfl (by decide)
     (by decide) rfl 3 (by decide)⟩

end ZCM
